import Mathlib

/-!
# ZeroBit compression engine

A shallow embedding of `ZeroBit/Compressor.cpp`: the Burrows-Wheeler transform,
move-to-front coding, zero run-length coding, the bit predictors, the binary
range coder and the block driver, followed by theorems about them.

Conventions.
* A byte is a `Nat` below 256; a byte string or byte vector is a `List Nat`.
* Unsigned machine integers are `Nat` reduced explicitly (`u8`, `u16`, `u32`,
  `u64`) at every operation that can wrap.
* `std::string::npos` is `2^64 - 1` (a 64-bit `size_t`).
* Whether plain `char` is signed is implementation-defined in C++; the one
  function that compares `char` values, `bwtTransform`, takes it as the
  parameter `signedChar` (`true` on the x86 and x86-64 compilers).
* A run that leaves defined behaviour or throws (an out-of-range read, a
  negative vector length) is `none`.
* The `Mixer` computes in `double` with `log` and `exp`; it is a parameter of
  the driver (see `Mixer`).
-/

namespace ZeroBit

/-! ## Machine integers -/

/-- Conversion to `uint8_t`. -/
def u8 (x : Nat) : Nat := x % 256

/-- Conversion to `uint16_t`. -/
def u16 (x : Nat) : Nat := x % 65536

/-- Conversion to `uint32_t`. -/
def u32 (x : Nat) : Nat := x % 4294967296

/-- Conversion to `uint64_t` (and `size_t`). -/
def u64 (x : Nat) : Nat := x % 18446744073709551616

/-- The conversion `int(x)` of a `size_t`: the low 32 bits read in two's complement. -/
def toInt (x : Nat) : Int :=
  if x % 4294967296 < 2147483648 then ((x % 4294967296 : Nat) : Int)
  else ((x % 4294967296 : Nat) : Int) - 4294967296

/-- The sentinel `std::string::npos`. -/
def npos : Nat := 18446744073709551615

/-- Size of the match and LZP windows, `1 << 20`. -/
def WINDOW_SIZE : Nat := 1048576

/-- Little-endian bytes of a `uint32_t`, as `out.write` stores it. -/
def le32 (x : Nat) : List Nat :=
  [x % 256, x / 256 % 256, x / 65536 % 256, x / 16777216 % 256]

/-- Little-endian bytes of a `uint64_t`, as `out.write` stores it. -/
def le64 (x : Nat) : List Nat :=
  le32 (x % 4294967296) ++ le32 (x / 4294967296 % 4294967296)

/-- Reads a little-endian `uint32_t` back from four bytes. -/
def rd32 (b0 b1 b2 b3 : Nat) : Nat :=
  b0 + 256 * b1 + 65536 * b2 + 16777216 * b3

/-! ## Burrows-Wheeler transform -/

/-- The value of a byte held in a C++ `char`. -/
def charVal (signedChar : Bool) (b : Nat) : Int :=
  if signedChar && decide (128 ≤ b) then (b : Int) - 256 else (b : Int)

/-- Indexing `s[i]` of a byte string. -/
def byteAt (s : List Nat) (i : Nat) : Nat := s.getD i 0

/-- The comparator loop of `bwtTransform` from offset `k`, with `fuel` iterations left:
`for (k; k < n; ++k) { ca = s[(a+k)%n]; cb = s[(b+k)%n]; if (ca != cb) return ca < cb; }
return false;`. -/
def rotLessFrom (signedChar : Bool) (s : List Nat) (n a b : Nat) : Nat → Nat → Bool
  | 0, _ => false
  | fuel + 1, k =>
    let ca := byteAt s ((a + k) % n)
    let cb := byteAt s ((b + k) % n)
    if ca ≠ cb then decide (charVal signedChar ca < charVal signedChar cb)
    else rotLessFrom signedChar s n a b fuel (k + 1)

/-- The comparator lambda passed to `std::sort` in `bwtTransform`. -/
def rotLess (signedChar : Bool) (s : List Nat) (n a b : Nat) : Bool :=
  rotLessFrom signedChar s n a b n 0

/-- Insertion of the index `a` into a list ordered by `lt`: after the entries that are not
above it. -/
def insertIdx (lt : Nat → Nat → Bool) (a : Nat) : List Nat → List Nat
  | [] => [a]
  | b :: t => if lt a b then a :: b :: t else b :: insertIdx lt a t

/-- The call `std::sort(first, last, lt)`, as an insertion sort taking the elements in
order.  `std::sort` leaves the order of equivalent elements unspecified; the model keeps
them in their original order, which is one admissible result. -/
def sortIdx (lt : Nat → Nat → Bool) (l : List Nat) : List Nat :=
  l.foldl (fun sorted a => insertIdx lt a sorted) []

/-- The loop `for (i = 0; i < n; ++i) if (idx[i] == 0) primary = i;` from position `i`. -/
def findPrimary : List Nat → Nat → Nat → Nat
  | [], _, primary => primary
  | j :: t, i, primary => findPrimary t (i + 1) (if j = 0 then u32 i else primary)

/-- The function `bwtTransform`.  `int n = int(s.size())`; a negative `n` makes
`std::vector<int> idx(n)` throw, and above `2^30` the sums `a + k` and `j + n - 1`
overflow `int`: both are `none`. -/
def bwtTransform (signedChar : Bool) (s : List Nat) : Option (List Nat × Nat) :=
  if toInt s.length < 0 then none
  else if 1073741824 < toInt s.length then none
  else
    let n := (toInt s.length).toNat
    let idx := sortIdx (rotLess signedChar s n) (List.range n)
    some (idx.map (fun j => byteAt s ((j + n - 1) % n)), findPrimary idx 0 0)

/-- The loop `for (unsigned char c : last) ++count[c];` over a table of 256 zeros. -/
def bwtCount (last : List Nat) : List Nat :=
  last.foldl (fun count c => count.set c (count.getD c 0 + 1)) (List.replicate 256 0)

/-- The loop `for (c = 1; c < 256; ++c) pos[c] = pos[c-1] + count[c-1];`. -/
def bwtPos (count : List Nat) : List Nat :=
  (List.range 255).foldl
    (fun pos c' => pos.set (c' + 1) (pos.getD c' 0 + count.getD c' 0))
    (List.replicate 256 0)

/-- The loop `for (i = 0; i < n; ++i) { c = last[i]; next[pos[c]++] = i; }`, returning
`next`. -/
def bwtNext (last : List Nat) (n : Nat) (pos : List Nat) : List Nat :=
  ((List.range n).foldl
    (fun (st : List Nat × List Nat) i =>
      let c := byteAt last i
      (st.1.set c (st.1.getD c 0 + 1), st.2.set (st.1.getD c 0) i))
    (pos, List.replicate n 0)).2

/-- The output loop of `bwtInverse`: `out[i] = last[idx]; idx = next[idx];`, `k` times. -/
def bwtWalk (last next : List Nat) : Nat → Nat → List Nat
  | 0, _ => []
  | k + 1, idx => byteAt last idx :: bwtWalk last next k (next.getD idx 0)

/-- The function `bwtInverse`.  `next` has `n` entries, so the read `next[primary]` is
out of range when `n ≤ primary` (in particular for every `primary` when the block is
empty): `none`.  Lengths from `2^31` on leave the range of `int n`: `none`. -/
def bwtInverse (last : List Nat) (primary : Nat) : Option (List Nat) :=
  if 2147483648 ≤ last.length then none
  else
    let n := last.length
    let next := bwtNext last n (bwtPos (bwtCount last))
    if primary < n then some (bwtWalk last next n (next.getD primary 0))
    else none

/-! ## Move-to-front -/

/-- The loop of `mtfEncode` over the symbol table: `idx = find(symbols, c) - begin;
out.push_back(idx); symbols.erase(it); symbols.insert(begin, c);`. -/
def mtfEncodeLoop : List Nat → List Nat → List Nat
  | _, [] => []
  | symbols, c :: rest =>
    u8 (symbols.indexOf c) :: mtfEncodeLoop (c :: symbols.eraseIdx (symbols.indexOf c)) rest

/-- The function `mtfEncode`: the table starts as `0, 1, ..., 255`. -/
def mtfEncode (bwt : List Nat) : List Nat := mtfEncodeLoop (List.range 256) bwt

/-- The loop of `mtfDecode`: `c = symbols[idx]; out.push_back(c);
symbols.erase(begin + idx); symbols.insert(begin, c);`. -/
def mtfDecodeLoop : List Nat → List Nat → List Nat
  | _, [] => []
  | symbols, idx :: rest =>
    symbols.getD idx 0 :: mtfDecodeLoop (symbols.getD idx 0 :: symbols.eraseIdx idx) rest

/-- The function `mtfDecode`. -/
def mtfDecode (mtf : List Nat) : List Nat := mtfDecodeLoop (List.range 256) mtf

/-! ## Zero run-length coding -/

/-- The inner loop of `rleZero`,
`while (i + run < mtf.size() && mtf[i + run] == 0 && run < 255) ++run;`,
where the list is `mtf` from position `i + run` on. -/
def zeroRun : List Nat → Nat → Nat
  | [], run => run
  | b :: t, run => if b = 0 ∧ run < 255 then zeroRun t (run + 1) else run

/-- The outer loop of `rleZero` on `mtf` from position `i` on; every iteration advances
`i`, so `fuel` = the number of bytes left is enough. -/
def rleZeroLoop : Nat → List Nat → List Nat
  | 0, _ => []
  | _ + 1, [] => []
  | fuel + 1, b :: t =>
    if b = 0 then 0 :: u8 (zeroRun t 1) :: rleZeroLoop fuel (t.drop (zeroRun t 1 - 1))
    else b :: rleZeroLoop fuel t

/-- The function `rleZero`. -/
def rleZero (mtf : List Nat) : List Nat := rleZeroLoop mtf.length mtf

/-- The function `rleZeroDecode`: a zero that has a follower is expanded to `run` zeros,
every other byte (a final zero included) is copied. -/
def rleZeroDecode : List Nat → List Nat
  | [] => []
  | [b] => [b]
  | b :: r :: t =>
    if b = 0 then List.replicate r 0 ++ rleZeroDecode t
    else b :: rleZeroDecode (r :: t)

/-! ## Predictors -/

/-- A table indexed by numbers (an `unordered_map`, or a large vector of which few entries
are ever written), kept as the list of its writes, latest first. -/
abbrev Table (α : Type) := List (Nat × α)

/-- The entry last written under `i`, if any. -/
def Table.find {α : Type} (t : Table α) (i : Nat) : Option α := List.lookup i t

/-- The entry last written under `i`, or the initial value `d`. -/
def Table.get {α : Type} (t : Table α) (i : Nat) (d : α) : α := (List.lookup i t).getD d

/-- The table after the write `t[i] = v`. -/
def Table.put {α : Type} (t : Table α) (i : Nat) (v : α) : Table α := (i, v) :: t

/-- Counter table of the context models, `unordered_map<uint32_t, pair<uint32_t, uint32_t>>`. -/
abbrev CountTable := Table (Nat × Nat)

/-- The prediction of the context models from the bucket found for the key:
`c0 = c1 = 1`, or `first + 1` and `second + 1` when present;
`uint16_t((uint64_t(c1) * 0xFFFF) / (c0 + c1))`. -/
def countPredict (e : Option (Nat × Nat)) : Nat :=
  let c0 := match e with
    | some v => u32 (v.1 + 1)
    | none => 1
  let c1 := match e with
    | some v => u32 (v.2 + 1)
    | none => 1
  u16 (c1 * 65535 / u32 (c0 + c1))

/-- The update `auto& entry = table[key]; if (bit) ++entry.second; else ++entry.first;`
(`table[key]` creates the pair `(0, 0)` when the key is absent). -/
def countBump (table : CountTable) (key bit : Nat) : CountTable :=
  if bit ≠ 0 then table.put key ((table.get key (0, 0)).1, u32 ((table.get key (0, 0)).2 + 1))
  else table.put key (u32 ((table.get key (0, 0)).1 + 1), (table.get key (0, 0)).2)

/-- The class `ByteContextModel`. -/
structure ByteContextModel where
  /-- Number of bytes of context. -/
  order : Nat
  /-- Counters per context key. -/
  table : CountTable
  /-- The last `order` bytes, oldest first. -/
  history : List Nat
deriving DecidableEq

/-- Constructor `ByteContextModel(ord)`. -/
def ByteContextModel.new (ord : Nat) : ByteContextModel :=
  { order := ord, table := [], history := [] }

/-- The key loop `for (auto b : history) key = (key << 8) | b;` on a `uint32_t`. -/
def byteKey (history : List Nat) : Nat :=
  history.foldl (fun key b => u32 (key <<< 8) ||| b) 0

/-- Method `ByteContextModel::predict`. -/
def ByteContextModel.predict (m : ByteContextModel) : Nat :=
  if m.history.length < m.order then 32768
  else countPredict (m.table.find (byteKey m.history))

/-- Method `ByteContextModel::updateBit`. -/
def ByteContextModel.updateBit (m : ByteContextModel) (bit : Nat) : ByteContextModel :=
  if m.history.length < m.order then m
  else { m with table := countBump m.table (byteKey m.history) bit }

/-- Method `ByteContextModel::updateByte`. -/
def ByteContextModel.updateByte (m : ByteContextModel) (b : Nat) : ByteContextModel :=
  if m.history.length = m.order then { m with history := m.history.tail ++ [b] }
  else { m with history := m.history ++ [b] }

/-- The class `BitContextModel`. -/
structure BitContextModel where
  /-- Number of bits of context. -/
  order : Nat
  /-- Counters per context key. -/
  table : CountTable
  /-- The last `order` bits, oldest first. -/
  history : List Bool
deriving DecidableEq

/-- Constructor `BitContextModel(ord)`. -/
def BitContextModel.new (ord : Nat) : BitContextModel :=
  { order := ord, table := [], history := [] }

/-- The key loop `for (bool b : history) key = (key << 1) | (b ? 1 : 0);` on a `uint32_t`. -/
def bitKey (history : List Bool) : Nat :=
  history.foldl (fun key b => u32 (key <<< 1) ||| (if b then 1 else 0)) 0

/-- Method `BitContextModel::predict`. -/
def BitContextModel.predict (m : BitContextModel) : Nat :=
  if m.history.length < m.order then 32768
  else countPredict (m.table.find (bitKey m.history))

/-- Method `BitContextModel::updateBit`. -/
def BitContextModel.updateBit (m : BitContextModel) (bit : Nat) : BitContextModel :=
  if m.history.length < m.order then { m with history := m.history ++ [decide (bit ≠ 0)] }
  else
    { m with
      table := countBump m.table (bitKey m.history) bit
      history := m.history.tail ++ [decide (bit ≠ 0)] }

/-- Method `BitContextModel::updateByte`: empty. -/
def BitContextModel.updateByte (m : BitContextModel) (_b : Nat) : BitContextModel := m

/-- The class `MatchModel`. -/
structure MatchModel where
  /-- Length of the hashed context. -/
  contextSize : Nat
  /-- The window of `WINDOW_SIZE` bytes, all zero at first. -/
  buffer : Table Nat
  /-- Next write position in the window. -/
  bufPos : Nat
  /-- Map `unordered_map<uint64_t, size_t>` from context key to window position. -/
  lastPos : Table Nat
  /-- Position of the current match, or `npos`. -/
  matchPos : Nat
  /-- Length of the current match. -/
  matchLen : Nat
  /-- Bits of the current byte seen so far. -/
  bitPos : Nat
deriving DecidableEq

/-- Constructor `MatchModel(ctxSize)`. -/
def MatchModel.new (ctxSize : Nat) : MatchModel :=
  { contextSize := ctxSize, buffer := [], bufPos := 0, lastPos := [],
    matchPos := npos, matchLen := 0, bitPos := 0 }

/-- Method `MatchModel::predict`.  `bitPos` stays in `0..7`, so `7 - bitPos` is a valid
shift. -/
def MatchModel.predict (m : MatchModel) : Nat :=
  if m.matchPos = npos ∨ m.matchLen < 1 then 32768
  else
    let nextByte := m.buffer.get (u64 (m.matchPos + m.matchLen) % WINDOW_SIZE) 0
    let nextBit := (nextByte >>> (7 - m.bitPos)) &&& 1
    let confidence :=
      if m.matchLen = 1 then 256
      else if m.matchLen = 2 then 1024
      else if m.matchLen = 3 then 4096
      else 8192
    let p := if nextBit ≠ 0 then 32768 + confidence else 32768 - confidence
    u16 (min (max p 1) 65534)

/-- Method `MatchModel::updateBit`. -/
def MatchModel.updateBit (m : MatchModel) (_bit : Nat) : MatchModel :=
  if m.bitPos + 1 = 8 then
    if 0 < m.matchLen ∧ m.matchPos ≠ npos then
      if WINDOW_SIZE ≤ m.matchLen + 1 then
        { m with bitPos := 0, matchLen := 0, matchPos := npos }
      else
        { m with bitPos := 0, matchLen := m.matchLen + 1,
                 matchPos := u64 (m.matchPos + 1) % WINDOW_SIZE }
    else { m with bitPos := 0 }
  else { m with bitPos := m.bitPos + 1 }

/-- The key loop of `MatchModel::updateByte`,
`for (i = 0; i < contextSize; ++i) key = (key << 8) | buffer[(base + i) % WINDOW_SIZE];`
on a `uint64_t`. -/
def matchKey (buffer : Table Nat) (base contextSize : Nat) : Nat :=
  (List.range contextSize).foldl
    (fun key i => u64 (key <<< 8) ||| buffer.get ((base + i) % WINDOW_SIZE) 0) 0

/-- Method `MatchModel::updateByte`. -/
def MatchModel.updateByte (m : MatchModel) (b : Nat) : MatchModel :=
  if m.contextSize ≤ m.bufPos ∨ m.bufPos ≥ m.contextSize then
    let base :=
      if m.bufPos ≥ m.contextSize then m.bufPos - m.contextSize
      else WINDOW_SIZE + m.bufPos - m.contextSize
    let key := matchKey (m.buffer.put m.bufPos b) base m.contextSize
    match m.lastPos.find key with
    | some q =>
      { m with buffer := m.buffer.put m.bufPos b, matchPos := q, matchLen := 1, bitPos := 0,
               lastPos := m.lastPos.put key m.bufPos,
               bufPos := (m.bufPos + 1) % WINDOW_SIZE }
    | none =>
      { m with buffer := m.buffer.put m.bufPos b, matchPos := npos, matchLen := 0, bitPos := 0,
               lastPos := m.lastPos.put key m.bufPos,
               bufPos := (m.bufPos + 1) % WINDOW_SIZE }
  else { m with buffer := m.buffer.put m.bufPos b, bufPos := (m.bufPos + 1) % WINDOW_SIZE }

/-- The class `LZPModel`. -/
structure LZPModel where
  /-- Byte buffer of `WINDOW_SIZE` entries, all zero at first. -/
  buf : Table Nat
  /-- Chain pointers, all `npos` at first. -/
  nxt : Table Nat
  /-- Next write position. -/
  pos : Nat
  /-- Previous byte. -/
  prev : Nat
deriving DecidableEq

/-- Constructor `LZPModel()`. -/
def LZPModel.new : LZPModel :=
  { buf := [], nxt := [], pos := 0, prev := 0 }

/-- Method `LZPModel::predict`. -/
def LZPModel.predict (m : LZPModel) : Nat :=
  if m.nxt.get m.pos npos = npos then 32768
  else if m.buf.get (u64 (m.nxt.get m.pos npos + 1) % WINDOW_SIZE) 0 &&& 128 ≠ 0 then 49152
  else 16384

/-- Method `LZPModel::updateBit`: empty. -/
def LZPModel.updateBit (m : LZPModel) (_bit : Nat) : LZPModel := m

/-- Method `LZPModel::updateByte`: `buf[pos] = b; key = (size_t(prev) << 8) | b;
nxt[pos] = nxt[key % N]; nxt[key % N] = pos; prev = b; pos = (pos + 1) % N;`. -/
def LZPModel.updateByte (m : LZPModel) (b : Nat) : LZPModel :=
  { buf := m.buf.put m.pos b,
    nxt := (m.nxt.put m.pos (m.nxt.get (((m.prev <<< 8) ||| b) % WINDOW_SIZE) npos)).put
             (((m.prev <<< 8) ||| b) % WINDOW_SIZE) m.pos,
    prev := b, pos := (m.pos + 1) % WINDOW_SIZE }

/-- The eight predictors the driver builds, in the order of its `mods` vector. -/
structure Models where
  /-- Byte context model of order 1. -/
  bcm1 : ByteContextModel
  /-- Byte context model of order 2. -/
  bcm2 : ByteContextModel
  /-- Byte context model of order 3. -/
  bcm3 : ByteContextModel
  /-- Byte context model of order 4. -/
  bcm4 : ByteContextModel
  /-- Bit context model of order 24. -/
  bitm : BitContextModel
  /-- Match model with context length 4. -/
  match4 : MatchModel
  /-- Match model with context length 8. -/
  match8 : MatchModel
  /-- The LZP model. -/
  lzp : LZPModel
deriving DecidableEq

/-- The freshly constructed predictors of `compress` and `decompress`. -/
def Models.new : Models :=
  { bcm1 := ByteContextModel.new 1, bcm2 := ByteContextModel.new 2,
    bcm3 := ByteContextModel.new 3, bcm4 := ByteContextModel.new 4,
    bitm := BitContextModel.new 24, match4 := MatchModel.new 4, match8 := MatchModel.new 8,
    lzp := LZPModel.new }

/-- The predictions `mods[i]->predict()` in the order of `mods`. -/
def Models.predict (ms : Models) : List Nat :=
  [ms.bcm1.predict, ms.bcm2.predict, ms.bcm3.predict, ms.bcm4.predict,
   ms.bitm.predict, ms.match4.predict, ms.match8.predict, ms.lzp.predict]

/-- The loop `for (IModel* m : mods) m->updateBit(bit);`. -/
def Models.updateBit (ms : Models) (bit : Nat) : Models :=
  { bcm1 := ms.bcm1.updateBit bit, bcm2 := ms.bcm2.updateBit bit,
    bcm3 := ms.bcm3.updateBit bit, bcm4 := ms.bcm4.updateBit bit,
    bitm := ms.bitm.updateBit bit, match4 := ms.match4.updateBit bit,
    match8 := ms.match8.updateBit bit, lzp := ms.lzp.updateBit bit }

/-- The loop `for (auto* m : mods) m->updateByte(byte);`. -/
def Models.updateByte (ms : Models) (b : Nat) : Models :=
  { bcm1 := ms.bcm1.updateByte b, bcm2 := ms.bcm2.updateByte b,
    bcm3 := ms.bcm3.updateByte b, bcm4 := ms.bcm4.updateByte b,
    bitm := ms.bitm.updateByte b, match4 := ms.match4.updateByte b,
    match8 := ms.match8.updateByte b, lzp := ms.lzp.updateByte b }

/-! ## Mixer -/

/-- The class `Mixer`, as a parameter.  Its weights are `double`s and `mix` and `update`
go through `std::log` and `std::exp`, which this embedding does not interpret; what the
driver relies on is only that both are functions of the weights, the predictions read
from the models, and (for `update`) the coded probability and bit. -/
structure Mixer where
  /-- The weight vector. -/
  W : Type
  /-- The weights after construction. -/
  init : W
  /-- Method `mix()`, given the predictions of the models; the driver stores the result
  in a `uint16_t`. -/
  mix : W → List Nat → Nat
  /-- Method `update(p1, bit)`, given the predictions of the models. -/
  update : W → List Nat → Nat → Nat → W

/-! ## Range coder -/

/-- The class `RangeCoder`; `os` is what has been put on the output stream so far. -/
structure RangeCoder where
  /-- Lower end of the interval, `uint32_t`. -/
  low : Nat
  /-- Upper end of the interval, `uint32_t`. -/
  high : Nat
  /-- Pending complement bytes, `uint32_t`. -/
  follow : Nat
  /-- Bytes written so far. -/
  os : List Nat
deriving DecidableEq

/-- Constructor `RangeCoder(o)` on an empty stream. -/
def RangeCoder.new : RangeCoder :=
  { low := 0, high := 4294967295, follow := 0, os := [] }

/-- The computation `bound = low + (uint64_t(range) * (0xFFFF - p1) >> 16)` with
`range = high - low + 1`, all in `uint32_t` apart from the product; `p1` is a
`uint16_t` parameter. -/
def coderBound (low high p1 : Nat) : Nat :=
  u32 (low + ((u32 (high + 4294967296 - low + 1) * (65535 - u16 p1)) >>> 16))

/-- The loop `for (;;)` of `RangeCoder::encode`, at most `fuel` iterations. -/
def RangeCoder.renorm : Nat → RangeCoder → RangeCoder
  | 0, c => c
  | fuel + 1, c =>
    if c.high &&& 4278190080 = c.low &&& 4278190080 then
      RangeCoder.renorm fuel
        { low := u32 (c.low <<< 8), high := u32 (c.high <<< 8) ||| 255, follow := 0,
          os := c.os ++ [u8 (c.high >>> 24)] ++
                List.replicate c.follow (u8 (4294967295 - (c.high >>> 24))) }
    else if c.low &&& 2147483648 ≠ 0 ∧ c.high &&& 2147483648 = 0 then
      RangeCoder.renorm fuel
        { low := u32 (c.low <<< 1) &&& 2147483647,
          high := u32 ((c.high ^^^ 2147483648) <<< 1) ||| 1,
          follow := u32 (c.follow + 1), os := c.os }
    else c

/-- Method `RangeCoder::encode`.  Every iteration of its loop shifts `low` and `high` by at
least one bit, and after 32 bits they are `0` and `0xFFFFFFFF`, where the loop stops: 32
iterations are enough (`encRenorm_fuel`). -/
def RangeCoder.encode (c : RangeCoder) (bit p1 : Nat) : RangeCoder :=
  RangeCoder.renorm 32
    (if bit ≠ 0 then { c with low := u32 (coderBound c.low c.high p1 + 1) }
     else { c with high := coderBound c.low c.high p1 })

/-- Method `RangeCoder::finish`: four times `os.put(low >> 24); low <<= 8;`. -/
def RangeCoder.finish (c : RangeCoder) : RangeCoder :=
  { c with
    low := u32 (u32 (u32 (u32 (c.low <<< 8) <<< 8) <<< 8) <<< 8)
    os := c.os ++ [u8 (c.low >>> 24), u8 (u32 (c.low <<< 8) >>> 24),
                   u8 (u32 (u32 (c.low <<< 8) <<< 8) >>> 24),
                   u8 (u32 (u32 (u32 (c.low <<< 8) <<< 8) <<< 8) >>> 24)] }

/-- The class `RangeDecoder`; `is` is what is left of the input stream. -/
structure RangeDecoder where
  /-- Lower end of the interval, `uint32_t`. -/
  low : Nat
  /-- Upper end of the interval, `uint32_t`. -/
  high : Nat
  /-- The window of the code stream, `uint32_t`. -/
  code : Nat
  /-- Unread input bytes. -/
  is : List Nat
deriving DecidableEq

/-- The expression `static_cast<uint8_t>(is.get())`: the next byte, or the conversion of
`EOF` (-1) once the stream is exhausted. -/
def getByte (is : List Nat) : Nat := u8 (is.headD 4294967295)

/-- Constructor `RangeDecoder(i)`: four times `code = (code << 8) | uint8_t(is.get())`. -/
def RangeDecoder.new (is : List Nat) : RangeDecoder :=
  { low := 0, high := 4294967295,
    code := u32 ((u32 ((u32 ((u32 (0 <<< 8) ||| getByte is) <<< 8)
              ||| getByte is.tail) <<< 8) ||| getByte is.tail.tail) <<< 8)
              ||| getByte is.tail.tail.tail,
    is := is.tail.tail.tail.tail }

/-- The loop `for (;;)` of `RangeDecoder::decode`, at most `fuel` iterations. -/
def RangeDecoder.renorm : Nat → RangeDecoder → RangeDecoder
  | 0, d => d
  | fuel + 1, d =>
    if d.high &&& 4278190080 = d.low &&& 4278190080 then
      RangeDecoder.renorm fuel
        { low := u32 (d.low <<< 8), high := u32 (d.high <<< 8) ||| 255,
          code := u32 (d.code <<< 8) ||| getByte d.is, is := d.is.tail }
    else if d.low &&& 2147483648 ≠ 0 ∧ d.high &&& 2147483648 = 0 then
      RangeDecoder.renorm fuel
        { low := u32 (d.low <<< 1) &&& 2147483647,
          high := u32 ((d.high ^^^ 2147483648) <<< 1) ||| 1,
          code := u32 ((d.code ^^^ 2147483648) <<< 1) ||| (getByte d.is &&& 1),
          is := d.is.tail }
    else d

/-- Method `RangeDecoder::decode`: the decoded bit and the decoder after it.  As in
`encode`, 32 iterations of the loop are enough (`decRenorm_fuel`). -/
def RangeDecoder.decode (d : RangeDecoder) (p1 : Nat) : Nat × RangeDecoder :=
  if d.code ≤ coderBound d.low d.high p1 then
    (0, RangeDecoder.renorm 32 { d with high := coderBound d.low d.high p1 })
  else
    (1, RangeDecoder.renorm 32 { d with low := u32 (coderBound d.low d.high p1 + 1) })

/-- Feeding `(bits[i], ps[i])` to `encode` in order, then `finish`: the byte stream. -/
def encodeBits (bits ps : List Nat) : List Nat :=
  (((bits.zip ps).foldl (fun c bp => c.encode bp.1 bp.2) RangeCoder.new).finish).os

/-- Calling `decode(ps[i])` in order on a decoder. -/
def decodeLoop : RangeDecoder → List Nat → List Nat
  | _, [] => []
  | d, p :: ps => (d.decode p).1 :: decodeLoop (d.decode p).2 ps

/-- A fresh `RangeDecoder` on `stream`, calling `decode(ps[i])` in order: the bits. -/
def decodeBits (stream ps : List Nat) : List Nat :=
  decodeLoop (RangeDecoder.new stream) ps

/-! ## Block driver and container -/

/-- The predictors and mixer weights the driver threads through the coding loop. -/
structure Coding (M : Mixer) where
  /-- The eight predictors. -/
  mods : Models
  /-- The mixer weights. -/
  w : M.W

/-- The state after the constructors at the top of `compress` and `decompress`. -/
def Coding.new (M : Mixer) : Coding M := { mods := Models.new, w := M.init }

/-- The body of the bit loop of `compress`: `p1 = mixer.mix(); coder.encode(bit, p1);
mixer.update(p1, bit); for (m : mods) m->updateBit(bit);`. -/
def encodeBit (M : Mixer) (st : Coding M × RangeCoder) (bit : Nat) : Coding M × RangeCoder :=
  let p1 := u16 (M.mix st.1.w st.1.mods.predict)
  ({ mods := st.1.mods.updateBit bit, w := M.update st.1.w st.1.mods.predict p1 bit },
   st.2.encode bit p1)

/-- The body of the byte loop of `compress`: the bits `(byte >> b) & 1` for `b = 7..0`,
then `updateByte(byte)` on every model. -/
def encodeByte (M : Mixer) (st : Coding M × RangeCoder) (byte : Nat) : Coding M × RangeCoder :=
  let st8 := [7, 6, 5, 4, 3, 2, 1, 0].foldl
    (fun st b => encodeBit M st ((byte >>> b) &&& 1)) st
  ({ mods := st8.1.mods.updateByte byte, w := st8.1.w }, st8.2)

/-- One block record of the container. -/
structure BlockRecord where
  /-- Field `blockLen`, `uint32_t`. -/
  blockLen : Nat
  /-- Field `primary`, `uint32_t`. -/
  primary : Nat
  /-- Field `rleCount`, `uint32_t`. -/
  rleCount : Nat
  /-- Field `compSize`, `uint32_t`. -/
  compSize : Nat
  /-- The coded bytes written after the four fields. -/
  payload : List Nat
deriving DecidableEq

/-- The bytes of a block record as `compress` writes them. -/
def BlockRecord.bytes (r : BlockRecord) : List Nat :=
  le32 r.blockLen ++ le32 r.primary ++ le32 r.rleCount ++ le32 r.compSize ++ r.payload

/-- The block record `compress` builds from the input: BWT, MTF, RLE0, then the coding
loop and `finish`; `none` when `bwtTransform` does not return. -/
def compressBlock (M : Mixer) (signedChar : Bool) (input : List Nat) : Option BlockRecord :=
  match bwtTransform signedChar input with
  | none => none
  | some (bwtLast, primary) =>
    let rle := rleZero (mtfEncode bwtLast)
    let compData := ((rle.foldl (encodeByte M) (Coding.new M, RangeCoder.new)).2.finish).os
    some { blockLen := u32 input.length, primary := primary, rleCount := u32 rle.length,
           compSize := u32 compData.length, payload := compData }

/-- The function `Compressor::compress` on the contents of the input file: the contents of
the output file, `fullSize` as 8 little-endian bytes and then the one block record. -/
def compress (M : Mixer) (signedChar : Bool) (input : List Nat) : Option (List Nat) :=
  (compressBlock M signedChar input).map (fun r => le64 (u64 input.length) ++ r.bytes)

/-- The body of the bit loop of `decompress`: `p1 = mixer.mix(); bit = dec.decode(p1);
mixer.update(p1, bit); updateBit on every model; c |= (uint8_t(bit) << b);`. -/
def decodeBit (M : Mixer) (st : Coding M × RangeDecoder × Nat) (b : Nat) :
    Coding M × RangeDecoder × Nat :=
  let p1 := u16 (M.mix st.1.w st.1.mods.predict)
  let r := st.2.1.decode p1
  ({ mods := st.1.mods.updateBit r.1, w := M.update st.1.w st.1.mods.predict p1 r.1 },
   r.2, u8 (st.2.2 ||| (u8 r.1 <<< b)))

/-- The body of the byte loop of `decompress`: eight decoded bits, then `updateByte(c)`
on every model; returns the byte `c` as third component. -/
def decodeByte (M : Mixer) (st : Coding M × RangeDecoder) : Coding M × RangeDecoder × Nat :=
  let st8 := [7, 6, 5, 4, 3, 2, 1, 0].foldl (decodeBit M) (st.1, st.2, 0)
  ({ mods := st8.1.mods.updateByte st8.2.2, w := st8.1.w }, st8.2.1, st8.2.2)

/-- The loop `for (i = 0; i < rleCount; ++i)` of `decompress`, appending to `rle`. -/
def decodeBytes (M : Mixer) : Nat → Coding M × RangeDecoder → List Nat →
    Coding M × List Nat
  | 0, st, rle => (st.1, rle)
  | k + 1, st, rle =>
    decodeBytes M k ((decodeByte M st).1, (decodeByte M st).2.1) (rle ++ [(decodeByte M st).2.2])

/-- The call `out.write(block.data(), blockLen)`: the first `blockLen` characters of the
block; the terminator at `block.data()[block.size()]` may still be read, anything beyond
is out of range. -/
def writeBlock (block : List Nat) (blockLen : Nat) : Option (List Nat) :=
  if blockLen ≤ block.length then some (block.take blockLen)
  else if blockLen = block.length + 1 then some (block ++ [0])
  else none

/-- The little-endian `uint32_t` that `in.read` takes from position `i` of the unread
bytes. -/
def rd32At (bytes : List Nat) (i : Nat) : Nat :=
  rd32 (bytes.getD i 0) (bytes.getD (i + 1) 0) (bytes.getD (i + 2) 0) (bytes.getD (i + 3) 0)

/-- The loop `while (true)` of `decompress` on the unread container bytes.  The loop ends
when fewer than four bytes are left for `blockLen`; the other three fields are read
unchecked, so a header cut short leaves them indeterminate (`none`); a payload cut short
is completed with the zeros of `buf`.  Every iteration reads at least 16 bytes, which
bounds `fuel` (`decompressLoop_fuel`). -/
def decompressLoop (M : Mixer) : Nat → Coding M → List Nat → List Nat → Option (List Nat)
  | 0, _, _, _ => none
  | fuel + 1, st, rest, out =>
    if rest.length < 4 then some out
    else if rest.length < 16 then none
    else
      match bwtInverse
          (mtfDecode (rleZeroDecode
            (decodeBytes M (rd32At rest 8)
              (st, RangeDecoder.new
                ((rest.drop 16).take (rd32At rest 12) ++
                  List.replicate (rd32At rest 12 - (rest.drop 16).length) 0)) []).2))
          (rd32At rest 4) with
      | none => none
      | some block =>
        match writeBlock block (rd32At rest 0) with
        | none => none
        | some written =>
          decompressLoop M fuel
            (decodeBytes M (rd32At rest 8)
              (st, RangeDecoder.new
                ((rest.drop 16).take (rd32At rest 12) ++
                  List.replicate (rd32At rest 12 - (rest.drop 16).length) 0)) []).1
            ((rest.drop 16).drop (rd32At rest 12)) (out ++ written)

/-- The function `Compressor::decompress` on the contents of the container file: the
contents of the output file. -/
def decompress (M : Mixer) (container : List Nat) : Option (List Nat) :=
  decompressLoop M (container.length + 1) (Coding.new M) (container.drop 8) []

/-- Reading the bytes after `fullSize` as block records, each four little-endian
`uint32_t` fields followed by exactly `compSize` payload bytes, with nothing left over. -/
def parseBlocks : Nat → List Nat → Option (List BlockRecord)
  | 0, bytes => if bytes = [] then some [] else none
  | fuel + 1, bytes =>
    if bytes = [] then some []
    else if bytes.length < 16 + rd32At bytes 12 then none
    else
      (parseBlocks fuel ((bytes.drop 16).drop (rd32At bytes 12))).map
        (fun rs => { blockLen := rd32At bytes 0, primary := rd32At bytes 4,
                     rleCount := rd32At bytes 8, compSize := rd32At bytes 12,
                     payload := (bytes.drop 16).take (rd32At bytes 12) } :: rs)

/-- Reading all of `bytes` as block records. -/
def parseRecords (bytes : List Nat) : Option (List BlockRecord) :=
  parseBlocks bytes.length bytes

/-! ## Auxiliary notions for the statements -/

/-- The move-to-front table holds every byte: 256 entries, among them each value below
256. -/
def SymbolTable (symbols : List Nat) : Prop :=
  symbols.length = 256 ∧ ∀ c, c < 256 → c ∈ symbols

/-- The low `k` bits of `low` are 0 and those of `high` are 1 (`k` bits have been shifted
in), both being 32-bit values. -/
def Settled (k low high : Nat) : Prop :=
  low < 4294967296 ∧ high < 4294967296 ∧ 2 ^ k ∣ low ∧ 2 ^ k ∣ high + 1

/-- A mixer to instantiate concrete runs with: it has no weights and always answers
32768.  The theorems below quantify over every `Mixer`; this one only serves where a
closed example is evaluated. -/
def flatMixer : Mixer :=
  { W := Unit, init := (), mix := fun _ _ => 32768, update := fun _ _ _ _ => () }

/-- The container `compress` writes for the empty input: `fullSize = 0`, then the record
`blockLen = 0, primary = 0, rleCount = 0, compSize = 4` and the four bytes of `finish`. -/
def emptyContainer : List Nat :=
  [0, 0, 0, 0, 0, 0, 0, 0,  0, 0, 0, 0,  0, 0, 0, 0,  0, 0, 0, 0,  4, 0, 0, 0,  0, 0, 0, 0]

/-! ## Notions used to state the properties -/

/-- A well-formed RLE0 stream: a concatenation of tokens, each either one non-zero byte or
a pair `(0, r)` with `1 ≤ r ≤ 255`. -/
inductive RleTokens : List Nat → Prop
  | nil : RleTokens []
  | byte (b : Nat) (t : List Nat) : b ≠ 0 → RleTokens t → RleTokens (b :: t)
  | run (r : Nat) (t : List Nat) : 1 ≤ r → r ≤ 255 → RleTokens t → RleTokens (0 :: r :: t)

/-- The pairs that stand for a run of `n` zeros: `n / 255` times `(0, 255)`, then
`(0, n % 255)` when that remainder is not 0. -/
def runTokens (n : Nat) : List Nat :=
  (List.replicate (n / 255) [0, 255]).flatten ++ (if n % 255 ≠ 0 then [0, n % 255] else [])

/-- The key of a context: its bytes packed into a `uint64_t`, the first byte highest, as
the loop `key = (key << 8) | byte` does on the bytes in order. -/
def contextKey (bytes : List Nat) : Nat :=
  bytes.foldl (fun key x => u64 (key <<< 8) ||| x) 0

/-- A `MatchModel` of context size 4 that has stored the bytes `1, 2, 3, 4` at positions
`0 .. 3` and holds position 0 in `lastPos` under the key of the bytes `2, 3, 4, 5`. -/
def matchExample : MatchModel :=
  { contextSize := 4, buffer := [(3, 4), (2, 3), (1, 2), (0, 1)], bufPos := 4,
    lastPos := [(33752069, 0)], matchPos := npos, matchLen := 0, bitPos := 0 }

/-- The container of the two-block scenario of the specification: `fullSize = |a| + |b|`
as 8 bytes, then the block record `compress` writes for `a`, then the block record it
writes for `b`. -/
def twoBlockContainer (M : Mixer) (signedChar : Bool) (a b : List Nat) : Option (List Nat) :=
  match compressBlock M signedChar a, compressBlock M signedChar b with
  | some ra, some rb => some (le64 (u64 (a.length + b.length)) ++ ra.bytes ++ rb.bytes)
  | _, _ => none

/-! ## Rotation keys and ranks, for the proofs about the block transform -/

/-- The `fuel` bytes of the rotation of `s` starting at `a`, from offset `k` on, read as a
number in base 256 (first byte highest). -/
def keyFrom (s : List Nat) (n a : Nat) : Nat → Nat → Nat
  | 0, _ => 0
  | fuel + 1, k => byteAt s ((a + k) % n) * 256 ^ fuel + keyFrom s n a fuel (k + 1)

/-- The whole rotation of `s` starting at `a`, read as a number in base 256. -/
def rotKey (s : List Nat) (n a : Nat) : Nat := keyFrom s n a n 0

/-- The number of entries of `last` below the byte `c`. -/
def lessCount (last : List Nat) (c : Nat) : Nat := last.countP (fun x => decide (x < c))

/-- The slot the counting sort of `bwtInverse` gives to row `i`: the rows with a smaller
byte come first, then the earlier rows with the same byte. -/
def bwtRank (last : List Nat) (i : Nat) : Nat :=
  lessCount last (byteAt last i) + (last.take i).count (byteAt last i)

/-! ## The renormalisation loops, with the branches they take -/

/-- The loop `for (;;)` of `RangeCoder::encode` once more, recording the branch of every
iteration: `true` for the byte branch (top bytes equal), `false` for the straddle branch.
The result is `none` when the loop has not reached its `break` within `fuel` tests of the
loop conditions. -/
def RangeCoder.renormTrace : Nat → RangeCoder → Option (List Bool)
  | 0, _ => none
  | fuel + 1, c =>
    if c.high &&& 4278190080 = c.low &&& 4278190080 then
      (RangeCoder.renormTrace fuel
        { low := u32 (c.low <<< 8), high := u32 (c.high <<< 8) ||| 255, follow := 0,
          os := c.os ++ [u8 (c.high >>> 24)] ++
                List.replicate c.follow (u8 (4294967295 - (c.high >>> 24))) }).map
        (fun tr => true :: tr)
    else if c.low &&& 2147483648 ≠ 0 ∧ c.high &&& 2147483648 = 0 then
      (RangeCoder.renormTrace fuel
        { low := u32 (c.low <<< 1) &&& 2147483647,
          high := u32 ((c.high ^^^ 2147483648) <<< 1) ||| 1,
          follow := u32 (c.follow + 1), os := c.os }).map
        (fun tr => false :: tr)
    else some []

/-- The loop `for (;;)` of `RangeDecoder::decode` once more, recording the branch of every
iteration as `RangeCoder.renormTrace` does. -/
def RangeDecoder.renormTrace : Nat → RangeDecoder → Option (List Bool)
  | 0, _ => none
  | fuel + 1, d =>
    if d.high &&& 4278190080 = d.low &&& 4278190080 then
      (RangeDecoder.renormTrace fuel
        { low := u32 (d.low <<< 8), high := u32 (d.high <<< 8) ||| 255,
          code := u32 (d.code <<< 8) ||| getByte d.is, is := d.is.tail }).map
        (fun tr => true :: tr)
    else if d.low &&& 2147483648 ≠ 0 ∧ d.high &&& 2147483648 = 0 then
      (RangeDecoder.renormTrace fuel
        { low := u32 (d.low <<< 1) &&& 2147483647,
          high := u32 ((d.high ^^^ 2147483648) <<< 1) ||| 1,
          code := u32 ((d.code ^^^ 2147483648) <<< 1) ||| (getByte d.is &&& 1),
          is := d.is.tail }).map
        (fun tr => false :: tr)
    else some []

/-! ## One match model under the block driver -/

/-- The calls the block driver makes on one `MatchModel` for one byte: for the bits
`b = 7 .. 0`, `predict()` and then `updateBit((byte >> b) & 1)`, and after them
`updateByte(byte)`.  The result is the model after the byte and the eight states in which
`predict` was called. -/
def MatchModel.driveByte (m : MatchModel) (byte : Nat) : MatchModel × List MatchModel :=
  let st8 := [7, 6, 5, 4, 3, 2, 1, 0].foldl
    (fun (st : MatchModel × List MatchModel) b =>
      (st.1.updateBit ((byte >>> b) &&& 1), st.2 ++ [st.1])) (m, [])
  (st8.1.updateByte byte, st8.2)

/-- The states in which `predict` is called on one `MatchModel` while the block driver
codes the bytes of a stream. -/
def MatchModel.drive : MatchModel → List Nat → List MatchModel
  | _, [] => []
  | m, byte :: rest => (m.driveByte byte).2 ++ MatchModel.drive (m.driveByte byte).1 rest

set_option maxRecDepth 100000

/-! ## Zero run-length coding: round trip -/

theorem zeroRun_ge (t : List Nat) (run : Nat) : run ≤ zeroRun t run := by
  induction t generalizing run with
  | nil => simp [zeroRun]
  | cons b t ih =>
    simp only [zeroRun]
    split
    · exact Nat.le_trans (Nat.le_succ run) (ih (run + 1))
    · exact Nat.le_refl run

theorem zeroRun_le (t : List Nat) (run : Nat) (h : run ≤ 255) : zeroRun t run ≤ 255 := by
  induction t generalizing run with
  | nil => simpa [zeroRun] using h
  | cons b t ih =>
    simp only [zeroRun]
    split
    · rename_i hb
      exact ih (run + 1) (by omega)
    · exact h

theorem zeroRun_take (t : List Nat) (run : Nat) :
    t.take (zeroRun t run - run) = List.replicate (zeroRun t run - run) 0 := by
  induction t generalizing run with
  | nil => simp [zeroRun]
  | cons b t ih =>
    simp only [zeroRun]
    split
    · rename_i hb
      have h1 := zeroRun_ge t (run + 1)
      have h2 : zeroRun t (run + 1) - run = (zeroRun t (run + 1) - (run + 1)) + 1 := by omega
      rw [h2, List.take_succ_cons, List.replicate_succ, ih (run + 1), hb.1]
    · simp

theorem rleZeroDecode_cons_ne (b : Nat) (rest : List Nat) (hb : b ≠ 0) :
    rleZeroDecode (b :: rest) = b :: rleZeroDecode rest := by
  cases rest with
  | nil => simp [rleZeroDecode]
  | cons r t => simp [rleZeroDecode, hb]

theorem rleZeroDecode_rleZeroLoop (fuel : Nat) (l : List Nat) (h : l.length ≤ fuel) :
    rleZeroDecode (rleZeroLoop fuel l) = l := by
  induction fuel generalizing l with
  | zero =>
    have : l = [] := List.length_eq_zero.mp (Nat.le_zero.mp h)
    subst this
    simp [rleZeroLoop, rleZeroDecode]
  | succ fuel ih =>
    cases l with
    | nil => simp [rleZeroLoop, rleZeroDecode]
    | cons b t =>
      simp only [List.length_cons, Nat.add_le_add_iff_right] at h
      simp only [rleZeroLoop]
      split
      · rename_i hb
        have h1 := zeroRun_ge t 1
        have h2 := zeroRun_le t 1 (by omega)
        have h3 := zeroRun_take t 1
        have h4 : u8 (zeroRun t 1) = zeroRun t 1 := by
          unfold u8
          exact Nat.mod_eq_of_lt (by omega)
        have h5 : (t.drop (zeroRun t 1 - 1)).length ≤ fuel := by
          rw [List.length_drop]
          omega
        rw [h4]
        obtain ⟨k, hk⟩ : ∃ k, zeroRun t 1 = k + 1 := ⟨zeroRun t 1 - 1, by omega⟩
        rw [hk] at h3 h5 ⊢
        simp only [Nat.add_sub_cancel] at h3 h5 ⊢
        simp only [rleZeroDecode, if_true]
        rw [ih _ h5, hb, List.replicate_succ, List.cons_append, ← h3, List.take_append_drop]
      · rename_i hb
        rw [rleZeroDecode_cons_ne b _ hb, ih t h]

/-- C4. Decoding the zero run-length coding of any byte sequence gives the sequence
back: `rleZeroDecode (rleZero x) = x`, whatever the lengths of its zero runs and
wherever they lie. -/
theorem rleZeroDecode_rleZero (x : List Nat) : rleZeroDecode (rleZero x) = x :=
  rleZeroDecode_rleZeroLoop x.length x (Nat.le_refl _)

/-! ## Move-to-front: round trip -/

theorem symbolTable_range : SymbolTable (List.range 256) :=
  ⟨List.length_range 256, fun _ hc => List.mem_range.mpr hc⟩

theorem symbolTable_step (symbols : List Nat) (c : Nat) (hs : SymbolTable symbols)
    (hc : c < 256) : SymbolTable (c :: symbols.eraseIdx (symbols.indexOf c)) := by
  have hmem : c ∈ symbols := hs.2 c hc
  have hlt : symbols.indexOf c < symbols.length := List.indexOf_lt_length.mpr hmem
  refine ⟨?_, ?_⟩
  · rw [List.length_cons, List.length_eraseIdx_of_lt hlt, hs.1]
  · intro d hd
    by_cases hdc : d = c
    · subst hdc
      exact List.mem_cons_self _ _
    · refine List.mem_cons_of_mem _ ?_
      rw [List.mem_eraseIdx_iff_getElem]
      obtain ⟨i, hi, hget⟩ := List.getElem_of_mem (hs.2 d hd)
      refine ⟨i, hi, ?_, hget⟩
      intro hidx
      apply hdc
      rw [← hget]
      subst hidx
      exact List.getElem_indexOf hlt

theorem mtfDecodeLoop_mtfEncodeLoop (x symbols : List Nat) (hs : SymbolTable symbols)
    (hx : ∀ c ∈ x, c < 256) : mtfDecodeLoop symbols (mtfEncodeLoop symbols x) = x := by
  induction x generalizing symbols with
  | nil => simp [mtfEncodeLoop, mtfDecodeLoop]
  | cons c rest ih =>
    have hc : c < 256 := hx c (List.mem_cons_self _ _)
    have hmem : c ∈ symbols := hs.2 c hc
    have hlt : symbols.indexOf c < symbols.length := List.indexOf_lt_length.mpr hmem
    have hu : u8 (symbols.indexOf c) = symbols.indexOf c := by
      unfold u8
      exact Nat.mod_eq_of_lt (by rw [← hs.1]; exact hlt)
    have hget : symbols.getD (symbols.indexOf c) 0 = c := by
      rw [List.getD_eq_getElem _ _ hlt]
      exact List.getElem_indexOf hlt
    simp only [mtfEncodeLoop, mtfDecodeLoop, hu, hget]
    rw [ih _ (symbolTable_step symbols c hs hc) (fun d hd => hx d (List.mem_cons_of_mem _ hd))]

/-- C5. Move-to-front decoding inverts move-to-front encoding on every byte sequence:
`mtfDecode (mtfEncode x) = x` when every element of `x` is a byte. -/
theorem mtfDecode_mtfEncode (x : List Nat) (hx : ∀ c ∈ x, c < 256) :
    mtfDecode (mtfEncode x) = x :=
  mtfDecodeLoop_mtfEncodeLoop x (List.range 256) symbolTable_range hx

/-- The round trip of move-to-front on the bytes of `"nnbaaa"`. -/
theorem mtfDecode_mtfEncode_witness :
    (∀ c ∈ [110, 110, 98, 97, 97, 97], c < 256) ∧
      mtfDecode (mtfEncode [110, 110, 98, 97, 97, 97]) = [110, 110, 98, 97, 97, 97] :=
  ⟨by decide, mtfDecode_mtfEncode [110, 110, 98, 97, 97, 97] (by decide)⟩

/-! ## Burrows-Wheeler transform -/

theorem bwtTransform_nil (sc : Bool) : bwtTransform sc [] = some ([], 0) := rfl

/-- C2. On a target where `char` is signed, `bwtInverse` does not undo `bwtTransform` on
the two-byte input `0x80 0x01`: the comparator of `bwtTransform` reads `0x80` as -128 and
puts the rotation starting with it first, giving `("\x01\x80", 0)`, while `bwtInverse`
buckets `last` by `unsigned char` and returns `0x01 0x01`. -/
theorem bwtInverse_bwtTransform_signed :
    bwtTransform true [128, 1] = some ([1, 128], 0) ∧
    bwtInverse [1, 128] 0 = some [1, 1] ∧
    (bwtTransform true [128, 1]).bind (fun r => bwtInverse r.1 r.2) ≠ some [128, 1] := by
  decide

/-- C6. On a target where `char` is signed, `bwtTransform` does not arrange the rotations
of `0x80 0x01` in byte order: it keeps rotation 0 (`0x80 0x01`) before rotation 1
(`0x01 0x80`) although the latter is the smaller byte string, and so returns
`("\x01\x80", 0)` where the byte order (taken when `char` is unsigned) gives
`("\x80\x01", 1)`.  On `"banana"` both readings of `char` give `("nnbaaa", 3)`. -/
theorem bwtTransform_signed_order :
    sortIdx (rotLess true [128, 1] 2) (List.range 2) = [0, 1] ∧
    List.rotate [128, 1] 1 < List.rotate [128, 1] 0 ∧
    bwtTransform true [128, 1] = some ([1, 128], 0) ∧
    bwtTransform false [128, 1] = some ([128, 1], 1) ∧
    bwtTransform true [98, 97, 110, 97, 110, 97] = some ([110, 110, 98, 97, 97, 97], 3) ∧
    bwtTransform false [98, 97, 110, 97, 110, 97] = some ([110, 110, 98, 97, 97, 97], 3) := by
  decide

/-! ## Range coder -/

theorem or_low_bits (y b : Nat) (i : Nat) (hy : 2 ^ i ∣ y) (hb : b < 2 ^ i) :
    y ||| b = y + b := by
  obtain ⟨a, rfl⟩ := hy
  exact (Nat.mul_add_lt_is_or hb a).symm

theorem xor_top_mod (h : Nat) : (h ^^^ 2147483648) % 2147483648 = h % 2147483648 := by
  apply Nat.eq_of_testBit_eq
  intro i
  have e : (2147483648 : Nat) = 2 ^ 31 := by norm_num
  rw [e, Nat.testBit_mod_two_pow, Nat.testBit_mod_two_pow, Nat.testBit_xor, Nat.testBit_two_pow]
  by_cases hi : i < 31
  · have : ¬ (31 = i) := by omega
    simp [hi, this]
  · simp [hi]

/-- The shifted bounds of the byte branch, in arithmetic. -/
theorem shift8_low (l : Nat) : u32 (l <<< 8) = l * 256 % 4294967296 := by
  rw [u32, Nat.shiftLeft_eq]

theorem shift8_high (h : Nat) : u32 (h <<< 8) ||| 255 = h * 256 % 4294967296 + 255 := by
  rw [u32, Nat.shiftLeft_eq]
  exact or_low_bits _ 255 8 (by norm_num; omega) (by norm_num)

/-- The shifted bounds of the straddle branch, in arithmetic. -/
theorem shift1_low (l : Nat) : u32 (l <<< 1) &&& 2147483647 = l * 2 % 2147483648 := by
  have e : (2147483647 : Nat) = 2 ^ 31 - 1 := by norm_num
  rw [u32, Nat.shiftLeft_eq, e, Nat.and_pow_two_sub_one_eq_mod]
  norm_num

theorem shift1_high (h : Nat) :
    u32 ((h ^^^ 2147483648) <<< 1) ||| 1 = h % 2147483648 * 2 + 1 := by
  rw [u32, Nat.shiftLeft_eq]
  have h1 : (h ^^^ 2147483648) * 2 ^ 1 % 4294967296 = h % 2147483648 * 2 := by
    have := xor_top_mod h
    omega
  rw [h1]
  exact or_low_bits _ 1 1 (by norm_num) (by norm_num)


theorem settled_zero (low high : Nat) (hl : low < 4294967296) (hh : high < 4294967296) :
    Settled 0 low high :=
  ⟨hl, hh, by simp, by simp⟩

theorem settled_full (low high k : Nat) (hk : 32 ≤ k) (h : Settled k low high) :
    low = 0 ∧ high = 4294967295 := by
  obtain ⟨hl, hh, h1, h2⟩ := h
  have e : (2 : Nat) ^ 32 ∣ 2 ^ k := Nat.pow_dvd_pow 2 hk
  have h3 : 4294967296 ∣ low := Nat.dvd_trans (by norm_num at e ⊢; exact e) h1
  have h4 : 4294967296 ∣ high + 1 := Nat.dvd_trans (by norm_num at e ⊢; exact e) h2
  omega

theorem settled_shift8 (low high k : Nat) (h : Settled k low high) :
    Settled (k + 8) (low * 256 % 4294967296) (high * 256 % 4294967296 + 255) ∨
    Settled 32 (low * 256 % 4294967296) (high * 256 % 4294967296 + 255) := by
  obtain ⟨hl, hh, h1, h2⟩ := h
  have hb1 : low * 256 % 4294967296 < 4294967296 := Nat.mod_lt _ (by norm_num)
  have hb2 : high * 256 % 4294967296 + 255 < 4294967296 := by omega
  have d1 : 2 ^ (k + 8) ∣ low * 256 := by
    rw [Nat.pow_add]
    exact Nat.mul_dvd_mul h1 (by norm_num)
  have d2 : 2 ^ (k + 8) ∣ high * 256 + 256 := by
    have : high * 256 + 256 = (high + 1) * 256 := by ring
    rw [this, Nat.pow_add]
    exact Nat.mul_dvd_mul h2 (by norm_num)
  by_cases hk : k + 8 ≤ 32
  · left
    have e : (2 : Nat) ^ (k + 8) ∣ 4294967296 := by
      have := Nat.pow_dvd_pow 2 hk
      norm_num at this ⊢
      exact this
    refine ⟨hb1, hb2, (Nat.dvd_mod_iff e).mpr d1, ?_⟩
    have hdm := Nat.div_add_mod (high * 256) 4294967296
    have d3 : 2 ^ (k + 8) ∣ 4294967296 * (high * 256 / 4294967296) := Dvd.dvd.mul_right e _
    have d4 : 2 ^ (k + 8) ∣
        4294967296 * (high * 256 / 4294967296) + (high * 256 % 4294967296 + 255 + 1) := by
      have : 4294967296 * (high * 256 / 4294967296) + (high * 256 % 4294967296 + 255 + 1)
          = high * 256 + 256 := by omega
      rw [this]
      exact d2
    exact (Nat.dvd_add_right d3).mp d4
  · right
    have e : (2 : Nat) ^ 32 ∣ 2 ^ (k + 8) := Nat.pow_dvd_pow 2 (by omega)
    have d1' : 4294967296 ∣ low * 256 := Nat.dvd_trans (by norm_num at e ⊢; exact e) d1
    have d2' : 4294967296 ∣ high * 256 + 256 := Nat.dvd_trans (by norm_num at e ⊢; exact e) d2
    refine ⟨hb1, hb2, ?_, ?_⟩
    · norm_num
      omega
    · norm_num
      omega

theorem settled_shift1 (low high k : Nat) (h : Settled k low high) :
    Settled (k + 1) (low * 2 % 2147483648) (high % 2147483648 * 2 + 1) ∨
    Settled 32 (low * 2 % 2147483648) (high % 2147483648 * 2 + 1) := by
  obtain ⟨hl, hh, h1, h2⟩ := h
  have hb1 : low * 2 % 2147483648 < 4294967296 := by omega
  have hb2 : high % 2147483648 * 2 + 1 < 4294967296 := by omega
  by_cases hk : k + 1 ≤ 31
  · left
    have e : (2 : Nat) ^ (k + 1) ∣ 2147483648 := by
      have := Nat.pow_dvd_pow 2 hk
      norm_num at this ⊢
      exact this
    have e' : (2 : Nat) ^ k ∣ 2147483648 :=
      Nat.dvd_trans (Nat.pow_dvd_pow 2 (Nat.le_succ k)) e
    have d1 : 2 ^ (k + 1) ∣ low * 2 := by
      rw [Nat.pow_succ]
      exact Nat.mul_dvd_mul h1 (Nat.dvd_refl 2)
    refine ⟨hb1, hb2, (Nat.dvd_mod_iff e).mpr d1, ?_⟩
    have hdm := Nat.div_add_mod high 2147483648
    have d3 : 2 ^ k ∣ 2147483648 * (high / 2147483648) := Dvd.dvd.mul_right e' _
    have d4 : 2 ^ k ∣ 2147483648 * (high / 2147483648) + (high % 2147483648 + 1) := by
      have : 2147483648 * (high / 2147483648) + (high % 2147483648 + 1) = high + 1 := by omega
      rw [this]
      exact h2
    have d5 : 2 ^ k ∣ high % 2147483648 + 1 := (Nat.dvd_add_right d3).mp d4
    have : high % 2147483648 * 2 + 1 + 1 = (high % 2147483648 + 1) * 2 := by ring
    rw [this, Nat.pow_succ]
    exact Nat.mul_dvd_mul d5 (Nat.dvd_refl 2)
  · right
    have e : (2 : Nat) ^ 31 ∣ 2 ^ k := Nat.pow_dvd_pow 2 (by omega)
    have d1' : 2147483648 ∣ low := Nat.dvd_trans (by norm_num at e ⊢; exact e) h1
    have d2' : 2147483648 ∣ high + 1 := Nat.dvd_trans (by norm_num at e ⊢; exact e) h2
    refine ⟨hb1, hb2, ?_, ?_⟩
    · norm_num
      omega
    · norm_num
      omega


theorem encRenorm_succ (fuel k : Nat) (c : RangeCoder)
    (h : Settled k c.low c.high) (hf : 32 ≤ k + fuel) :
    RangeCoder.renorm (fuel + 1) c = RangeCoder.renorm fuel c := by
  induction fuel generalizing k c with
  | zero =>
    obtain ⟨hl, hh⟩ := settled_full c.low c.high k (by omega) h
    rw [RangeCoder.renorm, RangeCoder.renorm, hl, hh]
    rfl
  | succ fuel ih =>
    rw [RangeCoder.renorm.eq_2 c (fuel + 1), RangeCoder.renorm.eq_2 c fuel]
    split
    · rw [shift8_low, shift8_high]
      rcases settled_shift8 c.low c.high k h with h8 | h8
      · exact ih (k + 8) _ h8 (by omega)
      · exact ih 32 _ h8 (by omega)
    · split
      · rw [shift1_low, shift1_high]
        rcases settled_shift1 c.low c.high k h with h1 | h1
        · exact ih (k + 1) _ h1 (by omega)
        · exact ih 32 _ h1 (by omega)
      · rfl

/-- More than 32 iterations of the encoder's loop change nothing: the loop has ended. -/
theorem encRenorm_fuel (c : RangeCoder) (hl : c.low < 4294967296)
    (hh : c.high < 4294967296) (extra : Nat) :
    RangeCoder.renorm (32 + extra) c = RangeCoder.renorm 32 c := by
  induction extra with
  | zero => rfl
  | succ extra ih =>
    rw [← ih, ← Nat.add_assoc]
    exact encRenorm_succ _ 0 c (settled_zero _ _ hl hh) (by omega)

theorem decRenorm_succ (fuel k : Nat) (d : RangeDecoder)
    (h : Settled k d.low d.high) (hf : 32 ≤ k + fuel) :
    RangeDecoder.renorm (fuel + 1) d = RangeDecoder.renorm fuel d := by
  induction fuel generalizing k d with
  | zero =>
    obtain ⟨hl, hh⟩ := settled_full d.low d.high k (by omega) h
    rw [RangeDecoder.renorm, RangeDecoder.renorm, hl, hh]
    rfl
  | succ fuel ih =>
    rw [RangeDecoder.renorm.eq_2 d (fuel + 1), RangeDecoder.renorm.eq_2 d fuel]
    split
    · rw [shift8_low, shift8_high]
      rcases settled_shift8 d.low d.high k h with h8 | h8
      · exact ih (k + 8) _ h8 (by omega)
      · exact ih 32 _ h8 (by omega)
    · split
      · rw [shift1_low, shift1_high]
        rcases settled_shift1 d.low d.high k h with h1 | h1
        · exact ih (k + 1) _ h1 (by omega)
        · exact ih 32 _ h1 (by omega)
      · rfl

/-- More than 32 iterations of the decoder's loop change nothing: the loop has ended. -/
theorem decRenorm_fuel (d : RangeDecoder) (hl : d.low < 4294967296)
    (hh : d.high < 4294967296) (extra : Nat) :
    RangeDecoder.renorm (32 + extra) d = RangeDecoder.renorm 32 d := by
  induction extra with
  | zero => rfl
  | succ extra ih =>
    rw [← ih, ← Nat.add_assoc]
    exact decRenorm_succ _ 0 d (settled_zero _ _ hl hh) (by omega)

theorem coderBound_lt (low high p1 : Nat) : coderBound low high p1 < 4294967296 :=
  Nat.mod_lt _ (by norm_num)

theorem encRenorm_bounds (fuel : Nat) (c : RangeCoder) (hl : c.low < 4294967296)
    (hh : c.high < 4294967296) :
    (RangeCoder.renorm fuel c).low < 4294967296 ∧
    (RangeCoder.renorm fuel c).high < 4294967296 := by
  induction fuel generalizing c with
  | zero => exact ⟨hl, hh⟩
  | succ fuel ih =>
    rw [RangeCoder.renorm]
    split
    · apply ih
      · dsimp only
        rw [shift8_low]
        exact Nat.mod_lt _ (by norm_num)
      · dsimp only
        rw [shift8_high]
        omega
    · split
      · apply ih
        · dsimp only
          rw [shift1_low]
          omega
        · dsimp only
          rw [shift1_high]
          omega
      · exact ⟨hl, hh⟩

/-- Every call of `encode` on a coder whose bounds are 32-bit values leaves them so; from
`RangeCoder.new` on, `encRenorm_fuel` therefore applies at every call. -/
theorem encode_bounds (c : RangeCoder) (bit p1 : Nat) (hl : c.low < 4294967296)
    (hh : c.high < 4294967296) :
    (c.encode bit p1).low < 4294967296 ∧ (c.encode bit p1).high < 4294967296 := by
  unfold RangeCoder.encode
  apply encRenorm_bounds
  · split
    · exact Nat.mod_lt _ (by norm_num)
    · exact hl
  · split
    · exact hh
    · exact coderBound_lt _ _ _

theorem decRenorm_bounds (fuel : Nat) (d : RangeDecoder) (hl : d.low < 4294967296)
    (hh : d.high < 4294967296) :
    (RangeDecoder.renorm fuel d).low < 4294967296 ∧
    (RangeDecoder.renorm fuel d).high < 4294967296 := by
  induction fuel generalizing d with
  | zero => exact ⟨hl, hh⟩
  | succ fuel ih =>
    rw [RangeDecoder.renorm]
    split
    · apply ih
      · dsimp only
        rw [shift8_low]
        exact Nat.mod_lt _ (by norm_num)
      · dsimp only
        rw [shift8_high]
        omega
    · split
      · apply ih
        · dsimp only
          rw [shift1_low]
          omega
        · dsimp only
          rw [shift1_high]
          omega
      · exact ⟨hl, hh⟩

/-- Every call of `decode` on a decoder whose bounds are 32-bit values leaves them so. -/
theorem decode_bounds (d : RangeDecoder) (p1 : Nat) (hl : d.low < 4294967296)
    (hh : d.high < 4294967296) :
    (d.decode p1).2.low < 4294967296 ∧ (d.decode p1).2.high < 4294967296 := by
  unfold RangeDecoder.decode
  split
  · exact decRenorm_bounds _ _ hl (coderBound_lt _ _ _)
  · exact decRenorm_bounds _ _ (Nat.mod_lt _ (by norm_num)) hh

/-- C3. The range decoder does not return the bits that were encoded.  Encoding the bits
`1, 0, 1, 1` under the probabilities `32768, 32767, 0, 0` leaves `low = 0x80000001` above
`high = 0x80000000` and writes `80 00 00 01 00 00 00`, from which the decoder reads
`1, 1, 0, 0`.  The same happens under one constant probability: for the 29 bits below,
all coded with `p1 = 16384`, the last two bits come back as `1, 1` instead of `0, 1`. -/
theorem decodeBits_encodeBits_differs :
    encodeBits [1, 0, 1, 1] [32768, 32767, 0, 0] = [128, 0, 0, 1, 0, 0, 0] ∧
    decodeBits [128, 0, 0, 1, 0, 0, 0] [32768, 32767, 0, 0] = [1, 1, 0, 0] ∧
    decodeBits
      (encodeBits
        [1, 0, 0, 1, 1, 0, 1, 0, 0, 1, 1, 1, 0, 1, 0, 0, 0, 1, 0, 1, 0, 1, 0, 0, 0, 1, 1, 0, 1]
        (List.replicate 29 16384))
      (List.replicate 29 16384) =
      [1, 0, 0, 1, 1, 0, 1, 0, 0, 1, 1, 1, 0, 1, 0, 0, 0, 1, 0, 1, 0, 1, 0, 0, 0, 1, 1, 1, 1] := by
  decide

/-! ## The block driver on the empty input -/

theorem compressBlock_nil (M : Mixer) (sc : Bool) :
    compressBlock M sc [] =
      some { blockLen := 0, primary := 0, rleCount := 0, compSize := 4,
             payload := [0, 0, 0, 0] } := by
  have h0 : rleZero (mtfEncode []) = [] := rfl
  simp only [compressBlock, bwtTransform_nil, h0, List.foldl_nil]
  rfl

theorem compress_nil (M : Mixer) (sc : Bool) : compress M sc [] = some emptyContainer := by
  simp only [compress, compressBlock_nil]
  rfl

theorem decompress_emptyContainer (M : Mixer) : decompress M emptyContainer = none := rfl

/-- C7 (as stated, refuted). The container of the empty input is not just the 8 bytes of
`fullSize = 0`, with any mixer and either signedness of `char`. -/
theorem compress_nil_not_bare_fullSize :
    ¬ ∃ (M : Mixer) (sc : Bool), compress M sc [] = some (le64 0) := by
  rintro ⟨M, sc, h⟩
  rw [compress_nil] at h
  revert h
  decide

/-- C7 (amended). For the empty input `compress` writes `fullSize = 0` as 8 little-endian
bytes followed by exactly one block record: `blockLen = 0`, `primary = 0`, `rleCount = 0`,
`compSize = 4` and the four payload bytes `00 00 00 00`; 28 bytes in all. -/
theorem compress_nil_container (M : Mixer) (sc : Bool) :
    compress M sc [] =
      some (le64 0 ++ BlockRecord.bytes
        { blockLen := 0, primary := 0, rleCount := 0, compSize := 4,
          payload := [0, 0, 0, 0] }) ∧
    (le64 0 ++ BlockRecord.bytes
        { blockLen := 0, primary := 0, rleCount := 0, compSize := 4,
          payload := [0, 0, 0, 0] }).length = 28 ∧
    parseRecords (BlockRecord.bytes
        { blockLen := 0, primary := 0, rleCount := 0, compSize := 4,
          payload := [0, 0, 0, 0] }) =
      some [{ blockLen := 0, primary := 0, rleCount := 0, compSize := 4,
              payload := [0, 0, 0, 0] }] := by
  refine ⟨?_, by decide, by decide⟩
  rw [compress_nil]
  rfl

/-- C8. Decompressing the container of the empty input makes an out-of-range access:
the container parses into one record with `blockLen = 0` and `primary = 0`, the decoded
block is empty, and `bwtInverse` on the empty block reads `next[0]` of a vector without
entries; `decompress` therefore has no defined output. -/
theorem decompress_emptyContainer_out_of_range :
    parseRecords (emptyContainer.drop 8) =
      some [{ blockLen := 0, primary := 0, rleCount := 0, compSize := 4,
              payload := [0, 0, 0, 0] }] ∧
    mtfDecode (rleZeroDecode []) = [] ∧
    bwtInverse [] 0 = none ∧
    ∀ M : Mixer, decompress M emptyContainer = none :=
  ⟨by decide, by decide, by decide, fun _ => rfl⟩

/-! ## The first output bytes of `bwtInverse` -/

theorem getD_set (l : List Nat) (i j v d : Nat) :
    (l.set i v).getD j d = if i = j ∧ i < l.length then v else l.getD j d := by
  rw [List.getD_eq_getElem?_getD, List.getD_eq_getElem?_getD, List.getElem?_set]
  by_cases hij : i = j
  · subst hij
    by_cases hl : i < l.length
    · rw [if_pos rfl, if_pos hl, if_pos ⟨rfl, hl⟩]
      rfl
    · rw [if_pos rfl, if_neg hl, if_neg (fun h => hl h.2), List.getElem?_eq_none (by omega)]
  · rw [if_neg hij, if_neg (fun h => hij h.1)]

theorem getD_replicate_zero (n c : Nat) : (List.replicate n 0).getD c 0 = 0 := by
  rw [List.getD_eq_getElem?_getD, List.getElem?_replicate]
  split <;> rfl

theorem byteAt_mem (s : List Nat) (i : Nat) (h : i < s.length) : byteAt s i ∈ s := by
  unfold byteAt
  rw [List.getD_eq_getElem _ _ h]
  exact List.getElem_mem h

theorem exists_byteAt_of_mem (s : List Nat) (x : Nat) (h : x ∈ s) :
    ∃ i, i < s.length ∧ byteAt s i = x := by
  obtain ⟨i, hi, hx⟩ := List.getElem_of_mem h
  refine ⟨i, hi, ?_⟩
  unfold byteAt
  rw [List.getD_eq_getElem _ _ hi]
  exact hx

theorem exists_min_mem (l : List Nat) (h : l ≠ []) : ∃ m ∈ l, ∀ x ∈ l, m ≤ x := by
  induction l with
  | nil => exact absurd rfl h
  | cons a t ih =>
    by_cases ht : t = []
    · subst ht
      exact ⟨a, List.mem_cons_self _ _, fun x hx => by simp at hx; omega⟩
    · obtain ⟨m, hm, hmin⟩ := ih ht
      by_cases ham : a ≤ m
      · refine ⟨a, List.mem_cons_self _ _, fun x hx => ?_⟩
        rcases List.mem_cons.mp hx with hx | hx
        · omega
        · exact Nat.le_trans ham (hmin x hx)
      · refine ⟨m, List.mem_cons_of_mem _ hm, fun x hx => ?_⟩
        rcases List.mem_cons.mp hx with hx | hx
        · omega
        · exact hmin x hx

theorem bwtCount_fold (l init : List Nat) (c : Nat) (hc : c < init.length) :
    (l.foldl (fun count c => count.set c (count.getD c 0 + 1)) init).getD c 0
      = init.getD c 0 + l.count c := by
  induction l generalizing init with
  | nil => rw [List.foldl_nil, List.count_nil, Nat.add_zero]
  | cons a t ih =>
    rw [List.foldl_cons, ih _ (by rw [List.length_set]; exact hc), getD_set, List.count_cons]
    by_cases hac : a = c
    · subst hac
      rw [if_pos ⟨rfl, hc⟩]
      simp only [beq_self_eq_true, if_true]
      omega
    · rw [if_neg (fun h => hac h.1)]
      have : (a == c) = false := by simpa using hac
      simp only [this, Bool.false_eq_true, if_false, Nat.add_zero]

theorem bwtCount_getD (last : List Nat) (c : Nat) (hc : c < 256) :
    (bwtCount last).getD c 0 = last.count c := by
  unfold bwtCount
  rw [bwtCount_fold _ _ _ (by rw [List.length_replicate]; exact hc), getD_replicate_zero,
    Nat.zero_add]

/-- The loop of `bwtPos` as a function of the number of iterations done. -/
theorem bwtPos_fold (count : List Nat) (k : Nat) (hk : k ≤ 255) :
    ∃ pos, (List.range k).foldl
        (fun pos c' => pos.set (c' + 1) (pos.getD c' 0 + count.getD c' 0))
        (List.replicate 256 0) = pos ∧
      pos.length = 256 ∧ pos.getD 0 0 = 0 ∧
      ∀ c, c < k → pos.getD (c + 1) 0 = pos.getD c 0 + count.getD c 0 := by
  induction k with
  | zero =>
    refine ⟨_, rfl, ?_, ?_, ?_⟩
    · rw [List.range_zero, List.foldl_nil, List.length_replicate]
    · rw [List.range_zero, List.foldl_nil, getD_replicate_zero]
    · intro c hc
      omega
  | succ k ih =>
    obtain ⟨pos, hpos, hlen, h0, hstep⟩ := ih (by omega)
    rw [List.range_succ, List.foldl_append, hpos]
    refine ⟨_, rfl, ?_, ?_, ?_⟩
    · rw [List.foldl_cons, List.foldl_nil, List.length_set]
      exact hlen
    · rw [List.foldl_cons, List.foldl_nil, getD_set, if_neg (by omega)]
      exact h0
    · intro c hc
      rw [List.foldl_cons, List.foldl_nil, getD_set, getD_set, hlen]
      by_cases hck : c = k
      · subst hck
        rw [if_pos ⟨rfl, by omega⟩, if_neg (by omega)]
      · have h1 : ¬ (k + 1 = c + 1 ∧ k + 1 < 256) := by omega
        have h2 : ¬ (k + 1 = c ∧ k + 1 < 256) := by omega
        rw [if_neg h1, if_neg h2]
        exact hstep c (by omega)

theorem bwtPos_spec (count : List Nat) :
    (bwtPos count).length = 256 ∧ (bwtPos count).getD 0 0 = 0 ∧
    ∀ c, c < 255 → (bwtPos count).getD (c + 1) 0 = (bwtPos count).getD c 0 + count.getD c 0 := by
  obtain ⟨pos, hpos, h⟩ := bwtPos_fold count 255 (Nat.le_refl _)
  unfold bwtPos
  rw [hpos]
  exact h

theorem bwtPos_length (count : List Nat) : (bwtPos count).length = 256 :=
  (bwtPos_spec count).1

theorem bwtPos_zero (count : List Nat) : (bwtPos count).getD 0 0 = 0 :=
  (bwtPos_spec count).2.1

theorem bwtPos_succ (count : List Nat) (c : Nat) (hc : c < 255) :
    (bwtPos count).getD (c + 1) 0 = (bwtPos count).getD c 0 + count.getD c 0 :=
  (bwtPos_spec count).2.2 c hc

theorem bwtPos_eq_zero (count : List Nat) (m : Nat) (hm : m < 256)
    (h : ∀ d, d < m → count.getD d 0 = 0) : (bwtPos count).getD m 0 = 0 := by
  induction m with
  | zero => exact bwtPos_zero count
  | succ m ih =>
    rw [bwtPos_succ count m (by omega), ih (by omega) (fun d hd => h d (by omega)),
      h m (Nat.lt_succ_self m)]

theorem bwtPos_ge (count : List Nat) (m c : Nat) (hmc : m < c) (hc : c < 256) :
    count.getD m 0 ≤ (bwtPos count).getD c 0 := by
  induction c with
  | zero => omega
  | succ c ih =>
    rw [bwtPos_succ count c (by omega)]
    by_cases h : m = c
    · subst h
      omega
    · have := ih (by omega) (by omega)
      omega

theorem getD_lt_of_forall (l : List Nat) (j n : Nat) (hn : 0 < n) (h : ∀ x ∈ l, x < n) :
    l.getD j 0 < n := by
  by_cases hj : j < l.length
  · rw [List.getD_eq_getElem _ _ hj]
    exact h _ (List.getElem_mem hj)
  · rw [List.getD_eq_default _ _ (by omega)]
    exact hn

/-- The loop of `bwtNext` after `k` iterations, for a byte `m` whose bucket starts at 0
while every other byte of `last` has a bucket starting further on: entry 0 of `next` is
the first position of `m` as soon as one has been seen. -/
theorem bwtNext_fold (last pos : List Nat) (n m : Nat)
    (hpl : pos.length = 256) (hm : m < 256) (hm0 : pos.getD m 0 = 0)
    (hother : ∀ i, i < n → byteAt last i ≠ m → 1 ≤ pos.getD (byteAt last i) 0)
    (k : Nat) (hk : k ≤ n) :
    ∃ st : List Nat × List Nat,
      (List.range k).foldl
        (fun (st : List Nat × List Nat) i =>
          let c := byteAt last i
          (st.1.set c (st.1.getD c 0 + 1), st.2.set (st.1.getD c 0) i))
        (pos, List.replicate n 0) = st ∧
      st.1.length = 256 ∧ st.2.length = n ∧
      (∀ c, pos.getD c 0 ≤ st.1.getD c 0) ∧
      (∀ x ∈ st.2, x < n) ∧
      ((∀ i, i < k → byteAt last i ≠ m) → st.1.getD m 0 = 0) ∧
      ((∃ i, i < k ∧ byteAt last i = m) →
        byteAt last (st.2.getD 0 0) = m ∧ 1 ≤ st.1.getD m 0) := by
  induction k with
  | zero =>
    refine ⟨_, rfl, hpl, List.length_replicate _ _, fun c => Nat.le_refl _, ?_, fun _ => hm0, ?_⟩
    · intro x hx
      have := List.eq_of_mem_replicate hx
      have hpos : 0 < n := by
        rcases Nat.eq_zero_or_pos n with h0 | h0
        · subst h0
          simp at hx
        · exact h0
      omega
    · rintro ⟨i, hi, _⟩
      omega
  | succ k ih =>
    obtain ⟨st, hst, hl1, hl2, hmono, hrange, hnone, hsome⟩ := ih (by omega)
    have hkn : k < n := by omega
    rw [List.range_succ, List.foldl_append, hst]
    refine ⟨_, rfl, ?_, ?_, ?_, ?_, ?_, ?_⟩
    · simp only [List.foldl_cons, List.foldl_nil, List.length_set]
      exact hl1
    · simp only [List.foldl_cons, List.foldl_nil, List.length_set]
      exact hl2
    · intro c
      simp only [List.foldl_cons, List.foldl_nil]
      rw [getD_set]
      split
      · rename_i h
        rw [← h.1]
        exact Nat.le_succ_of_le (hmono _)
      · exact hmono c
    · intro x hx
      simp only [List.foldl_cons, List.foldl_nil] at hx
      rcases List.mem_or_eq_of_mem_set hx with h | h
      · exact hrange x h
      · omega
    · intro hall
      simp only [List.foldl_cons, List.foldl_nil]
      rw [getD_set, if_neg (fun h => hall k (Nat.lt_succ_self k) h.1)]
      exact hnone (fun i hi => hall i (by omega))
    · rintro ⟨i, hi, him⟩
      simp only [List.foldl_cons, List.foldl_nil]
      have e1 := getD_set st.2 (st.1.getD (byteAt last k) 0) 0 k 0
      have e2 := getD_set st.1 (byteAt last k) m (st.1.getD (byteAt last k) 0 + 1) 0
      rw [hl2] at e1
      rw [hl1] at e2
      by_cases hc : byteAt last k = m
      · rw [hc] at e1 e2 ⊢
        rw [if_pos ⟨rfl, hm⟩] at e2
        by_cases hprev : ∃ i, i < k ∧ byteAt last i = m
        · obtain ⟨h1, h2⟩ := hsome hprev
          rw [if_neg (by omega)] at e1
          rw [e1, e2]
          exact ⟨h1, by omega⟩
        · have h0 : st.1.getD m 0 = 0 :=
            hnone (fun i hi hi2 => hprev ⟨i, hi, hi2⟩)
          rw [h0] at e1 e2 ⊢
          rw [if_pos ⟨rfl, by omega⟩] at e1
          rw [e1, e2]
          exact ⟨hc, by omega⟩
      · have hik : i < k := by
          rcases Nat.lt_or_ge i k with h | h
          · exact h
          · have : i = k := by omega
            subst this
            exact absurd him hc
        obtain ⟨h1, h2⟩ := hsome ⟨i, hik, him⟩
        have h3 : 1 ≤ st.1.getD (byteAt last k) 0 :=
          Nat.le_trans (hother k hkn hc) (hmono _)
        rw [if_neg (by omega)] at e1
        rw [if_neg (fun h => hc h.1)] at e2
        rw [e1, e2]
        exact ⟨h1, h2⟩

theorem bwtNext_spec (last : List Nat) (m : Nat) (hbytes : ∀ x ∈ last, x < 256)
    (hm : m ∈ last) (hmin : ∀ x ∈ last, m ≤ x) :
    (∀ x ∈ bwtNext last last.length (bwtPos (bwtCount last)), x < last.length) ∧
    byteAt last ((bwtNext last last.length (bwtPos (bwtCount last))).getD 0 0) = m := by
  have hm256 : m < 256 := hbytes m hm
  have hcount : 1 ≤ (bwtCount last).getD m 0 := by
    rw [bwtCount_getD last m hm256]
    exact List.count_pos_iff.mpr hm
  have hm0 : (bwtPos (bwtCount last)).getD m 0 = 0 := by
    apply bwtPos_eq_zero _ _ hm256
    intro d hd
    rw [bwtCount_getD last d (by omega)]
    apply List.count_eq_zero.mpr
    intro hmem
    have := hmin d hmem
    omega
  have hother : ∀ i, i < last.length → byteAt last i ≠ m →
      1 ≤ (bwtPos (bwtCount last)).getD (byteAt last i) 0 := by
    intro i hi hne
    have hmem := byteAt_mem last i hi
    have h1 := hmin _ hmem
    have h2 := hbytes _ hmem
    exact Nat.le_trans hcount (bwtPos_ge _ m _ (by omega) h2)
  obtain ⟨st, hst, _, _, _, hrange, _, hsome⟩ :=
    bwtNext_fold last (bwtPos (bwtCount last)) last.length m (bwtPos_length _) hm256 hm0 hother
      last.length (Nat.le_refl _)
  obtain ⟨i, hi, him⟩ := exists_byteAt_of_mem last m hm
  unfold bwtNext
  rw [hst]
  exact ⟨hrange, (hsome ⟨i, hi, him⟩).1⟩

/-- With `primary = 0` the first byte `bwtInverse` puts out is the smallest byte of the
block, so it is not above the second one. -/
theorem bwtInverse_zero_head_le (last block : List Nat) (hbytes : ∀ x ∈ last, x < 256)
    (h2 : 2 ≤ last.length) (h : bwtInverse last 0 = some block) :
    ∃ a b rest, block = a :: b :: rest ∧ a ≤ b := by
  have hne : last ≠ [] := by
    intro h0
    subst h0
    simp at h2
  obtain ⟨m, hm, hmin⟩ := exists_min_mem last hne
  obtain ⟨hrange, hhead⟩ := bwtNext_spec last m hbytes hm hmin
  unfold bwtInverse at h
  split at h
  · cases h
  · simp only at h
    rw [if_pos (by omega)] at h
    obtain ⟨n, hn⟩ : ∃ n, last.length = n + 2 := ⟨last.length - 2, by omega⟩
    rw [Option.some.injEq] at h
    subst h
    generalize hnext : bwtNext last last.length (bwtPos (bwtCount last)) = next at *
    rw [hn]
    refine ⟨_, _, _, rfl, ?_⟩
    rw [hhead]
    apply hmin
    apply byteAt_mem
    exact getD_lt_of_forall _ _ _ (by omega) hrange

/-! ## Round trip of the driver -/

theorem bwtWalk_length (last next : List Nat) (k idx : Nat) :
    (bwtWalk last next k idx).length = k := by
  induction k generalizing idx with
  | zero => rfl
  | succ k ih => rw [bwtWalk, List.length_cons, ih]

theorem bwtInverse_length (last block : List Nat) (primary : Nat)
    (h : bwtInverse last primary = some block) : block.length = last.length := by
  unfold bwtInverse at h
  split at h
  · cases h
  · simp only at h
    split at h
    · rw [Option.some.injEq] at h
      subst h
      exact bwtWalk_length _ _ _ _
    · cases h

theorem mtfDecodeLoop_lt (symbols l : List Nat) (hs : ∀ x ∈ symbols, x < 256) :
    ∀ x ∈ mtfDecodeLoop symbols l, x < 256 := by
  induction l generalizing symbols with
  | nil =>
    intro x hx
    simp [mtfDecodeLoop] at hx
  | cons idx rest ih =>
    have hc : symbols.getD idx 0 < 256 := by
      by_cases hi : idx < symbols.length
      · rw [List.getD_eq_getElem _ _ hi]
        exact hs _ (List.getElem_mem hi)
      · rw [List.getD_eq_default _ _ (by omega)]
        omega
    intro x hx
    rw [mtfDecodeLoop, List.mem_cons] at hx
    rcases hx with hx | hx
    · omega
    · refine ih _ ?_ x hx
      intro y hy
      rcases List.mem_cons.mp hy with hy | hy
      · omega
      · exact hs y (List.mem_of_mem_eraseIdx hy)

theorem mtfDecode_lt (l : List Nat) : ∀ x ∈ mtfDecode l, x < 256 :=
  mtfDecodeLoop_lt _ l (fun _ hx => by have := List.mem_range.mp hx; omega)

/-- The bound on the iterations of the loop of `decompress` is never reached: with more
`fuel` than unread bytes, more `fuel` gives the same result. -/
theorem decompressLoop_fuel (M : Mixer) (fuel extra : Nat) (st : Coding M)
    (rest out : List Nat) (h : rest.length < fuel) :
    decompressLoop M (fuel + extra) st rest out = decompressLoop M fuel st rest out := by
  induction fuel generalizing st rest out with
  | zero => omega
  | succ fuel ih =>
    have e : fuel + 1 + extra = (fuel + extra) + 1 := by omega
    rw [e, decompressLoop, decompressLoop]
    split
    · rfl
    · split
      · rfl
      · split
        · rfl
        · split
          · rfl
          · apply ih
            rw [List.length_drop, List.length_drop]
            omega

/-- What `decompress` has written stays at the front of its output. -/
theorem decompressLoop_prefix (M : Mixer) (fuel : Nat) (st : Coding M) (rest out res : List Nat)
    (h : decompressLoop M fuel st rest out = some res) : out <+: res := by
  induction fuel generalizing st rest out with
  | zero =>
    rw [decompressLoop] at h
    cases h
  | succ fuel ih =>
    rw [decompressLoop] at h
    split at h
    · rw [Option.some.injEq] at h
      subst h
      exact List.prefix_refl _
    · split at h
      · cases h
      · split at h
        · cases h
        · split at h
          · cases h
          · exact List.IsPrefix.trans (List.prefix_append _ _) (ih _ _ _ h)

/-- The first iteration of the loop of `decompress` on a complete header: if the run
ends, the block came out of `bwtInverse` with the `primary` of the header, on a block
that `mtfDecode` produced, and its first `blockLen` bytes open the output. -/
theorem decompressLoop_first (M : Mixer) (fuel : Nat) (st : Coding M)
    (rest out res : List Nat) (hlen : 16 ≤ rest.length)
    (h : decompressLoop M (fuel + 1) st rest out = some res) :
    ∃ mtf block written,
      bwtInverse (mtfDecode mtf) (rd32At rest 4) = some block ∧
      writeBlock block (rd32At rest 0) = some written ∧
      (out ++ written) <+: res := by
  rw [decompressLoop, if_neg (by omega), if_neg (by omega)] at h
  split at h
  · cases h
  · rename_i block hblock
    split at h
    · cases h
    · rename_i written hwritten
      exact ⟨_, block, written, hblock, hwritten, decompressLoop_prefix M _ _ _ _ _ h⟩

theorem writeBlock_two (block written : List Nat) (h : writeBlock block 2 = some written) :
    (2 ≤ block.length ∧ written = block.take 2) ∨ (∃ x, block = [x] ∧ written = [x, 0]) := by
  unfold writeBlock at h
  split at h
  · rename_i hle
    rw [Option.some.injEq] at h
    exact Or.inl ⟨hle, h.symm⟩
  · split at h
    · rename_i hlen
      rw [Option.some.injEq] at h
      right
      match block, hlen with
      | [x], _ => exact ⟨x, rfl, h.symm⟩
    · cases h

/-- The bytes `0x80 0x01` do not survive compression and decompression when `char` is
signed, whatever the mixer computes: `bwtTransform` stores `primary = 0`, and with
`primary = 0` the output of `bwtInverse` starts with the smallest byte of the block. -/
theorem decompress_compress_signed (M : Mixer) :
    (compress M true [128, 1]).bind (decompress M) ≠ some [128, 1] := by
  have hb : bwtTransform true [128, 1] = some ([1, 128], 0) := by decide
  have hr : rleZero (mtfEncode [1, 128]) = [1, 128] := by decide
  obtain ⟨c, hc⟩ : ∃ c, compress M true [128, 1] =
      some ([2, 0, 0, 0, 0, 0, 0, 0] ++ ([2, 0, 0, 0, 0, 0, 0, 0, 2, 0, 0, 0] ++
        (le32 (u32 (List.length c)) ++ c))) := by
    refine ⟨(([1, 128].foldl (encodeByte M) (Coding.new M, RangeCoder.new)).2.finish).os, ?_⟩
    have e1 : le64 (u64 ([128, 1] : List Nat).length) = [2, 0, 0, 0, 0, 0, 0, 0] := by decide
    have e2 : le32 (u32 ([128, 1] : List Nat).length) = [2, 0, 0, 0] := by decide
    have e3 : le32 (u32 ([1, 128] : List Nat).length) = [2, 0, 0, 0] := by decide
    have e4 : le32 0 = [0, 0, 0, 0] := by decide
    simp only [compress, compressBlock, hb, hr, Option.map_some', BlockRecord.bytes, e1, e2, e3,
      e4, List.append_assoc, List.cons_append, List.nil_append]
  rw [hc, Option.some_bind]
  intro h
  unfold decompress at h
  have hd : (([2, 0, 0, 0, 0, 0, 0, 0] ++ ([2, 0, 0, 0, 0, 0, 0, 0, 2, 0, 0, 0] ++
        (le32 (u32 (List.length c)) ++ c))).drop 8) =
      2 :: 0 :: 0 :: 0 :: 0 :: 0 :: 0 :: 0 :: 2 :: 0 :: 0 :: 0 ::
        (le32 (u32 (List.length c)) ++ c) := rfl
  rw [hd] at h
  obtain ⟨mtf, block, written, hblock, hwritten, hpre⟩ :=
    decompressLoop_first M _ _ _ _ _ (by simp [le32]) h
  have h0 : rd32At (2 :: 0 :: 0 :: 0 :: 0 :: 0 :: 0 :: 0 :: 2 :: 0 :: 0 :: 0 ::
        (le32 (u32 (List.length c)) ++ c)) 0 = 2 := rfl
  have h4 : rd32At (2 :: 0 :: 0 :: 0 :: 0 :: 0 :: 0 :: 0 :: 2 :: 0 :: 0 :: 0 ::
        (le32 (u32 (List.length c)) ++ c)) 4 = 0 := rfl
  rw [h0] at hwritten
  rw [h4] at hblock
  rw [List.nil_append] at hpre
  rcases writeBlock_two block written hwritten with ⟨hlen, hw⟩ | ⟨x, _, hw⟩
  · have hl := bwtInverse_length _ _ _ hblock
    obtain ⟨a, b, tl, hab, hle⟩ :=
      bwtInverse_zero_head_le _ block (mtfDecode_lt mtf) (by omega) hblock
    subst hab
    subst hw
    obtain ⟨t, ht⟩ := hpre
    simp only [List.take_succ_cons, List.take_zero, List.cons_append, List.nil_append,
      List.cons.injEq] at ht
    omega
  · subst hw
    obtain ⟨t, ht⟩ := hpre
    simp only [List.cons_append, List.nil_append, List.cons.injEq] at ht
    omega

/-- C1. Decompressing what `compress` wrote does not always give the input back, with
any mixer.  For the empty input (either signedness of `char`) `compress` writes a block
record of length 0, on which `decompress` calls `bwtInverse` on an empty block, whose
read `next[primary]` is out of range: no output is defined.  For the input `0x80 0x01`
on a target where `char` is signed, `decompress` does not produce `0x80 0x01` either. -/
theorem decompress_compress_fails :
    (∀ (M : Mixer) (sc : Bool), (compress M sc []).bind (decompress M) = none) ∧
    (∀ M : Mixer, (compress M true [128, 1]).bind (decompress M) ≠ some [128, 1]) := by
  refine ⟨fun M sc => ?_, decompress_compress_signed⟩
  rw [compress_nil]
  exact decompress_emptyContainer M

/-! ## The block record -/

theorem u32_eq_of_lt {x : Nat} (h : x < 4294967296) : u32 x = x := Nat.mod_eq_of_lt h

theorem length_insertIdx (lt : Nat → Nat → Bool) (a : Nat) (l : List Nat) :
    (insertIdx lt a l).length = l.length + 1 := by
  induction l with
  | nil => rfl
  | cons b t ih =>
    simp only [insertIdx]
    split
    · rfl
    · rw [List.length_cons, ih, List.length_cons]

theorem length_foldl_insertIdx (lt : Nat → Nat → Bool) (l acc : List Nat) :
    (l.foldl (fun sorted a => insertIdx lt a sorted) acc).length = acc.length + l.length := by
  induction l generalizing acc with
  | nil => rfl
  | cons a t ih =>
    rw [List.foldl_cons, ih, length_insertIdx, List.length_cons]
    omega

theorem length_sortIdx (lt : Nat → Nat → Bool) (l : List Nat) :
    (sortIdx lt l).length = l.length := by
  unfold sortIdx
  rw [length_foldl_insertIdx, List.length_nil, Nat.zero_add]

theorem findPrimary_lt (l : List Nat) (i p bound : Nat) (hp : p < bound)
    (hl : i + l.length ≤ bound) : findPrimary l i p < bound := by
  induction l generalizing i p with
  | nil => exact hp
  | cons j t ih =>
    simp only [findPrimary]
    rw [List.length_cons] at hl
    apply ih
    · split
      · exact Nat.lt_of_le_of_lt (Nat.mod_le _ _) (by omega)
      · exact hp
    · omega

/-- What `bwtTransform` returns, when it returns: the block length it works on is the
input length reduced to 32 bits, `n`, which is at most `2^30`. -/
theorem bwtTransform_eq_some (sc : Bool) (s last : List Nat) (primary : Nat)
    (h : bwtTransform sc s = some (last, primary)) :
    s.length % 4294967296 ≤ 1073741824 ∧
    last = (sortIdx (rotLess sc s (s.length % 4294967296))
              (List.range (s.length % 4294967296))).map
            (fun j => byteAt s ((j + s.length % 4294967296 - 1) % (s.length % 4294967296))) ∧
    primary = findPrimary (sortIdx (rotLess sc s (s.length % 4294967296))
              (List.range (s.length % 4294967296))) 0 0 := by
  unfold bwtTransform toInt at h
  by_cases h1 : s.length % 4294967296 < 2147483648
  · simp only [h1, if_true] at h
    by_cases h2 : s.length % 4294967296 ≤ 1073741824
    · have h3 : ¬ ((s.length % 4294967296 : Nat) : Int) < 0 := by omega
      have h4 : ¬ (1073741824 : Int) < ((s.length % 4294967296 : Nat) : Int) := by omega
      simp only [h3, h4, if_false, Int.toNat_ofNat, Option.some.injEq, Prod.mk.injEq] at h
      exact ⟨h2, h.1.symm, h.2.symm⟩
    · have h3 : ¬ ((s.length % 4294967296 : Nat) : Int) < 0 := by omega
      have h4 : (1073741824 : Int) < ((s.length % 4294967296 : Nat) : Int) := by omega
      rw [if_neg h3, if_pos h4] at h
      cases h
  · simp only [h1, if_false] at h
    have h3 : ((s.length % 4294967296 : Nat) : Int) - 4294967296 < 0 := by omega
    rw [if_pos h3] at h
    cases h

theorem bwtTransform_isSome (sc : Bool) (s : List Nat) (h : s.length ≤ 1073741824) :
    ∃ r, bwtTransform sc s = some r := by
  unfold bwtTransform toInt
  have h0 : s.length % 4294967296 = s.length := Nat.mod_eq_of_lt (by omega)
  have h1 : s.length % 4294967296 < 2147483648 := by omega
  have h3 : ¬ ((s.length % 4294967296 : Nat) : Int) < 0 := by omega
  have h4 : ¬ (1073741824 : Int) < ((s.length % 4294967296 : Nat) : Int) := by omega
  simp only [h1, if_true, h3, h4, if_false]
  exact ⟨_, rfl⟩

/-- C9 (amended). For every non-empty input shorter than `2^32` bytes, a block record
that `compress` writes has `primary < blockLen`; and for inputs of at most `2^30` bytes
`compress` does write its record. -/
theorem compressBlock_primary_lt (M : Mixer) (sc : Bool) (s : List Nat)
    (hne : s ≠ []) (hlen : s.length < 4294967296) :
    (∀ r, compressBlock M sc s = some r → r.primary < r.blockLen) ∧
    (s.length ≤ 1073741824 → ∃ r, compressBlock M sc s = some r) := by
  have hpos : 0 < s.length := List.length_pos.mpr hne
  have hmod : s.length % 4294967296 = s.length := Nat.mod_eq_of_lt hlen
  refine ⟨?_, ?_⟩
  · intro r hr
    unfold compressBlock at hr
    cases hb : bwtTransform sc s with
    | none => simp [hb] at hr
    | some lp =>
      obtain ⟨last, primary⟩ := lp
      obtain ⟨_, _, hp⟩ := bwtTransform_eq_some sc s last primary hb
      simp only [hb, Option.some.injEq] at hr
      subst hr
      simp only [u32, hmod]
      rw [hp, hmod]
      apply findPrimary_lt _ _ _ _ hpos
      rw [length_sortIdx, List.length_range]
      omega
  · intro hle
    obtain ⟨lp, hb⟩ := bwtTransform_isSome sc s hle
    unfold compressBlock
    rw [hb]
    exact ⟨_, rfl⟩

/-- The bound on `primary` for the one-byte input `"A"`. -/
theorem compressBlock_primary_lt_witness :
    ([65] : List Nat) ≠ [] ∧ ([65] : List Nat).length < 4294967296 ∧
    ((∀ r, compressBlock flatMixer true [65] = some r → r.primary < r.blockLen) ∧
     (([65] : List Nat).length ≤ 1073741824 → ∃ r, compressBlock flatMixer true [65] = some r)) :=
  ⟨by decide, by decide, compressBlock_primary_lt flatMixer true [65] (by decide) (by decide)⟩

/-- C9 (as stated, refuted). The block record `compress` writes for the empty input has
`primary = 0 = blockLen`. -/
theorem compressBlock_nil_primary_not_lt :
    ∃ r : BlockRecord, (∀ (M : Mixer) (sc : Bool), compressBlock M sc [] = some r) ∧
      ¬ r.primary < r.blockLen :=
  ⟨_, compressBlock_nil, by decide⟩

theorem bwtTransform_of_length_mod (sc : Bool) (s : List Nat)
    (h : s.length % 4294967296 = 0) : bwtTransform sc s = some ([], 0) := by
  unfold bwtTransform toInt
  rw [h]
  rfl

theorem compress_of_length_mod (M : Mixer) (sc : Bool) (s : List Nat)
    (h : s.length % 4294967296 = 0) :
    compress M sc s =
      some (le64 (u64 s.length) ++ BlockRecord.bytes
        { blockLen := 0, primary := 0, rleCount := 0, compSize := 4,
          payload := [0, 0, 0, 0] }) := by
  have h0 : rleZero (mtfEncode []) = [] := rfl
  simp only [compress, compressBlock, bwtTransform_of_length_mod sc s h, h0, List.foldl_nil,
    u32, h, Option.map_some']
  rfl

/-- C10. For an input of exactly `2^32` bytes (here all zero) the block records that
`compress` writes do not add up to `fullSize`: `blockLen` is the length cut to 32 bits
and `bwtTransform` works on `int(s.size()) = 0` bytes, so the container is
`fullSize = 2^32` followed by the record `blockLen = 0, primary = 0, rleCount = 0,
compSize = 4`; the record bytes parse with nothing left over, and the `blockLen`
values sum to 0. -/
theorem compress_fourGiB_blockLen :
    (∀ (M : Mixer) (sc : Bool),
      compress M sc (List.replicate 4294967296 0) =
        some (le64 4294967296 ++ BlockRecord.bytes
          { blockLen := 0, primary := 0, rleCount := 0, compSize := 4,
            payload := [0, 0, 0, 0] })) ∧
    u64 (List.replicate 4294967296 0).length = 4294967296 ∧
    parseRecords (BlockRecord.bytes
        { blockLen := 0, primary := 0, rleCount := 0, compSize := 4,
          payload := [0, 0, 0, 0] }) =
      some [{ blockLen := 0, primary := 0, rleCount := 0, compSize := 4,
              payload := [0, 0, 0, 0] }] ∧
    (([{ blockLen := 0, primary := 0, rleCount := 0, compSize := 4,
         payload := [0, 0, 0, 0] }] : List BlockRecord).map BlockRecord.blockLen).sum = 0 := by
  have hlen : (List.replicate 4294967296 0).length = 4294967296 := List.length_replicate _ _
  refine ⟨fun M sc => ?_, ?_, by decide, by decide⟩
  · rw [compress_of_length_mod M sc _ (by rw [hlen]), hlen]
    rfl
  · rw [hlen]
    rfl

/-! ## Zero run-length coding: the shape of the output -/

theorem u8_zeroRun (t : List Nat) : u8 (zeroRun t 1) = zeroRun t 1 := by
  have h2 := zeroRun_le t 1 (by omega)
  unfold u8
  exact Nat.mod_eq_of_lt (by omega)

theorem rleTokens_rleZeroLoop (fuel : Nat) (l : List Nat) : RleTokens (rleZeroLoop fuel l) := by
  induction fuel generalizing l with
  | zero =>
    rw [rleZeroLoop]
    exact RleTokens.nil
  | succ fuel ih =>
    cases l with
    | nil =>
      rw [rleZeroLoop]
      exact RleTokens.nil
    | cons b t =>
      rw [rleZeroLoop]
      split
      · rw [u8_zeroRun]
        exact RleTokens.run _ _ (zeroRun_ge t 1) (zeroRun_le t 1 (by omega)) (ih _)
      · rename_i hb
        exact RleTokens.byte b _ hb (ih _)

theorem rleTokens_zero_followed (l : List Nat) (h : RleTokens l) (i : Nat)
    (hi : i < l.length) (h0 : l.getD i 1 = 0) :
    i + 1 < l.length ∧ 1 ≤ l.getD (i + 1) 0 ∧ l.getD (i + 1) 0 ≤ 255 := by
  induction h generalizing i with
  | nil => simp at hi
  | byte b t hb _ ih =>
    cases i with
    | zero => exact absurd h0 hb
    | succ i =>
      simp only [List.length_cons, Nat.add_lt_add_iff_right] at hi
      have := ih i hi h0
      exact ⟨by simp only [List.length_cons]; omega, this.2⟩
  | run r t h1 h2 _ ih =>
    cases i with
    | zero =>
      exact ⟨by simp only [List.length_cons]; omega, h1, h2⟩
    | succ i =>
      cases i with
      | zero =>
        have : r = 0 := h0
        omega
      | succ i =>
        simp only [List.length_cons, Nat.add_lt_add_iff_right] at hi
        have := ih i hi h0
        exact ⟨by simp only [List.length_cons]; omega, this.2⟩

theorem rleTokens_getLast (l : List Nat) (h : RleTokens l) : l.getLast? ≠ some 0 := by
  induction h with
  | nil => simp
  | byte b t hb _ ih =>
    cases t with
    | nil => simpa using hb
    | cons x t' => simpa [List.getLast?_cons_cons] using ih
  | run r t h1 _ _ ih =>
    cases t with
    | nil =>
      simp [List.getLast?_cons_cons]
      omega
    | cons x t' => simpa [List.getLast?_cons_cons] using ih

/-- C13. For every byte sequence `m`, `rleZero m` is a concatenation of tokens that are
either one non-zero byte or a pair `(0, r)` with `1 ≤ r ≤ 255`; hence every 0 byte in it
is immediately followed by a run-length byte in `[1, 255]`, and it never ends in a lone
0. -/
theorem rleZero_tokens (m : List Nat) :
    RleTokens (rleZero m) ∧
    (∀ i, i < (rleZero m).length → (rleZero m).getD i 1 = 0 →
      i + 1 < (rleZero m).length ∧
      1 ≤ (rleZero m).getD (i + 1) 0 ∧ (rleZero m).getD (i + 1) 0 ≤ 255) ∧
    (rleZero m).getLast? ≠ some 0 :=
  ⟨rleTokens_rleZeroLoop _ _,
   rleTokens_zero_followed _ (rleTokens_rleZeroLoop _ _),
   rleTokens_getLast _ (rleTokens_rleZeroLoop _ _)⟩

/-- C17. For every well-formed RLE0 stream `t`, a zero appended as last byte, without a
run length after it, is decoded as one zero:
`rleZeroDecode (t ++ [0]) = rleZeroDecode t ++ [0]`. -/
theorem rleZeroDecode_trailing_zero (t : List Nat) (h : RleTokens t) :
    rleZeroDecode (t ++ [0]) = rleZeroDecode t ++ [0] := by
  induction h with
  | nil => rfl
  | byte b t hb _ ih =>
    rw [List.cons_append, rleZeroDecode_cons_ne b _ hb, rleZeroDecode_cons_ne b _ hb, ih,
      List.cons_append]
  | run r t _ _ _ ih =>
    rw [List.cons_append, List.cons_append]
    simp only [rleZeroDecode, if_true]
    rw [ih, List.append_assoc]

/-- The stream `7, (0, 3), 9` followed by a lone zero. -/
theorem rleZeroDecode_trailing_zero_witness :
    RleTokens [7, 0, 3, 9] ∧
    rleZeroDecode ([7, 0, 3, 9] ++ [0]) = rleZeroDecode [7, 0, 3, 9] ++ [0] :=
  ⟨RleTokens.byte 7 _ (by decide)
      (RleTokens.run 3 _ (by decide) (by decide)
        (RleTokens.byte 9 _ (by decide) RleTokens.nil)),
   rleZeroDecode_trailing_zero [7, 0, 3, 9]
    (RleTokens.byte 7 _ (by decide)
      (RleTokens.run 3 _ (by decide) (by decide)
        (RleTokens.byte 9 _ (by decide) RleTokens.nil)))⟩

theorem rleZeroLoop_fuel (fuel : Nat) (l : List Nat) (h : l.length ≤ fuel) :
    rleZeroLoop fuel l = rleZeroLoop l.length l := by
  induction fuel using Nat.strong_induction_on generalizing l with
  | _ fuel ih =>
    cases l with
    | nil =>
      cases fuel with
      | zero => rfl
      | succ f => simp only [rleZeroLoop, List.length_nil]
    | cons b t =>
      cases fuel with
      | zero => simp at h
      | succ f =>
        simp only [List.length_cons] at h ⊢
        rw [rleZeroLoop, rleZeroLoop]
        have h1 : t.length ≤ f := by omega
        rw [ih f (by omega) t h1]
        have h2 : (t.drop (zeroRun t 1 - 1)).length ≤ t.length := by
          rw [List.length_drop]
          omega
        rw [ih f (by omega) _ (by omega), ih t.length (by omega) _ h2]

theorem rleZero_nil : rleZero [] = [] := rfl

theorem rleZero_cons_ne (b : Nat) (t : List Nat) (hb : b ≠ 0) :
    rleZero (b :: t) = b :: rleZero t := by
  unfold rleZero
  rw [List.length_cons, rleZeroLoop, if_neg hb]

theorem rleZero_cons_zero (t : List Nat) :
    rleZero (0 :: t) = 0 :: zeroRun t 1 :: rleZero (t.drop (zeroRun t 1 - 1)) := by
  unfold rleZero
  rw [List.length_cons, rleZeroLoop, if_pos rfl, u8_zeroRun]
  have h2 : (t.drop (zeroRun t 1 - 1)).length ≤ t.length := by
    rw [List.length_drop]
    omega
  rw [rleZeroLoop_fuel _ _ h2]

theorem zeroRun_replicate (k : Nat) (post : List Nat) (hp : post.head? ≠ some 0) (run : Nat)
    (hr : run ≤ 255) : zeroRun (List.replicate k 0 ++ post) run = min (run + k) 255 := by
  induction k generalizing run with
  | zero =>
    simp only [List.replicate_zero, List.nil_append, Nat.add_zero]
    cases post with
    | nil =>
      rw [zeroRun]
      omega
    | cons b t =>
      have hb : b ≠ 0 := by simpa using hp
      rw [zeroRun, if_neg (by simp [hb])]
      omega
  | succ k ih =>
    rw [List.replicate_succ, List.cons_append, zeroRun]
    by_cases h : run < 255
    · rw [if_pos ⟨rfl, h⟩, ih (run + 1) (by omega)]
      omega
    · rw [if_neg (by simp [h])]
      omega

theorem runTokens_small (n : Nat) (h1 : 1 ≤ n) (h2 : n ≤ 255) : runTokens n = [0, n] := by
  unfold runTokens
  by_cases h : n = 255
  · subst h
    rfl
  · have e1 : n / 255 = 0 := Nat.div_eq_of_lt (by omega)
    have e2 : n % 255 = n := Nat.mod_eq_of_lt (by omega)
    rw [e1, e2, if_pos (by omega)]
    rfl

theorem runTokens_add (n : Nat) : runTokens (n + 255) = [0, 255] ++ runTokens n := by
  unfold runTokens
  have e1 : (n + 255) / 255 = n / 255 + 1 := by omega
  have e2 : (n + 255) % 255 = n % 255 := by omega
  rw [e1, e2, List.replicate_succ, List.flatten_cons, List.append_assoc]

theorem rleZero_replicate_append (n : Nat) (post : List Nat) (hp : post.head? ≠ some 0) :
    rleZero (List.replicate n 0 ++ post) = runTokens n ++ rleZero post := by
  induction n using Nat.strong_induction_on with
  | _ n ih =>
    cases n with
    | zero => rfl
    | succ k =>
      rw [List.replicate_succ, List.cons_append, rleZero_cons_zero,
        zeroRun_replicate k post hp 1 (by omega)]
      by_cases h : k + 1 ≤ 255
      · have e : min (1 + k) 255 = k + 1 := by omega
        rw [e, Nat.add_sub_cancel, runTokens_small (k + 1) (by omega) h]
        have e2 : List.drop k (List.replicate k 0 ++ post) = post := by
          rw [List.drop_append_of_le_length (by simp)]
          simp
        rw [e2]
        rfl
      · have e : min (1 + k) 255 = 255 := by omega
        obtain ⟨j, hj⟩ : ∃ j, k + 1 = j + 255 := ⟨k + 1 - 255, by omega⟩
        have hk : k = j + 254 := by omega
        rw [e, hj, runTokens_add]
        have e2 : List.drop (255 - 1) (List.replicate k 0 ++ post)
            = List.replicate j 0 ++ post := by
          rw [List.drop_append_of_le_length (by simp; omega), hk]
          simp
        rw [e2, ih j (by omega)]
        rfl

theorem zeroRun_append (t rest : List Nat) (run : Nat) (h : ∃ x, x ∈ t ∧ x ≠ 0) :
    zeroRun (t ++ rest) run = zeroRun t run ∧ zeroRun t run < run + t.length := by
  induction t generalizing run with
  | nil =>
    obtain ⟨x, hx, _⟩ := h
    simp at hx
  | cons b t ih =>
    rw [List.cons_append, zeroRun, zeroRun]
    by_cases hb : b = 0 ∧ run < 255
    · rw [if_pos hb, if_pos hb]
      have h2 : ∃ x, x ∈ t ∧ x ≠ 0 := by
        obtain ⟨x, hx, hx0⟩ := h
        rcases List.mem_cons.mp hx with e | e
        · exact absurd (e.trans hb.1) hx0
        · exact ⟨x, e, hx0⟩
      have := ih (run + 1) h2
      exact ⟨this.1, by simp only [List.length_cons]; omega⟩
    · rw [if_neg hb, if_neg hb]
      exact ⟨rfl, by simp only [List.length_cons]; omega⟩

theorem getLast_drop_ne (t : List Nat) (k : Nat) (h : t.getLast? ≠ some 0) :
    (t.drop k).getLast? ≠ some 0 := by
  by_cases hk : k < t.length
  · have hne : t.drop k ≠ [] := by
      intro e
      have := congrArg List.length e
      simp at this
      omega
    have hne2 : t ≠ [] := by
      intro e
      subst e
      simp at hk
    rw [List.getLast?_eq_getLast _ hne, List.getLast_drop]
    rwa [List.getLast?_eq_getLast _ hne2] at h
  · rw [List.drop_eq_nil_of_le (by omega)]
    simp

theorem rleZero_append_aux (rest : List Nat) (n : Nat) :
    ∀ pre : List Nat, pre.length = n → pre.getLast? ≠ some 0 →
      rleZero (pre ++ rest) = rleZero pre ++ rleZero rest := by
  induction n using Nat.strong_induction_on with
  | _ n ih =>
    intro pre hn h
    cases pre with
    | nil => rfl
    | cons b t =>
      have ht : t.getLast? ≠ some 0 := by
        cases t with
        | nil => simp
        | cons x t' => simpa [List.getLast?_cons_cons] using h
      by_cases hb : b = 0
      · subst hb
        have hne : t ≠ [] := by
          intro e
          subst e
          simp at h
        have hx : ∃ x, x ∈ t ∧ x ≠ 0 := by
          refine ⟨t.getLast hne, List.getLast_mem hne, ?_⟩
          intro e
          rw [List.getLast?_eq_getLast _ hne, e] at ht
          exact ht rfl
        have hz := zeroRun_append t rest 1 hx
        rw [List.cons_append, rleZero_cons_zero, rleZero_cons_zero, hz.1,
          List.drop_append_of_le_length (by omega)]
        have hlen : (t.drop (zeroRun t 1 - 1)).length < n := by
          rw [List.length_drop, ← hn, List.length_cons]
          omega
        rw [ih _ hlen _ rfl (getLast_drop_ne t _ ht)]
        rfl
      · rw [List.cons_append, rleZero_cons_ne b _ hb, rleZero_cons_ne b _ hb,
          ih t.length (by rw [← hn, List.length_cons]; omega) t rfl ht]
        rfl

theorem rleZero_append (pre rest : List Nat) (h : pre.getLast? ≠ some 0) :
    rleZero (pre ++ rest) = rleZero pre ++ rleZero rest :=
  rleZero_append_aux rest pre.length pre rfl h

/-- C16. A maximal run of `n` zeros (the bytes before it are none or end in a non-zero
byte, the bytes after it are none or start with a non-zero byte) is emitted by `rleZero`
as `n / 255` pairs `(0, 255)` followed by one pair `(0, n % 255)` when that remainder is
not 0, between the encodings of what stands before and after; 256 zeros give
`[0, 255, 0, 1]`; a non-zero byte is copied unchanged. -/
theorem rleZero_maximal_run :
    (∀ (pre post : List Nat) (n : Nat), pre.getLast? ≠ some 0 → post.head? ≠ some 0 →
      rleZero (pre ++ List.replicate n 0 ++ post)
        = rleZero pre
          ++ ((List.replicate (n / 255) [0, 255]).flatten
              ++ (if n % 255 ≠ 0 then [0, n % 255] else []))
          ++ rleZero post) ∧
    (∀ n, rleZero (List.replicate n 0) = runTokens n) ∧
    rleZero (List.replicate 256 0) = [0, 255, 0, 1] ∧
    (∀ (b : Nat) (rest : List Nat), b ≠ 0 → rleZero (b :: rest) = b :: rleZero rest) := by
  refine ⟨?_, ?_, ?_, rleZero_cons_ne⟩
  · intro pre post n h1 h2
    rw [List.append_assoc, rleZero_append pre _ h1, rleZero_replicate_append n post h2,
      List.append_assoc]
    rfl
  · intro n
    have := rleZero_replicate_append n [] (by simp)
    rw [List.append_nil, rleZero_nil, List.append_nil] at this
    exact this
  · have := rleZero_replicate_append 256 [] (by simp)
    rw [List.append_nil] at this
    rw [this]
    rfl

/-- The run of 300 zeros between the bytes 5 and 6 is emitted as `(0, 255), (0, 45)`. -/
theorem rleZero_maximal_run_witness :
    [5].getLast? ≠ some 0 ∧ [6].head? ≠ some 0 ∧
    rleZero ([5] ++ List.replicate 300 0 ++ [6])
      = rleZero [5]
        ++ ((List.replicate (300 / 255) [0, 255]).flatten
            ++ (if 300 % 255 ≠ 0 then [0, 300 % 255] else []))
        ++ rleZero [6] :=
  ⟨by decide, by decide, rleZero_maximal_run.1 [5] [6] 300 (by decide) (by decide)⟩

/-! ## The match model -/

theorem table_get_put {α : Type} (t : Table α) (i j : Nat) (v d : α) :
    (t.put i v).get j d = if j = i then v else t.get j d := by
  unfold Table.put Table.get
  rw [List.lookup_cons]
  by_cases h : j = i
  · subst h
    simp
  · have : (j == i) = false := by simpa using h
    rw [this, if_neg h]

/-- C19. For every `MatchModel` state with `bufPos < contextSize` and every byte `b`,
`updateByte b` leaves `matchPos`, `matchLen`, `bitPos` and the `lastPos` table (and
`contextSize`) unchanged; it only stores `b` at `buffer[bufPos]`, every other buffer entry
staying as it was, and advances `bufPos` by one modulo `2^20`. -/
theorem updateByte_below_context (m : MatchModel) (b : Nat) (h : m.bufPos < m.contextSize) :
    (m.updateByte b).matchPos = m.matchPos ∧ (m.updateByte b).matchLen = m.matchLen ∧
    (m.updateByte b).bitPos = m.bitPos ∧ (m.updateByte b).lastPos = m.lastPos ∧
    (m.updateByte b).contextSize = m.contextSize ∧
    (m.updateByte b).bufPos = (m.bufPos + 1) % 2 ^ 20 ∧
    (m.updateByte b).buffer.get m.bufPos 0 = b ∧
    (∀ j, j ≠ m.bufPos → (m.updateByte b).buffer.get j 0 = m.buffer.get j 0) := by
  have e : m.updateByte b
      = { m with buffer := m.buffer.put m.bufPos b, bufPos := (m.bufPos + 1) % WINDOW_SIZE } := by
    unfold MatchModel.updateByte
    rw [if_neg (by omega)]
  rw [e]
  refine ⟨rfl, rfl, rfl, rfl, rfl, rfl, ?_, ?_⟩
  · dsimp only
    rw [table_get_put, if_pos rfl]
  · intro j hj
    dsimp only
    rw [table_get_put, if_neg hj]

/-- The second byte of an 8-byte context: a running match is kept. -/
theorem updateByte_below_context_witness :
    (1 : Nat) < 8 ∧
    (({ contextSize := 8, buffer := [(0, 65)], bufPos := 1, lastPos := [(7, 3)],
        matchPos := 3, matchLen := 2, bitPos := 0 } : MatchModel).updateByte 66).matchPos = 3 :=
  ⟨by decide,
   (updateByte_below_context
      { contextSize := 8, buffer := [(0, 65)], bufPos := 1, lastPos := [(7, 3)],
        matchPos := 3, matchLen := 2, bitPos := 0 } 66 (by decide)).1⟩

theorem foldl_key_congr (buf1 buf2 : Table Nat) (base : Nat) (l : List Nat)
    (h : ∀ i ∈ l, buf1.get ((base + i) % WINDOW_SIZE) 0 = buf2.get ((base + i) % WINDOW_SIZE) 0)
    (k : Nat) :
    l.foldl (fun key i => u64 (key <<< 8) ||| buf1.get ((base + i) % WINDOW_SIZE) 0) k
      = l.foldl (fun key i => u64 (key <<< 8) ||| buf2.get ((base + i) % WINDOW_SIZE) 0) k := by
  induction l generalizing k with
  | nil => rfl
  | cons a t ih =>
    rw [List.foldl_cons, List.foldl_cons, h a (List.mem_cons_self _ _)]
    exact ih (fun i hi => h i (List.mem_cons_of_mem _ hi)) _

theorem matchKey_put (buffer : Table Nat) (p b c : Nat) (h : c ≤ p) :
    matchKey (buffer.put p b) (p - c) c = matchKey buffer (p - c) c := by
  unfold matchKey
  apply foldl_key_congr
  intro i hi
  rw [List.mem_range] at hi
  rw [table_get_put, if_neg]
  intro e
  by_cases hp : p < WINDOW_SIZE
  · rw [Nat.mod_eq_of_lt (by omega)] at e
    omega
  · have := Nat.mod_lt (p - c + i) (by decide : 0 < WINDOW_SIZE)
    omega

theorem foldl_key_map (buffer : Table Nat) (base : Nat) (l : List Nat) (k : Nat) :
    l.foldl (fun key i => u64 (key <<< 8) ||| buffer.get ((base + i) % WINDOW_SIZE) 0) k
      = (l.map (fun i => buffer.get ((base + i) % WINDOW_SIZE) 0)).foldl
          (fun key x => u64 (key <<< 8) ||| x) k := by
  induction l generalizing k with
  | nil => rfl
  | cons a t ih =>
    rw [List.foldl_cons, List.map_cons, List.foldl_cons]
    exact ih _

theorem matchKey_eq_contextKey (buffer : Table Nat) (p c : Nat) (h : c ≤ p)
    (hp : p < WINDOW_SIZE) :
    matchKey buffer (p - c) c
      = contextKey ((List.range c).map (fun i => buffer.get (p - c + i) 0)) := by
  unfold matchKey contextKey
  rw [foldl_key_map]
  congr 1
  apply List.map_congr_left
  intro i hi
  rw [List.mem_range] at hi
  rw [Nat.mod_eq_of_lt (by omega)]

/-- C18 (amended). When `updateByte b` writes `b` at buffer position `p = bufPos` with
`p ≥ contextSize = c` (and `p` inside the window), the key it looks up and stores in
`lastPos` is formed from the `c` bytes before `p`, that is `buffer[p-c .. p-1]` as they
were before the call, not including the byte `b` just written; on a hit at stored position
`q` it sets `matchPos = q`, `matchLen = 1`, `bitPos = 0`, otherwise it clears the match
(`matchPos = npos`, `matchLen = 0`, `bitPos = 0`), and in both cases it sets
`lastPos[key] = p`, stores `b` and advances `bufPos`. -/
theorem updateByte_key_before (m : MatchModel) (b : Nat) (h : m.contextSize ≤ m.bufPos)
    (hp : m.bufPos < WINDOW_SIZE) :
    (∀ q, m.lastPos.find (contextKey ((List.range m.contextSize).map
            (fun i => m.buffer.get (m.bufPos - m.contextSize + i) 0))) = some q →
      (m.updateByte b).matchPos = q ∧ (m.updateByte b).matchLen = 1 ∧
      (m.updateByte b).bitPos = 0) ∧
    (m.lastPos.find (contextKey ((List.range m.contextSize).map
            (fun i => m.buffer.get (m.bufPos - m.contextSize + i) 0))) = none →
      (m.updateByte b).matchPos = npos ∧ (m.updateByte b).matchLen = 0 ∧
      (m.updateByte b).bitPos = 0) ∧
    (m.updateByte b).lastPos
      = m.lastPos.put (contextKey ((List.range m.contextSize).map
            (fun i => m.buffer.get (m.bufPos - m.contextSize + i) 0))) m.bufPos ∧
    (m.updateByte b).buffer = m.buffer.put m.bufPos b ∧
    (m.updateByte b).bufPos = (m.bufPos + 1) % 2 ^ 20 := by
  have e : m.updateByte b =
      match m.lastPos.find (contextKey ((List.range m.contextSize).map
            (fun i => m.buffer.get (m.bufPos - m.contextSize + i) 0))) with
      | some q =>
        { m with buffer := m.buffer.put m.bufPos b, matchPos := q, matchLen := 1, bitPos := 0,
                 lastPos := m.lastPos.put (contextKey ((List.range m.contextSize).map
                    (fun i => m.buffer.get (m.bufPos - m.contextSize + i) 0))) m.bufPos,
                 bufPos := (m.bufPos + 1) % WINDOW_SIZE }
      | none =>
        { m with buffer := m.buffer.put m.bufPos b, matchPos := npos, matchLen := 0, bitPos := 0,
                 lastPos := m.lastPos.put (contextKey ((List.range m.contextSize).map
                    (fun i => m.buffer.get (m.bufPos - m.contextSize + i) 0))) m.bufPos,
                 bufPos := (m.bufPos + 1) % WINDOW_SIZE } := by
    unfold MatchModel.updateByte
    rw [if_pos (Or.inl h)]
    have hge : m.bufPos ≥ m.contextSize := h
    simp only [if_pos hge]
    rw [matchKey_put _ _ _ _ h, matchKey_eq_contextKey _ _ _ h hp]
  rw [e]
  refine ⟨?_, ?_, ?_, ?_, ?_⟩
  · intro q hq
    rw [hq]
    exact ⟨rfl, rfl, rfl⟩
  · intro hq
    rw [hq]
    exact ⟨rfl, rfl, rfl⟩
  · split <;> rfl
  · split <;> rfl
  · split <;> rfl

/-- After the bytes `1, 2, 3, 4` the byte 5 is written at position 4: the key is that of
`1, 2, 3, 4`, which `lastPos` does not hold, so the match is cleared. -/
theorem updateByte_key_before_witness :
    matchExample.contextSize ≤ matchExample.bufPos ∧ matchExample.bufPos < WINDOW_SIZE ∧
    (matchExample.updateByte 5).lastPos
      = matchExample.lastPos.put (contextKey ((List.range matchExample.contextSize).map
          (fun i => matchExample.buffer.get
            (matchExample.bufPos - matchExample.contextSize + i) 0))) matchExample.bufPos :=
  ⟨by decide, by decide,
   (updateByte_key_before matchExample 5 (by decide) (by decide)).2.2.1⟩

/-- C18 (as stated, refuted). `matchExample` has the bytes `1, 2, 3, 4` at positions
`0 .. 3`, `bufPos = 4`, context size 4, and `lastPos` holds position 0 under the key of
`2, 3, 4, 5`, the four bytes ending at position 4 once 5 is written there.
`updateByte 5` does not find that entry: it clears the match and stores position 4 under
the key of `1, 2, 3, 4`. -/
theorem updateByte_key_excludes_written :
    (matchExample.buffer.put 4 5).get 1 0 = 2 ∧ (matchExample.buffer.put 4 5).get 2 0 = 3 ∧
    (matchExample.buffer.put 4 5).get 3 0 = 4 ∧ (matchExample.buffer.put 4 5).get 4 0 = 5 ∧
    matchExample.lastPos.find (contextKey [2, 3, 4, 5]) = some 0 ∧
    (matchExample.updateByte 5).matchPos = npos ∧
    (matchExample.updateByte 5).matchLen = 0 ∧
    (matchExample.updateByte 5).lastPos
      = [(contextKey [1, 2, 3, 4], 4), (contextKey [2, 3, 4, 5], 0)] := by
  decide

/-! ## The coder: end of input, the bound, the interval -/

/-- C14 (as stated, refuted). On an exhausted stream the byte the decoder takes is
`0xFF`, the conversion of `EOF`, not `0x00`: a decoder built on the empty stream starts
with `code = 0xFFFFFFFF`. -/
theorem getByte_past_end_not_zero :
    getByte [] = 255 ∧ (RangeDecoder.new []).code = 4294967295 ∧
    (RangeDecoder.new [18]).code = 318767103 := by
  decide

/-- C14 (amended). When `RangeDecoder` needs a byte after its input stream is exhausted,
the byte it takes is `0xFF`: the constructor preloads `code = 0xFFFFFFFF` from the empty
stream, the byte branch of the renormalisation sets `code = (code << 8) | 0xFF`, and the
straddle branch shifts in the bit 1, `code = ((code ^ 0x80000000) << 1) | 1`. -/
theorem decoder_past_end (d : RangeDecoder) (fuel : Nat) (h : d.is = []) :
    getByte d.is = 255 ∧
    (RangeDecoder.new d.is).code = 4294967295 ∧
    (d.high &&& 4278190080 = d.low &&& 4278190080 →
      RangeDecoder.renorm (fuel + 1) d =
        RangeDecoder.renorm fuel
          { low := u32 (d.low <<< 8), high := u32 (d.high <<< 8) ||| 255,
            code := u32 (d.code <<< 8) ||| 255, is := [] }) ∧
    (¬ d.high &&& 4278190080 = d.low &&& 4278190080 →
      d.low &&& 2147483648 ≠ 0 ∧ d.high &&& 2147483648 = 0 →
      RangeDecoder.renorm (fuel + 1) d =
        RangeDecoder.renorm fuel
          { low := u32 (d.low <<< 1) &&& 2147483647,
            high := u32 ((d.high ^^^ 2147483648) <<< 1) ||| 1,
            code := u32 ((d.code ^^^ 2147483648) <<< 1) ||| 1, is := [] }) := by
  rw [h]
  refine ⟨by decide, by decide, ?_, ?_⟩
  · intro h1
    rw [RangeDecoder.renorm, if_pos h1, h]
    rfl
  · intro h1 h2
    rw [RangeDecoder.renorm, if_neg h1, if_pos h2, h]
    rfl

/-- A decoder on an exhausted stream whose bounds share the top byte `0x00`: the byte
branch shifts `0xFF` into `code`. -/
theorem decoder_past_end_witness :
    ({ low := 0, high := 16777215, code := 5, is := [] } : RangeDecoder).is = [] ∧
    (RangeDecoder.renorm 1 { low := 0, high := 16777215, code := 5, is := [] }).code = 1535 :=
  ⟨rfl, by
    rw [(decoder_past_end { low := 0, high := 16777215, code := 5, is := [] } 0 rfl).2.2.1
      (by decide)]
    decide⟩

theorem coderBound_exact (low high p1 : Nat) (h1 : low ≤ high) (h2 : high < 4294967296)
    (h3 : high - low + 1 < 4294967296) (h4 : p1 < 65536) :
    coderBound low high p1 = low + (high - low + 1) * (65535 - p1) / 65536 ∧
    low ≤ coderBound low high p1 ∧ coderBound low high p1 ≤ high := by
  have e1 : u32 (high + 4294967296 - low + 1) = high - low + 1 := by
    unfold u32
    omega
  have e2 : u16 p1 = p1 := Nat.mod_eq_of_lt h4
  have e3 : (high - low + 1) * (65535 - p1) / 65536 < high - low + 1 := by
    apply Nat.div_lt_of_lt_mul
    rw [Nat.mul_comm]
    apply Nat.mul_lt_mul_of_pos_right (by omega) (by omega)
  have e : coderBound low high p1 = low + (high - low + 1) * (65535 - p1) / 65536 := by
    unfold coderBound
    have e5 : (2 : Nat) ^ 16 = 65536 := by norm_num
    rw [e1, e2, Nat.shiftRight_eq_div_pow, e5]
    exact Nat.mod_eq_of_lt (by omega)
  rw [e]
  exact ⟨rfl, by omega, by omega⟩

/-- C15. In the state of a fresh coder, `low = 0` and `high = 0xFFFFFFFF`,
`range = high - low + 1` wraps around to 0 in `uint32_t`, so the bound is 0 = `low` for
every `p1`, where the formula over unbounded integers gives 2147418112 for `p1 = 32768`.
In every other state with `low ≤ high`, that is with `high - low + 1 < 2^32`, the bound is
the one of the formula: the product, taken in 64 bits, never wraps. -/
theorem coderBound_fresh_wraps :
    (∀ p1, coderBound 0 4294967295 p1 = 0) ∧
    0 + (4294967295 - 0 + 1) * (65535 - 32768) / 2 ^ 16 = 2147418112 ∧
    coderBound 0 4294967295 32768 ≠ 0 + (4294967295 - 0 + 1) * (65535 - 32768) / 2 ^ 16 ∧
    (∀ low high p1, low ≤ high → high < 4294967296 → high - low + 1 < 4294967296 →
      p1 < 65536 →
      coderBound low high p1 = low + (high - low + 1) * (65535 - p1) / 2 ^ 16) := by
  refine ⟨?_, by norm_num, by decide, ?_⟩
  · intro p1
    unfold coderBound
    have e : u32 (4294967295 + 4294967296 - 0 + 1) = 0 := by decide
    rw [e, Nat.zero_mul]
    rfl
  · intro low high p1 h1 h2 h3 h4
    exact (coderBound_exact low high p1 h1 h2 h3 h4).1

/-! ## Two blocks in one container -/

theorem bwtInverse_nil (primary : Nat) : bwtInverse [] primary = none := by
  unfold bwtInverse
  simp

theorem decompressLoop_empty_record (M : Mixer) (fuel : Nat) (st : Coding M)
    (tail out : List Nat) :
    decompressLoop M fuel st
      ([0, 0, 0, 0, 0, 0, 0, 0, 0, 0, 0, 0, 4, 0, 0, 0, 0, 0, 0, 0] ++ tail) out = none := by
  cases fuel with
  | zero => rfl
  | succ fuel =>
    have h8 : rd32At ([0, 0, 0, 0, 0, 0, 0, 0, 0, 0, 0, 0, 4, 0, 0, 0, 0, 0, 0, 0] ++ tail) 8 = 0 :=
      rfl
    rw [decompressLoop, if_neg (by simp), if_neg (by simp), h8]
    simp only [decodeBytes]
    have h0 : mtfDecode (rleZeroDecode []) = [] := rfl
    rw [h0, bwtInverse_nil]

theorem twoBlock_nil_fails (M : Mixer) (sc : Bool) (b : List Nat) :
    (twoBlockContainer M sc [] b).bind (decompress M) = none := by
  unfold twoBlockContainer
  rw [compressBlock_nil]
  cases hb : compressBlock M sc b with
  | none => rfl
  | some rb =>
    simp only [Option.some_bind, decompress]
    have e : (le64 (u64 (([] : List Nat).length + b.length)) ++
        BlockRecord.bytes { blockLen := 0, primary := 0, rleCount := 0, compSize := 4,
                            payload := [0, 0, 0, 0] } ++ rb.bytes).drop 8
        = [0, 0, 0, 0, 0, 0, 0, 0, 0, 0, 0, 0, 4, 0, 0, 0, 0, 0, 0, 0] ++ rb.bytes := rfl
    rw [e]
    exact decompressLoop_empty_record M _ _ _ _

theorem coderBound_fresh (p1 : Nat) : coderBound 0 4294967295 p1 = 0 := by
  unfold coderBound
  have e : u32 (4294967295 + 4294967296 - 0 + 1) = 0 := by decide
  rw [e, Nat.zero_mul]
  rfl

theorem decode_fresh_zero (p1 : Nat) (rest : List Nat) :
    RangeDecoder.decode
      { low := 0, high := 4294967295, code := 0, is := 0 :: 0 :: 0 :: 0 :: rest } p1
    = (0, { low := 0, high := 4294967295, code := 0, is := rest }) := by
  unfold RangeDecoder.decode
  simp only [coderBound_fresh]
  rw [if_pos (Nat.le_refl 0)]
  simp +decide [RangeDecoder.renorm, getByte, u8, u32]

theorem decode_fresh_zero_one (p1 : Nat) (rest : List Nat) :
    RangeDecoder.decode
      { low := 0, high := 4294967295, code := 0, is := 0 :: 0 :: 0 :: 1 :: rest } p1
    = (0, { low := 0, high := 4294967295, code := 1, is := rest }) := by
  unfold RangeDecoder.decode
  simp only [coderBound_fresh]
  rw [if_pos (Nat.le_refl 0)]
  simp +decide [RangeDecoder.renorm, getByte, u8, u32]

theorem decode_fresh_one (p1 : Nat) (rest : List Nat) :
    RangeDecoder.decode { low := 0, high := 4294967295, code := 1, is := rest } p1
    = (1, { low := 1, high := 4294967295, code := 1, is := rest }) := by
  unfold RangeDecoder.decode
  simp only [coderBound_fresh]
  rw [if_neg (by decide)]
  simp +decide [RangeDecoder.renorm, getByte, u8, u32]

theorem carried_models (M : Mixer) :
    (decodeBytes M 1
      (Coding.new M,
       RangeDecoder.new
        [0, 0, 0, 0, 0, 0, 0, 0, 0, 0, 0, 0, 0, 0, 0, 0, 0, 0, 0, 0, 0, 0, 0, 0, 0, 0, 0, 0,
         0, 0, 0, 1]) []).1.mods
      = Models.updateByte
          ((((((((Models.new.updateBit 0).updateBit 0).updateBit 0).updateBit 0).updateBit
            0).updateBit 0).updateBit 0).updateBit 1) 1 := by
  have hn : RangeDecoder.new
        [0, 0, 0, 0, 0, 0, 0, 0, 0, 0, 0, 0, 0, 0, 0, 0, 0, 0, 0, 0, 0, 0, 0, 0, 0, 0, 0, 0,
         0, 0, 0, 1]
      = { low := 0, high := 4294967295, code := 0,
          is := [0, 0, 0, 0, 0, 0, 0, 0, 0, 0, 0, 0, 0, 0, 0, 0, 0, 0, 0, 0, 0, 0, 0, 0,
                 0, 0, 0, 1] } := by decide
  rw [hn]
  simp only [decodeBytes, decodeByte, List.foldl_cons, List.foldl_nil, decodeBit,
    decode_fresh_zero, decode_fresh_zero_one, decode_fresh_one, Coding.new]
  rfl

theorem encode_fresh_zero (p1 : Nat) (os : List Nat) :
    RangeCoder.encode { low := 0, high := 4294967295, follow := 0, os := os } 0 p1
    = { low := 0, high := 4294967295, follow := 0, os := os ++ [0, 0, 0, 0] } := by
  unfold RangeCoder.encode
  simp only [coderBound_fresh]
  simp +decide [RangeCoder.renorm, u8, u32]

theorem encode_fresh_one (p1 : Nat) (os : List Nat) :
    RangeCoder.encode { low := 0, high := 4294967295, follow := 0, os := os } 1 p1
    = { low := 1, high := 4294967295, follow := 0, os := os } := by
  unfold RangeCoder.encode
  simp only [coderBound_fresh]
  simp +decide [RangeCoder.renorm, u8, u32]

theorem compressBlock_one (M : Mixer) (sc : Bool) :
    compressBlock M sc [1] =
      some { blockLen := 1, primary := 0, rleCount := 1, compSize := 32,
             payload := [0, 0, 0, 0, 0, 0, 0, 0, 0, 0, 0, 0, 0, 0, 0, 0, 0, 0, 0, 0, 0, 0, 0, 0,
                         0, 0, 0, 0, 0, 0, 0, 1] } := by
  have hb : bwtTransform sc [1] = some ([1], 0) := by
    cases sc <;> decide
  have hr : rleZero (mtfEncode [1]) = [1] := by decide
  have h7 : (1 >>> 7) &&& 1 = 0 := by decide
  have h6 : (1 >>> 6) &&& 1 = 0 := by decide
  have h5 : (1 >>> 5) &&& 1 = 0 := by decide
  have h4 : (1 >>> 4) &&& 1 = 0 := by decide
  have h3 : (1 >>> 3) &&& 1 = 0 := by decide
  have h2 : (1 >>> 2) &&& 1 = 0 := by decide
  have h1 : (1 >>> 1) &&& 1 = 0 := by decide
  have h0 : (1 >>> 0) &&& 1 = 1 := by decide
  simp only [compressBlock, hb, hr, List.foldl_cons, List.foldl_nil, encodeByte, encodeBit,
    RangeCoder.new, h7, h6, h5, h4, h3, h2, h1, h0, encode_fresh_zero, encode_fresh_one]
  rfl

/-- C11. A container of two block records under one `fullSize` is not decompressed to the
two inputs in order.  When the first input is empty, its record has `blockLen = 0` and
`decompress` runs `bwtInverse` on an empty block, an out-of-range read: no output is
defined, whatever the second input and the mixer.  When the first input is the byte
`0x01`, the predictors `decompress` has carried over to the second record predict
`32767, 32768, ..., 32768, 16384`, where `compress` coded the second input from fresh
predictors, which all predict `32768`. -/
theorem twoBlock_decompress_fails :
    (∀ (M : Mixer) (sc : Bool) (b : List Nat),
      (twoBlockContainer M sc [] b).bind (decompress M) = none) ∧
    (∀ (M : Mixer) (sc : Bool), ∃ r, compressBlock M sc [1] = some r ∧
      (decodeBytes M r.rleCount (Coding.new M, RangeDecoder.new r.payload) []).1.mods.predict
        = [32767, 32768, 32768, 32768, 32768, 32768, 32768, 16384]) ∧
    (∀ M : Mixer, (Coding.new M).mods.predict
        = [32768, 32768, 32768, 32768, 32768, 32768, 32768, 32768]) := by
  have hnew : Models.new.predict = [32768, 32768, 32768, 32768, 32768, 32768, 32768, 32768] := by
    decide
  refine ⟨twoBlock_nil_fails, fun M sc => ⟨_, compressBlock_one M sc, ?_⟩, fun M => hnew⟩
  dsimp only
  rw [carried_models]
  decide

/-! ## The rotation sort -/

theorem byteAt_lt (s : List Nat) (B : Nat) (hB : 0 < B) (h : ∀ x ∈ s, x < B) (i : Nat) :
    byteAt s i < B := by
  unfold byteAt
  exact getD_lt_of_forall s i B hB h

theorem keyFrom_lt (s : List Nat) (n a : Nat) (h : ∀ x ∈ s, x < 256) (fuel k : Nat) :
    keyFrom s n a fuel k < 256 ^ fuel := by
  induction fuel generalizing k with
  | zero => simp [keyFrom]
  | succ f ih =>
    rw [keyFrom, pow_succ]
    have h1 := byteAt_lt s 256 (by norm_num) h ((a + k) % n)
    have h2 := ih (k + 1)
    have h3 : byteAt s ((a + k) % n) * 256 ^ f ≤ 255 * 256 ^ f :=
      Nat.mul_le_mul_right _ (by omega)
    omega

theorem charVal_lt_iff (sc : Bool) (x y : Nat) (hx : x < 256) (hy : y < 256)
    (h : sc = true → x < 128 ∧ y < 128) : charVal sc x < charVal sc y ↔ x < y := by
  unfold charVal
  cases sc with
  | false => simp
  | true =>
    obtain ⟨h1, h2⟩ := h rfl
    have e1 : ¬ (128 ≤ x) := by omega
    have e2 : ¬ (128 ≤ y) := by omega
    simp [e1, e2]

theorem rotLessFrom_eq (sc : Bool) (s : List Nat) (n a b : Nat)
    (h : ∀ x ∈ s, x < 256) (hs : sc = true → ∀ x ∈ s, x < 128) (fuel k : Nat) :
    rotLessFrom sc s n a b fuel k
      = decide (keyFrom s n a fuel k < keyFrom s n b fuel k) := by
  induction fuel generalizing k with
  | zero => simp [rotLessFrom, keyFrom]
  | succ f ih =>
    rw [rotLessFrom, keyFrom, keyFrom]
    have ha := byteAt_lt s 256 (by norm_num) h ((a + k) % n)
    have hb := byteAt_lt s 256 (by norm_num) h ((b + k) % n)
    have ka := keyFrom_lt s n a h f (k + 1)
    have kb := keyFrom_lt s n b h f (k + 1)
    by_cases hne : byteAt s ((a + k) % n) = byteAt s ((b + k) % n)
    · simp only [hne, ne_eq, not_true_eq_false, if_false]
      rw [ih (k + 1)]
      simp
    · simp only [ne_eq, hne, not_false_eq_true, if_true]
      have hc := charVal_lt_iff sc _ _ ha hb (fun e =>
        ⟨byteAt_lt s 128 (by norm_num) (hs e) _, byteAt_lt s 128 (by norm_num) (hs e) _⟩)
      rw [decide_eq_decide, hc]
      constructor
      · intro hlt
        have : (byteAt s ((a + k) % n) + 1) * 256 ^ f ≤ byteAt s ((b + k) % n) * 256 ^ f :=
          Nat.mul_le_mul_right _ hlt
        rw [Nat.add_mul, Nat.one_mul] at this
        omega
      · intro hlt
        by_contra hge
        have hgt : byteAt s ((b + k) % n) < byteAt s ((a + k) % n) := by omega
        have : (byteAt s ((b + k) % n) + 1) * 256 ^ f ≤ byteAt s ((a + k) % n) * 256 ^ f :=
          Nat.mul_le_mul_right _ hgt
        rw [Nat.add_mul, Nat.one_mul] at this
        omega

theorem rotLess_eq (sc : Bool) (s : List Nat) (n a b : Nat)
    (h : ∀ x ∈ s, x < 256) (hs : sc = true → ∀ x ∈ s, x < 128) :
    rotLess sc s n a b = decide (rotKey s n a < rotKey s n b) :=
  rotLessFrom_eq sc s n a b h hs n 0

theorem perm_insertIdx (lt : Nat → Nat → Bool) (a : Nat) (l : List Nat) :
    List.Perm (insertIdx lt a l) (a :: l) := by
  induction l with
  | nil => exact List.Perm.refl _
  | cons b t ih =>
    rw [insertIdx]
    split
    · exact List.Perm.refl _
    · exact (List.Perm.cons b ih).trans (List.Perm.swap a b t)

theorem pairwise_insertIdx (key : Nat → Nat) (lt : Nat → Nat → Bool)
    (hlt : ∀ a b, lt a b = decide (key a < key b)) (a : Nat) (l : List Nat)
    (h : List.Pairwise (fun x y => key x ≤ key y) l) :
    List.Pairwise (fun x y => key x ≤ key y) (insertIdx lt a l) := by
  induction l with
  | nil => simp [insertIdx]
  | cons b t ih =>
    rw [insertIdx]
    rw [List.pairwise_cons] at h
    split
    · rename_i hab
      rw [hlt, decide_eq_true_eq] at hab
      rw [List.pairwise_cons]
      refine ⟨?_, List.pairwise_cons.mpr h⟩
      intro y hy
      rcases List.mem_cons.mp hy with e | e
      · rw [e]
        omega
      · have := h.1 y e
        omega
    · rename_i hab
      rw [hlt, decide_eq_true_eq] at hab
      rw [List.pairwise_cons]
      refine ⟨?_, ih h.2⟩
      intro y hy
      rcases List.mem_cons.mp ((perm_insertIdx lt a t).subset hy) with e | e
      · rw [e]
        omega
      · exact h.1 y e

theorem sortIdx_fold (key : Nat → Nat) (lt : Nat → Nat → Bool)
    (hlt : ∀ a b, lt a b = decide (key a < key b)) (l acc : List Nat)
    (h : List.Pairwise (fun x y => key x ≤ key y) acc) :
    List.Perm (l.foldl (fun sorted a => insertIdx lt a sorted) acc) (acc ++ l) ∧
    List.Pairwise (fun x y => key x ≤ key y)
      (l.foldl (fun sorted a => insertIdx lt a sorted) acc) := by
  induction l generalizing acc with
  | nil => simpa using h
  | cons a t ih =>
    rw [List.foldl_cons]
    have := ih (insertIdx lt a acc) (pairwise_insertIdx key lt hlt a acc h)
    refine ⟨this.1.trans ?_, this.2⟩
    have p1 : List.Perm (insertIdx lt a acc ++ t) ((a :: acc) ++ t) :=
      List.Perm.append_right t (perm_insertIdx lt a acc)
    refine p1.trans ?_
    simpa using (@List.perm_middle _ a acc t).symm

theorem sortIdx_spec (key : Nat → Nat) (lt : Nat → Nat → Bool)
    (hlt : ∀ a b, lt a b = decide (key a < key b)) (l : List Nat) :
    List.Perm (sortIdx lt l) l ∧
    List.Pairwise (fun x y => key x ≤ key y) (sortIdx lt l) := by
  have := sortIdx_fold key lt hlt l [] List.Pairwise.nil
  simpa [sortIdx] using this

/-! ## Rotation keys -/

theorem keyFrom_congr (s : List Nat) (n a b : Nat) (fuel k k' : Nat)
    (h : ∀ j, j < fuel → byteAt s ((a + (k + j)) % n) = byteAt s ((b + (k' + j)) % n)) :
    keyFrom s n a fuel k = keyFrom s n b fuel k' := by
  induction fuel generalizing k k' with
  | zero => rfl
  | succ f ih =>
    rw [keyFrom, keyFrom]
    have h0 := h 0 (by omega)
    rw [Nat.add_zero, Nat.add_zero] at h0
    rw [h0, ih (k + 1) (k' + 1)]
    intro j hj
    have := h (j + 1) (by omega)
    rw [show k + 1 + j = k + (j + 1) by omega, show k' + 1 + j = k' + (j + 1) by omega]
    exact this

theorem keyFrom_inj (s : List Nat) (n a b : Nat) (hb : ∀ x ∈ s, x < 256) (fuel k : Nat)
    (h : keyFrom s n a fuel k = keyFrom s n b fuel k) :
    ∀ j, j < fuel → byteAt s ((a + (k + j)) % n) = byteAt s ((b + (k + j)) % n) := by
  induction fuel generalizing k with
  | zero =>
    intro j hj
    omega
  | succ f ih =>
    rw [keyFrom, keyFrom] at h
    have ka := keyFrom_lt s n a hb f (k + 1)
    have kb := keyFrom_lt s n b hb f (k + 1)
    have hp : 0 < 256 ^ f := pow_pos (by norm_num) f
    have e1 : byteAt s ((a + k) % n) = byteAt s ((b + k) % n) := by
      have d1 : (byteAt s ((a + k) % n) * 256 ^ f + keyFrom s n a f (k + 1)) / 256 ^ f
          = byteAt s ((a + k) % n) := by
        rw [Nat.mul_comm, Nat.mul_add_div hp, Nat.div_eq_of_lt ka, Nat.add_zero]
      have d2 : (byteAt s ((b + k) % n) * 256 ^ f + keyFrom s n b f (k + 1)) / 256 ^ f
          = byteAt s ((b + k) % n) := by
        rw [Nat.mul_comm, Nat.mul_add_div hp, Nat.div_eq_of_lt kb, Nat.add_zero]
      rw [← d1, ← d2, h]
    have e2 : keyFrom s n a f (k + 1) = keyFrom s n b f (k + 1) := by
      rw [e1] at h
      omega
    intro j hj
    cases j with
    | zero => simpa using e1
    | succ j =>
      have := ih (k + 1) e2 j (by omega)
      rw [show k + 1 + j = k + (j + 1) by omega] at this
      exact this

theorem keyFrom_div (s : List Nat) (n a : Nat) (hb : ∀ x ∈ s, x < 256) (fuel k : Nat) :
    keyFrom s n a (fuel + 1) k / 256 = keyFrom s n a fuel k := by
  induction fuel generalizing k with
  | zero =>
    rw [keyFrom, keyFrom, keyFrom]
    have := byteAt_lt s 256 (by norm_num) hb ((a + k) % n)
    simp only [pow_zero, Nat.mul_one, Nat.add_zero]
    exact Nat.div_eq_of_lt this
  | succ f ih =>
    rw [keyFrom]
    conv_rhs => rw [keyFrom, ← ih (k + 1)]
    rw [pow_succ, ← Nat.mul_assoc, Nat.add_comm, Nat.add_mul_div_right _ _ (by norm_num : 0 < 256),
      Nat.add_comm]

theorem add_mod_shift (n y k : Nat) (hn : 0 < n) :
    ((y + n - 1) % n + (k + 1)) % n = (y + k) % n := by
  have e : (y + n - 1) % n + (k + 1) ≡ y + k [MOD n] := by
    have h1 : (y + n - 1) % n ≡ y + n - 1 [MOD n] := Nat.mod_modEq _ _
    have h2 := Nat.ModEq.add_right (k + 1) h1
    refine h2.trans ?_
    have e2 : y + n - 1 + (k + 1) = y + k + n := by omega
    rw [e2]
    exact (Nat.add_mod_right _ _)
  exact e

/-- The rotation that starts one place before `y` has the last byte of rotation `y` in
front of the other bytes of rotation `y`. -/
theorem rotKey_pred (s : List Nat) (n y : Nat) (hn : 0 < n) (hb : ∀ x ∈ s, x < 256) :
    rotKey s n ((y + n - 1) % n)
      = byteAt s ((y + n - 1) % n) * 256 ^ (n - 1) + rotKey s n y / 256 := by
  obtain ⟨f, rfl⟩ : ∃ f, n = f + 1 := ⟨n - 1, by omega⟩
  unfold rotKey
  rw [keyFrom_div s (f + 1) y hb f 0, keyFrom]
  simp only [Nat.add_zero, Nat.add_sub_cancel, Nat.mod_mod]
  congr 1
  apply keyFrom_congr
  intro j hj
  rw [Nat.zero_add, show 0 + 1 + j = j + 1 by omega, add_mod_shift (f + 1) y j (by omega),
    Nat.zero_add]

theorem rotKey_eq (s : List Nat) (n a b : Nat) (hn : 0 < n) (hb : ∀ x ∈ s, x < 256)
    (h : rotKey s n a = rotKey s n b) (k : Nat) :
    byteAt s ((a + k) % n) = byteAt s ((b + k) % n) := by
  have := keyFrom_inj s n a b hb n 0 h (k % n) (Nat.mod_lt _ hn)
  rw [Nat.zero_add, Nat.add_mod_mod, Nat.add_mod_mod] at this
  exact this

/-! ## The counting sort of `bwtInverse` -/

theorem lessCount_succ (l : List Nat) (c : Nat) :
    lessCount l (c + 1) = lessCount l c + l.count c := by
  unfold lessCount
  induction l with
  | nil => rfl
  | cons x t ih =>
    rw [List.countP_cons, List.countP_cons, List.count_cons, ih]
    by_cases h1 : x < c
    · have h2 : x < c + 1 := by omega
      have h3 : ¬ x = c := by omega
      simp [h1, h2, h3]
      omega
    · by_cases h3 : x = c
      · subst h3
        simp
        omega
      · have h2 : ¬ x < c + 1 := by omega
        simp [h1, h2, h3]

theorem lessCount_mono (l : List Nat) (c d : Nat) (h : c ≤ d) :
    lessCount l c ≤ lessCount l d := by
  unfold lessCount
  apply List.countP_mono_left
  intro x _ hx
  simp only [decide_eq_true_eq] at hx ⊢
  omega

theorem lessCount_append (l1 l2 : List Nat) (c : Nat) :
    lessCount (l1 ++ l2) c = lessCount l1 c + lessCount l2 c := by
  unfold lessCount
  exact List.countP_append _ _ _

theorem lessCount_add_count_le (l : List Nat) (c : Nat) :
    lessCount l c + l.count c ≤ l.length := by
  rw [← lessCount_succ]
  unfold lessCount
  exact List.countP_le_length _

theorem bwtPos_getD (last : List Nat) (c : Nat) (hc : c < 256) :
    (bwtPos (bwtCount last)).getD c 0 = lessCount last c := by
  induction c with
  | zero =>
    rw [bwtPos_zero]
    unfold lessCount
    simp
  | succ c ih =>
    rw [bwtPos_succ _ c (by omega), ih (by omega), bwtCount_getD last c (by omega),
      lessCount_succ]

theorem take_succ_byteAt (l : List Nat) (k : Nat) (hk : k < l.length) :
    l.take (k + 1) = l.take k ++ [byteAt l k] := by
  rw [List.take_succ]
  unfold byteAt
  rw [List.getD_eq_getElem?_getD, List.getElem?_eq_getElem hk]
  rfl

theorem split_at_byteAt (l : List Nat) (k : Nat) (hk : k < l.length) :
    l = l.take k ++ byteAt l k :: l.drop (k + 1) := by
  have h1 := take_succ_byteAt l k hk
  have h2 := List.take_append_drop (k + 1) l
  rw [h1, List.append_assoc] at h2
  exact h2.symm

theorem count_take_lt (l : List Nat) (i j : Nat) (hij : i < j) (hj : j ≤ l.length) :
    (l.take i).count (byteAt l i) < (l.take j).count (byteAt l i) := by
  have h1 : (l.take (i + 1)).count (byteAt l i) = (l.take i).count (byteAt l i) + 1 := by
    rw [take_succ_byteAt l i (by omega), List.count_append]
    simp
  have h2 : (l.take (i + 1)).count (byteAt l i) ≤ (l.take j).count (byteAt l i) :=
    List.Sublist.count_le (List.take_sublist_take_left l (by omega)) _
  omega

theorem bwtRank_lt (l : List Nat) (i : Nat) (hi : i < l.length) : bwtRank l i < l.length := by
  unfold bwtRank
  have hs := split_at_byteAt l i hi
  have e : lessCount l (byteAt l i)
      = lessCount (l.take i) (byteAt l i) + lessCount (l.drop (i + 1)) (byteAt l i) := by
    have e2 : lessCount (l.take i ++ byteAt l i :: l.drop (i + 1)) (byteAt l i)
        = lessCount (l.take i) (byteAt l i) + lessCount (l.drop (i + 1)) (byteAt l i) := by
      rw [lessCount_append]
      unfold lessCount
      rw [List.countP_cons]
      simp
    rw [← hs] at e2
    exact e2
  have h1 := lessCount_add_count_le (l.take i) (byteAt l i)
  have h2 : lessCount (l.drop (i + 1)) (byteAt l i) ≤ (l.drop (i + 1)).length :=
    List.countP_le_length _
  rw [List.length_take] at h1
  rw [List.length_drop] at h2
  omega

theorem bwtRank_lt_of_byte_lt (l : List Nat) (i j : Nat) (hi : i < l.length)
    (h : byteAt l i < byteAt l j) : bwtRank l i < bwtRank l j := by
  unfold bwtRank
  have h1 := count_take_lt l i l.length hi (Nat.le_refl _)
  rw [List.take_length] at h1
  have h2 := lessCount_succ l (byteAt l i)
  have h3 := lessCount_mono l (byteAt l i + 1) (byteAt l j) h
  omega

theorem bwtRank_lt_of_byte_eq (l : List Nat) (i j : Nat) (hij : i < j) (hj : j ≤ l.length)
    (h : byteAt l i = byteAt l j) : bwtRank l i < bwtRank l j := by
  unfold bwtRank
  have h1 := count_take_lt l i j hij hj
  rw [← h]
  omega

theorem bwtRank_cases (l : List Nat) (i j : Nat) (hi : i < l.length) (hj : j < l.length)
    (h : bwtRank l i < bwtRank l j) :
    byteAt l i < byteAt l j ∨ (byteAt l i = byteAt l j ∧ i < j) := by
  rcases Nat.lt_trichotomy (byteAt l i) (byteAt l j) with h1 | h1 | h1
  · exact Or.inl h1
  · right
    refine ⟨h1, ?_⟩
    by_contra hge
    rcases Nat.lt_or_eq_of_le (Nat.le_of_not_lt hge) with h2 | h2
    · have := bwtRank_lt_of_byte_eq l j i h2 (by omega) h1.symm
      omega
    · rw [h2] at h
      omega
  · have := bwtRank_lt_of_byte_lt l j i hj h1
    omega

theorem bwtRank_inj (l : List Nat) (i j : Nat) (hi : i < l.length) (hj : j < l.length)
    (h : bwtRank l i = bwtRank l j) : i = j := by
  rcases Nat.lt_trichotomy (byteAt l i) (byteAt l j) with h1 | h1 | h1
  · have := bwtRank_lt_of_byte_lt l i j hi h1
    omega
  · rcases Nat.lt_trichotomy i j with h2 | h2 | h2
    · have := bwtRank_lt_of_byte_eq l i j h2 (by omega) h1
      omega
    · exact h2
    · have := bwtRank_lt_of_byte_eq l j i h2 (by omega) h1.symm
      omega
  · have := bwtRank_lt_of_byte_lt l j i hj h1
    omega

theorem count_take_succ (l : List Nat) (k c : Nat) (hk : k < l.length) :
    (l.take (k + 1)).count c = (l.take k).count c + if byteAt l k = c then 1 else 0 := by
  rw [take_succ_byteAt l k hk, List.count_append, List.count_singleton]
  by_cases h : byteAt l k = c
  · simp [h]
  · have h2 : ¬ (c = byteAt l k) := fun e => h e.symm
    simp [h, h2]

theorem bwtNext_rank_fold (last pos : List Nat) (hbytes : ∀ x ∈ last, x < 256)
    (hpl : pos.length = 256) (hp0 : ∀ c, c < 256 → pos.getD c 0 = lessCount last c)
    (k : Nat) (hk : k ≤ last.length) :
    ∃ st : List Nat × List Nat,
      (List.range k).foldl
        (fun (st : List Nat × List Nat) i =>
          let c := byteAt last i
          (st.1.set c (st.1.getD c 0 + 1), st.2.set (st.1.getD c 0) i))
        (pos, List.replicate last.length 0) = st ∧
      st.1.length = 256 ∧ st.2.length = last.length ∧
      (∀ c, c < 256 → st.1.getD c 0 = lessCount last c + (last.take k).count c) ∧
      (∀ i, i < k → st.2.getD (bwtRank last i) 0 = i) := by
  induction k with
  | zero =>
    refine ⟨_, rfl, hpl, List.length_replicate _ _, ?_, ?_⟩
    · intro c hc
      rw [List.take_zero, List.count_nil, Nat.add_zero]
      exact hp0 c hc
    · intro i hi
      omega
  | succ k ih =>
    obtain ⟨st, hst, hl1, hl2, hpos, hnext⟩ := ih (by omega)
    have hkn : k < last.length := by omega
    have hc : byteAt last k < 256 := byteAt_lt last 256 (by norm_num) hbytes k
    have hrk : st.1.getD (byteAt last k) 0 = bwtRank last k := hpos _ hc
    rw [List.range_succ, List.foldl_append, hst]
    simp only [List.foldl_cons, List.foldl_nil]
    refine ⟨_, rfl, ?_, ?_, ?_, ?_⟩
    · rw [List.length_set]
      exact hl1
    · rw [List.length_set]
      exact hl2
    · intro c hc'
      dsimp only
      rw [getD_set, count_take_succ last k c hkn, hl1]
      by_cases e : byteAt last k = c
      · rw [if_pos ⟨e, hc⟩, if_pos e, ← e, hrk]
        unfold bwtRank
        omega
      · rw [if_neg (fun h => e h.1), if_neg e, hpos c hc', Nat.add_zero]
    · intro i hi
      dsimp only
      rw [getD_set, hrk, hl2]
      by_cases e : i = k
      · rw [e, if_pos ⟨rfl, bwtRank_lt last k hkn⟩]
      · have hik : i < k := by omega
        have hne : ¬ bwtRank last k = bwtRank last i := fun h =>
          e (bwtRank_inj last k i hkn (by omega) h).symm
        rw [if_neg (fun h => hne h.1)]
        exact hnext i hik

theorem bwtNext_rank (last : List Nat) (hbytes : ∀ x ∈ last, x < 256) :
    (bwtNext last last.length (bwtPos (bwtCount last))).length = last.length ∧
    ∀ i, i < last.length →
      (bwtNext last last.length (bwtPos (bwtCount last))).getD (bwtRank last i) 0 = i := by
  obtain ⟨st, hst, _, hl2, _, hnext⟩ :=
    bwtNext_rank_fold last (bwtPos (bwtCount last)) hbytes (bwtPos_length _)
      (bwtPos_getD last) last.length (Nat.le_refl _)
  unfold bwtNext
  rw [hst]
  exact ⟨hl2, hnext⟩

theorem bwtRank_surj (last : List Nat) (r : Nat) (hr : r < last.length) :
    ∃ i, i < last.length ∧ bwtRank last i = r := by
  have hinj : Function.Injective
      (fun i : Fin last.length => (⟨bwtRank last i.1, bwtRank_lt last i.1 i.2⟩ : Fin last.length)) := by
    intro a b hab
    have := congrArg Fin.val hab
    exact Fin.ext (bwtRank_inj last a.1 b.1 a.2 b.2 this)
  have hsurj := Finite.injective_iff_surjective.mp hinj
  obtain ⟨i, hi⟩ := hsurj ⟨r, hr⟩
  exact ⟨i.1, i.2, congrArg Fin.val hi⟩

/-- Entry `r` of `next` is the row whose slot is `r`. -/
theorem bwtNext_getD (last : List Nat) (hbytes : ∀ x ∈ last, x < 256) (r : Nat)
    (hr : r < last.length) :
    (bwtNext last last.length (bwtPos (bwtCount last))).getD r 0 < last.length ∧
    bwtRank last ((bwtNext last last.length (bwtPos (bwtCount last))).getD r 0) = r := by
  obtain ⟨i, hi, hri⟩ := bwtRank_surj last r hr
  have := (bwtNext_rank last hbytes).2 i hi
  rw [hri] at this
  rw [this]
  exact ⟨hi, hri⟩

/-! ## Inverting the block transform -/

theorem getD_map_lt (l : List Nat) (f : Nat → Nat) (i : Nat) (h : i < l.length) (d e : Nat) :
    (l.map f).getD i d = f (l.getD i e) := by
  rw [List.getD_eq_getElem _ _ (by rw [List.length_map]; exact h), List.getD_eq_getElem _ _ h,
    List.getElem_map]

theorem getD_mem (l : List Nat) (i : Nat) (h : i < l.length) (d : Nat) : l.getD i d ∈ l := by
  rw [List.getD_eq_getElem _ _ h]
  exact List.getElem_mem h

theorem getD_inj_of_nodup (l : List Nat) (hnd : l.Nodup) (i j : Nat) (hi : i < l.length)
    (hj : j < l.length) (h : l.getD i 0 = l.getD j 0) : i = j := by
  rw [List.getD_eq_getElem _ _ hi, List.getD_eq_getElem _ _ hj] at h
  exact (List.Nodup.getElem_inj_iff hnd).mp h

theorem pairwise_getD (R : Nat → Nat → Prop) (l : List Nat) (h : List.Pairwise R l)
    (i j : Nat) (hij : i < j) (hj : j < l.length) : R (l.getD i 0) (l.getD j 0) := by
  rw [List.getD_eq_getElem _ _ (by omega), List.getD_eq_getElem _ _ hj]
  exact List.pairwise_iff_getElem.mp h i j (by omega) hj hij

theorem pred_mod (n y : Nat) (hy : y < n) :
    (y + n - 1) % n = if y = 0 then n - 1 else y - 1 := by
  by_cases h : y = 0
  · subst h
    rw [if_pos rfl, Nat.zero_add]
    exact Nat.mod_eq_of_lt (by omega)
  · rw [if_neg h]
    have e : y + n - 1 = y - 1 + n := by omega
    rw [e, Nat.add_mod_right]
    exact Nat.mod_eq_of_lt (by omega)

theorem pred_mod_inj (n y z : Nat) (hy : y < n) (hz : z < n)
    (h : (y + n - 1) % n = (z + n - 1) % n) : y = z := by
  rw [pred_mod n y hy, pred_mod n z hz] at h
  split at h <;> split at h <;> omega

theorem perm_range_of_inj (n : Nat) (g : Nat → Nat) (hlt : ∀ r, r < n → g r < n)
    (hinj : ∀ r r', r < n → r' < n → g r = g r' → r = r') :
    List.Perm ((List.range n).map g) (List.range n) := by
  have hnd : ((List.range n).map g).Nodup := by
    apply List.Nodup.map_on _ (List.nodup_range n)
    intro x hx y hy hxy
    exact hinj x y (List.mem_range.mp hx) (List.mem_range.mp hy) hxy
  have hsub : (List.range n).map g ⊆ List.range n := by
    intro x hx
    obtain ⟨r, hr, rfl⟩ := List.mem_map.mp hx
    exact List.mem_range.mpr (hlt r (List.mem_range.mp hr))
  exact (List.subperm_of_subset hnd hsub).perm_of_length_le (by simp)

theorem findPrimary_spec (l : List Nat) (i p : Nat) (hl : i + l.length ≤ 4294967296)
    (h0 : 0 ∈ l) :
    ∃ k, k < l.length ∧ l.getD k 1 = 0 ∧ findPrimary l i p = i + k := by
  induction l generalizing i p with
  | nil => simp at h0
  | cons j t ih =>
    rw [findPrimary]
    rw [List.length_cons] at hl
    by_cases ht : 0 ∈ t
    · obtain ⟨k, hk, hk0, hk1⟩ := ih (i + 1) (if j = 0 then u32 i else p) (by omega) ht
      exact ⟨k + 1, by simp only [List.length_cons]; omega, hk0, by rw [hk1]; omega⟩
    · have hj : j = 0 := by
        rcases List.mem_cons.mp h0 with e | e
        · exact e.symm
        · exact absurd e ht
      have hnone : ∀ (t : List Nat) (i p : Nat), 0 ∉ t → findPrimary t i p = p := by
        intro t
        induction t with
        | nil => intro i p _; rfl
        | cons a t iht =>
          intro i p hnot
          rw [findPrimary]
          have ha : ¬ a = 0 := fun e => hnot (by rw [e]; exact List.mem_cons_self _ _)
          rw [if_neg ha]
          exact iht (i + 1) p (fun e => hnot (List.mem_cons_of_mem _ e))
      rw [hnone t (i + 1) _ ht, if_pos hj]
      refine ⟨0, by simp, by simp [hj], ?_⟩
      unfold u32
      rw [Nat.add_zero]
      exact Nat.mod_eq_of_lt (by omega)

/-- In the rows of the sorted rotations, following `next` from row `r` leads to a row
whose rotation reads as the rotation of row `r` moved on by one byte. -/
theorem bwtNext_rows (s idx last next : List Nat) (hn : 0 < s.length)
    (hb : ∀ x ∈ s, x < 256) (hperm : List.Perm idx (List.range s.length))
    (hsorted : List.Pairwise (fun a b => rotKey s s.length a ≤ rotKey s s.length b) idx)
    (hlast : last = idx.map (fun j => byteAt s ((j + s.length - 1) % s.length)))
    (hnext : next = bwtNext last last.length (bwtPos (bwtCount last)))
    (r : Nat) (hr : r < s.length) :
    next.getD r 0 < s.length ∧
    ∀ k, byteAt s ((idx.getD (next.getD r 0) 0 + k) % s.length)
          = byteAt s ((idx.getD r 0 + (k + 1)) % s.length) := by
  have hlen : idx.length = s.length := hperm.length_eq.trans (List.length_range _)
  have hidx_lt : ∀ i, i < s.length → idx.getD i 0 < s.length := by
    intro i hi
    exact List.mem_range.mp (hperm.subset (getD_mem idx i (by omega) 0))
  have hnd : idx.Nodup := hperm.nodup_iff.mpr (List.nodup_range _)
  have hlast_len : last.length = s.length := by rw [hlast, List.length_map, hlen]
  have hlast_at : ∀ i, i < s.length →
      byteAt last i = byteAt s ((idx.getD i 0 + s.length - 1) % s.length) := by
    intro i hi
    unfold byteAt
    rw [hlast, getD_map_lt idx _ i (by omega) 0 0]
    rfl
  have hlast_b : ∀ x ∈ last, x < 256 := by
    intro x hx
    rw [hlast] at hx
    obtain ⟨j, _, rfl⟩ := List.mem_map.mp hx
    exact byteAt_lt s 256 (by norm_num) hb _
  have hnx : ∀ q, q < s.length →
      next.getD q 0 < s.length ∧ bwtRank last (next.getD q 0) = q := by
    intro q hq
    have := bwtNext_getD last hlast_b q (by omega)
    rw [← hnext, hlast_len] at this
    exact this
  have hP : ∀ i, i < s.length →
      rotKey s s.length ((idx.getD i 0 + s.length - 1) % s.length)
        = byteAt last i * 256 ^ (s.length - 1) + rotKey s s.length (idx.getD i 0) / 256 := by
    intro i hi
    rw [rotKey_pred s s.length _ hn hb, hlast_at i hi]
  have hKlt : ∀ a, rotKey s s.length a / 256 < 256 ^ (s.length - 1) := by
    intro a
    have h1 : rotKey s s.length a < 256 ^ s.length := keyFrom_lt s s.length a hb s.length 0
    have h2 : 256 ^ s.length = 256 ^ (s.length - 1) * 256 := by
      rw [← pow_succ]
      congr 1
      omega
    rw [h2] at h1
    exact Nat.div_lt_of_lt_mul (by rw [Nat.mul_comm]; exact h1)
  have hmono : ∀ q q', q < q' → q' < s.length →
      rotKey s s.length ((idx.getD (next.getD q 0) 0 + s.length - 1) % s.length)
        ≤ rotKey s s.length ((idx.getD (next.getD q' 0) 0 + s.length - 1) % s.length) := by
    intro q q' hqq hq'
    obtain ⟨hi, hri⟩ := hnx q (by omega)
    obtain ⟨hj, hrj⟩ := hnx q' hq'
    rw [hP _ hi, hP _ hj]
    have hrank : bwtRank last (next.getD q 0) < bwtRank last (next.getD q' 0) := by
      rw [hri, hrj]
      exact hqq
    have h1 := hKlt (idx.getD (next.getD q 0) 0)
    rcases bwtRank_cases last _ _ (by omega) (by omega) hrank with hc | ⟨hc, hij⟩
    · have : (byteAt last (next.getD q 0) + 1) * 256 ^ (s.length - 1)
          ≤ byteAt last (next.getD q' 0) * 256 ^ (s.length - 1) :=
        Nat.mul_le_mul_right _ hc
      rw [Nat.add_mul, Nat.one_mul] at this
      omega
    · rw [hc]
      have h2 := pairwise_getD _ idx hsorted _ _ hij (by omega)
      have h3 := Nat.div_le_div_right (c := 256) h2
      omega
  have hperm2 : List.Perm
      ((List.range s.length).map
        (fun q => (idx.getD (next.getD q 0) 0 + s.length - 1) % s.length))
      (List.range s.length) := by
    apply perm_range_of_inj
    · intro q _
      exact Nat.mod_lt _ hn
    · intro q q' hq hq' h
      obtain ⟨hi, hri⟩ := hnx q hq
      obtain ⟨hj, hrj⟩ := hnx q' hq'
      have h1 := pred_mod_inj s.length _ _ (hidx_lt _ hi) (hidx_lt _ hj) h
      have h2 := getD_inj_of_nodup idx hnd _ _ (by omega) (by omega) h1
      rw [← hri, ← hrj, h2]
  have hA : List.Sorted (fun a b : Nat => a ≤ b) (idx.map (rotKey s s.length)) :=
    List.pairwise_map.mpr hsorted
  have hB : List.Sorted (fun a b : Nat => a ≤ b)
      ((List.range s.length).map (fun q =>
        rotKey s s.length ((idx.getD (next.getD q 0) 0 + s.length - 1) % s.length))) := by
    apply List.pairwise_map.mpr
    apply List.Pairwise.imp_of_mem _ (List.pairwise_lt_range s.length)
    intro a b _ hb' hab
    exact hmono a b hab (List.mem_range.mp hb')
  have hAB : idx.map (rotKey s s.length)
      = (List.range s.length).map (fun q =>
        rotKey s s.length ((idx.getD (next.getD q 0) 0 + s.length - 1) % s.length)) := by
    apply List.eq_of_perm_of_sorted _ hA hB
    have p1 := hperm.map (rotKey s s.length)
    have p2 := hperm2.map (rotKey s s.length)
    rw [List.map_map] at p2
    exact p1.trans p2.symm
  have hkey : rotKey s s.length (idx.getD r 0)
      = rotKey s s.length ((idx.getD (next.getD r 0) 0 + s.length - 1) % s.length) := by
    have := congrArg (fun l => l.getD r 0) hAB
    dsimp only at this
    have hrl : r < (List.range s.length).length := by
      rw [List.length_range]
      exact hr
    have hri : r < idx.length := by omega
    have e3 : (List.range s.length).getD r 0 = r := by
      rw [List.getD_eq_getElem _ _ hrl, List.getElem_range]
    rw [getD_map_lt idx _ r hri 0 0, getD_map_lt (List.range s.length) _ r hrl 0 0, e3] at this
    exact this
  refine ⟨(hnx r hr).1, ?_⟩
  intro k
  have := rotKey_eq s s.length _ _ hn hb hkey (k + 1)
  rw [add_mod_shift s.length _ k hn] at this
  exact this.symm

theorem bwtWalk_rows (s idx last next : List Nat) (hn : 0 < s.length)
    (hlast_at : ∀ i, i < s.length →
      byteAt last i = byteAt s ((idx.getD i 0 + s.length - 1) % s.length))
    (hrows : ∀ r, r < s.length → next.getD r 0 < s.length ∧
      ∀ k, byteAt s ((idx.getD (next.getD r 0) 0 + k) % s.length)
            = byteAt s ((idx.getD r 0 + (k + 1)) % s.length))
    (m j t : Nat) (hj : j < s.length)
    (ht : ∀ k, byteAt s ((idx.getD j 0 + k) % s.length) = byteAt s ((t + k) % s.length)) :
    bwtWalk last next m j
      = (List.range m).map (fun i => byteAt s ((t + s.length - 1 + i) % s.length)) := by
  induction m generalizing j t with
  | zero => rfl
  | succ m ih =>
    rw [bwtWalk, List.range_succ_eq_map, List.map_cons, List.map_map]
    have h0 : byteAt last j = byteAt s ((t + s.length - 1 + 0) % s.length) := by
      rw [hlast_at j hj, Nat.add_zero]
      have := ht (s.length - 1)
      rw [show idx.getD j 0 + (s.length - 1) = idx.getD j 0 + s.length - 1 by omega,
        show t + (s.length - 1) = t + s.length - 1 by omega] at this
      exact this
    rw [h0]
    congr 1
    have hstep := hrows j hj
    rw [ih (next.getD j 0) (t + 1) hstep.1]
    · apply List.map_congr_left
      intro i _
      simp only [Function.comp]
      congr 2
      omega
    · intro k
      rw [hstep.2 k, ht (k + 1)]
      congr 2
      omega

theorem map_byteAt_range (s : List Nat) : (List.range s.length).map (byteAt s) = s := by
  apply List.ext_getElem
  · simp
  · intro i h1 h2
    rw [List.getElem_map, List.getElem_range]
    unfold byteAt
    exact List.getD_eq_getElem _ _ h2

/-- The block transform followed by its inverse gives the input back whenever the
comparator of the sort orders the bytes of the input as `unsigned char`: always when `char`
is unsigned, and for bytes below `0x80` when it is signed. -/
theorem bwtInverse_bwtTransform_of_order (sc : Bool) (s : List Nat) (hne : s ≠ [])
    (hlen : s.length ≤ 1073741824) (hb : ∀ x ∈ s, x < 256)
    (hs : sc = true → ∀ x ∈ s, x < 128) :
    (bwtTransform sc s).bind (fun r => bwtInverse r.1 r.2) = some s := by
  have hn : 0 < s.length := List.length_pos.mpr hne
  have hmod : s.length % 4294967296 = s.length := Nat.mod_eq_of_lt (by omega)
  obtain ⟨⟨last, primary⟩, hr⟩ := bwtTransform_isSome sc s hlen
  obtain ⟨_, hlast, hprim⟩ := bwtTransform_eq_some sc s last primary hr
  rw [hmod] at hlast hprim
  rw [hr, Option.some_bind]
  dsimp only
  obtain ⟨hperm, hsorted⟩ := sortIdx_spec (rotKey s s.length) (rotLess sc s s.length)
    (fun a b => rotLess_eq sc s s.length a b hb hs) (List.range s.length)
  generalize hidx : sortIdx (rotLess sc s s.length) (List.range s.length) = idx
    at hlast hprim hperm hsorted
  have hlenidx : idx.length = s.length := hperm.length_eq.trans (List.length_range _)
  have hlast_len : last.length = s.length := by rw [hlast, List.length_map, hlenidx]
  have h0mem : 0 ∈ idx := hperm.symm.subset (List.mem_range.mpr hn)
  obtain ⟨p, hp, hp0, hpe⟩ := findPrimary_spec idx 0 0 (by omega) h0mem
  rw [Nat.zero_add] at hpe
  have hpidx : idx.getD p 0 = 0 := by
    rw [List.getD_eq_getElem _ _ hp] at hp0 ⊢
    exact hp0
  have hlast_at : ∀ i, i < s.length →
      byteAt last i = byteAt s ((idx.getD i 0 + s.length - 1) % s.length) := by
    intro i hi
    unfold byteAt
    rw [hlast, getD_map_lt idx _ i (by omega) 0 0]
    rfl
  have hrows := bwtNext_rows s idx last _ hn hb hperm hsorted hlast rfl
  unfold bwtInverse
  rw [if_neg (by omega)]
  dsimp only
  rw [if_pos (by omega), hprim, hpe]
  have hstart := hrows p (by omega)
  rw [bwtWalk_rows s idx last _ hn hlast_at hrows last.length _ 1 hstart.1
    (fun k => by rw [hstart.2 k, hpidx, Nat.zero_add, Nat.add_comm])]
  rw [hlast_len]
  have e : (fun i => byteAt s ((1 + s.length - 1 + i) % s.length)) = fun i => byteAt s (i % s.length) := by
    funext i
    congr 1
    rw [show 1 + s.length - 1 + i = i + s.length by omega, Nat.add_mod_right]
  rw [e]
  have e2 : (List.range s.length).map (fun i => byteAt s (i % s.length))
      = (List.range s.length).map (byteAt s) := by
    apply List.map_congr_left
    intro i hi
    rw [Nat.mod_eq_of_lt (List.mem_range.mp hi)]
  rw [e2, map_byteAt_range]

/-- C20 (amended). For every non-empty byte sequence `x` of at most `2^30` bytes whose
bytes are all below `0x80`, `bwtInverse` applied to the result of `bwtTransform` gives `x`
back, whether the rotation comparator orders bytes as signed or as unsigned `char`. -/
theorem bwtInverse_bwtTransform_ascii (sc : Bool) (x : List Nat) (hne : x ≠ [])
    (hlen : x.length ≤ 1073741824) (hb : ∀ b ∈ x, b < 128) :
    (bwtTransform sc x).bind (fun r => bwtInverse r.1 r.2) = some x :=
  bwtInverse_bwtTransform_of_order sc x hne hlen (fun b h => by have := hb b h; omega)
    (fun _ => hb)

/-- The word `banana` under the signed comparator. -/
theorem bwtInverse_bwtTransform_ascii_witness :
    ([98, 97, 110, 97, 110, 97] : List Nat) ≠ [] ∧
    ([98, 97, 110, 97, 110, 97] : List Nat).length ≤ 1073741824 ∧
    (∀ b ∈ ([98, 97, 110, 97, 110, 97] : List Nat), b < 128) ∧
    (bwtTransform true [98, 97, 110, 97, 110, 97]).bind (fun r => bwtInverse r.1 r.2)
      = some [98, 97, 110, 97, 110, 97] :=
  ⟨by decide, by decide, by decide,
   bwtInverse_bwtTransform_ascii true [98, 97, 110, 97, 110, 97] (by decide) (by decide)
    (by decide)⟩

/-- C20 (as stated, refuted). On `2^31` bytes `0x61`, all below `0x80`, `int n` is
negative and `bwtTransform` does not return, with either comparator. -/
theorem bwtTransform_two_pow_31 :
    (∀ b ∈ List.replicate 2147483648 97, b < 128) ∧
    List.replicate 2147483648 97 ≠ [] ∧
    (bwtTransform true (List.replicate 2147483648 97)).bind (fun r => bwtInverse r.1 r.2)
      = none ∧
    (bwtTransform false (List.replicate 2147483648 97)).bind (fun r => bwtInverse r.1 r.2)
      = none := by
  have hnone : ∀ sc, bwtTransform sc (List.replicate 2147483648 97) = none := by
    intro sc
    unfold bwtTransform toInt
    rw [List.length_replicate]
    rfl
  refine ⟨?_, ?_, ?_, ?_⟩
  · intro b hb
    rw [List.eq_of_mem_replicate hb]
    norm_num
  · intro h
    have := congrArg List.length h
    rw [List.length_replicate] at this
    cases this
  · rw [hnone]
    rfl
  · rw [hnone]
    rfl

/-! ## The interval of the decoder -/

theorem and_high_mask (x k : Nat) (hx : x < 2 ^ 32) :
    x &&& (2 ^ k * (2 ^ (32 - k) - 1)) = x / 2 ^ k * 2 ^ k := by
  rw [← Nat.shiftRight_eq_div_pow, ← Nat.shiftLeft_eq]
  apply Nat.eq_of_testBit_eq
  intro i
  rw [Nat.testBit_and, Nat.testBit_mul_pow_two, Nat.testBit_two_pow_sub_one,
    Nat.testBit_shiftLeft, Nat.testBit_shiftRight]
  by_cases h1 : i ≥ k
  · by_cases h2 : i < 32
    · have h3 : i - k < 32 - k := by omega
      have h4 : k + (i - k) = i := by omega
      simp [h1, h3, h4]
    · have h3 : ¬ (i - k < 32 - k) := by omega
      have h4 : k + (i - k) = i := by omega
      have h5 : x.testBit i = false :=
        Nat.testBit_lt_two_pow (Nat.lt_of_lt_of_le hx (Nat.pow_le_pow_right (by norm_num) (by omega)))
      simp [h1, h3, h4, h5]
  · simp [h1]

theorem and_top_byte (x : Nat) (hx : x < 4294967296) :
    x &&& 4278190080 = x / 16777216 * 16777216 := by
  have := and_high_mask x 24 (by norm_num; exact hx)
  norm_num at this
  exact this

theorem and_top_bit (x : Nat) (hx : x < 4294967296) :
    x &&& 2147483648 = x / 2147483648 * 2147483648 := by
  have := and_high_mask x 31 (by norm_num; exact hx)
  norm_num at this
  exact this

theorem coderBound_mem (low high p1 : Nat) (h1 : low ≤ high) (h2 : high < 4294967296) :
    low ≤ coderBound low high p1 ∧ coderBound low high p1 ≤ high := by
  by_cases h3 : high - low + 1 < 4294967296
  · have e : coderBound low high p1 = coderBound low high (u16 p1) := by
      unfold coderBound u16
      rw [Nat.mod_mod]
    rw [e]
    exact (coderBound_exact low high (u16 p1) h1 h2 h3 (Nat.mod_lt _ (by norm_num))).2
  · have hl : low = 0 := by omega
    have hh : high = 4294967295 := by omega
    rw [hl, hh, coderBound_fresh]
    omega

theorem getByte_lt (is : List Nat) : getByte is < 256 := Nat.mod_lt _ (by norm_num)

theorem shift8_code (c b : Nat) (hb : b < 256) :
    u32 (c <<< 8) ||| b = c * 256 % 4294967296 + b := by
  rw [u32, Nat.shiftLeft_eq]
  exact or_low_bits _ b 8 (by norm_num; omega) (by norm_num; exact hb)

theorem decRenorm_inv (fuel : Nat) (d : RangeDecoder) (h1 : d.low ≤ d.code)
    (h2 : d.code ≤ d.high) (h3 : d.high < 4294967296) :
    (RangeDecoder.renorm fuel d).low ≤ (RangeDecoder.renorm fuel d).code ∧
    (RangeDecoder.renorm fuel d).code ≤ (RangeDecoder.renorm fuel d).high ∧
    (RangeDecoder.renorm fuel d).high < 4294967296 := by
  induction fuel generalizing d with
  | zero => exact ⟨h1, h2, h3⟩
  | succ fuel ih =>
    rw [RangeDecoder.renorm]
    split
    · rename_i hc
      rw [and_top_byte _ h3, and_top_byte _ (by omega)] at hc
      have hb := getByte_lt d.is
      apply ih
      · dsimp only
        rw [shift8_low, shift8_code _ _ hb]
        omega
      · dsimp only
        rw [shift8_high, shift8_code _ _ hb]
        omega
      · dsimp only
        rw [shift8_high]
        omega
    · split
      · rename_i hc
        rw [and_top_bit _ h3, and_top_bit _ (by omega)] at hc
        omega
      · exact ⟨h1, h2, h3⟩

theorem decode_inv (d : RangeDecoder) (p1 : Nat) (h1 : d.low ≤ d.code)
    (h2 : d.code ≤ d.high) (h3 : d.high < 4294967296) :
    (d.decode p1).2.low ≤ (d.decode p1).2.code ∧
    (d.decode p1).2.code ≤ (d.decode p1).2.high ∧
    (d.decode p1).2.high < 4294967296 := by
  have hb := coderBound_mem d.low d.high p1 (by omega) h3
  unfold RangeDecoder.decode
  split
  · rename_i hc
    exact decRenorm_inv 32 _ h1 hc (by dsimp only; omega)
  · rename_i hc
    have hl : u32 (coderBound d.low d.high p1 + 1) ≤ d.code := by
      unfold u32
      rw [Nat.mod_eq_of_lt (by omega)]
      omega
    exact decRenorm_inv 32 { d with low := u32 (coderBound d.low d.high p1 + 1) } hl h2 h3

theorem decoder_new_inv (stream : List Nat) :
    (RangeDecoder.new stream).low ≤ (RangeDecoder.new stream).code ∧
    (RangeDecoder.new stream).code ≤ (RangeDecoder.new stream).high ∧
    (RangeDecoder.new stream).high < 4294967296 := by
  refine ⟨Nat.zero_le _, ?_, by unfold RangeDecoder.new; norm_num⟩
  unfold RangeDecoder.new
  dsimp only
  rw [shift8_code _ _ (getByte_lt _)]
  have := getByte_lt stream.tail.tail.tail
  omega

/-- The decoder half of the interval invariant: after any number of `decode` calls on a
fresh `RangeDecoder`, on any stream and with any probabilities, `low ≤ code ≤ high`. -/
theorem decode_low_le_high (stream ps : List Nat) :
    (ps.foldl (fun d p => (d.decode p).2) (RangeDecoder.new stream)).low
      ≤ (ps.foldl (fun d p => (d.decode p).2) (RangeDecoder.new stream)).high := by
  have key : ∀ (ps : List Nat) (d : RangeDecoder), d.low ≤ d.code → d.code ≤ d.high →
      d.high < 4294967296 →
      (ps.foldl (fun d p => (d.decode p).2) d).low
        ≤ (ps.foldl (fun d p => (d.decode p).2) d).high := by
    intro ps
    induction ps with
    | nil =>
      intro d h1 h2 _
      exact Nat.le_trans h1 h2
    | cons p t ih =>
      intro d h1 h2 h3
      rw [List.foldl_cons]
      obtain ⟨g1, g2, g3⟩ := decode_inv d p h1 h2 h3
      exact ih _ g1 g2 g3
  obtain ⟨h1, h2, h3⟩ := decoder_new_inv stream
  exact key ps _ h1 h2 h3

/-- C12. The encoder does not keep `low ≤ high`.  After the calls `encode(1, 32768)`,
`encode(0, 32767)`, `encode(1, 0)` on a fresh `RangeCoder` the interval is
`low = 0x7FFF8002`, `high = 0x80000000`; the call `encode(1, 0)` that follows returns with
`low = 0x01000000` above `high = 0x00FFFFFF`.  The same happens under the one probability
16384, after the 29th call.  The decoder does keep `low ≤ high` after every `decode` call,
on every stream and with every sequence of probabilities. -/
theorem encode_low_above_high :
    (((RangeCoder.new.encode 1 32768).encode 0 32767).encode 1 0).low = 2147450882 ∧
    (((RangeCoder.new.encode 1 32768).encode 0 32767).encode 1 0).high = 2147483648 ∧
    ((((RangeCoder.new.encode 1 32768).encode 0 32767).encode 1 0).encode 1 0).low
      = 16777216 ∧
    ((((RangeCoder.new.encode 1 32768).encode 0 32767).encode 1 0).encode 1 0).high
      = 16777215 ∧
    ([1, 0, 0, 1, 1, 0, 1, 0, 0, 1, 1, 1, 0, 1, 0, 0, 0, 1, 0, 1, 0, 1, 0, 0, 0, 1, 1, 0, 1].foldl
        (fun c bit => c.encode bit 16384) RangeCoder.new).high
      < ([1, 0, 0, 1, 1, 0, 1, 0, 0, 1, 1, 1, 0, 1, 0, 0, 0, 1, 0, 1, 0, 1, 0, 0, 0, 1, 1, 0, 1].foldl
        (fun c bit => c.encode bit 16384) RangeCoder.new).low ∧
    (∀ stream ps : List Nat,
      (ps.foldl (fun d p => (d.decode p).2) (RangeDecoder.new stream)).low
        ≤ (ps.foldl (fun d p => (d.decode p).2) (RangeDecoder.new stream)).high) :=
  ⟨by decide, by decide, by decide, by decide, by decide, decode_low_le_high⟩

/-! ## The match length under the block driver -/

/-- The driver's update of its eight models acts on each match model as `driveByte`. -/
theorem encodeByte_match (M : Mixer) (st : Coding M × RangeCoder) (byte : Nat) :
    (encodeByte M st byte).1.mods.match4 = (st.1.mods.match4.driveByte byte).1 ∧
    (encodeByte M st byte).1.mods.match8 = (st.1.mods.match8.driveByte byte).1 :=
  ⟨rfl, rfl⟩

theorem matchPredict_values (m : MatchModel) (h : m.matchLen ≤ 1) :
    m.predict = 32768 ∨ m.predict = 33024 ∨ m.predict = 32512 := by
  unfold MatchModel.predict
  split
  · exact Or.inl rfl
  · rename_i hc
    have h1 : m.matchLen = 1 := by omega
    simp only [h1, if_true]
    split
    · right
      left
      decide
    · right
      right
      decide

theorem updateByte_boundary (m : MatchModel) (b : Nat)
    (hmod : (m.bufPos + 1) % WINDOW_SIZE = m.bufPos + 1) (hb : m.bitPos = 0)
    (hl : m.bufPos < m.contextSize → m.matchLen = 0) :
    (m.updateByte b).contextSize = m.contextSize ∧
    (m.updateByte b).bufPos = m.bufPos + 1 ∧
    (m.updateByte b).bitPos = 0 ∧
    (m.updateByte b).matchLen ≤ 1 ∧
    (m.bufPos + 1 ≤ m.contextSize → (m.updateByte b).matchLen = 0) := by
  unfold MatchModel.updateByte
  by_cases hc : m.contextSize ≤ m.bufPos
  · rw [if_pos (Or.inl hc)]
    dsimp only
    split
    · exact ⟨rfl, hmod, rfl, Nat.le_refl 1, fun h => by omega⟩
    · exact ⟨rfl, hmod, rfl, Nat.zero_le 1, fun _ => rfl⟩
  · rw [if_neg (by omega)]
    have h0 := hl (by omega)
    exact ⟨rfl, hmod, hb, by dsimp only; omega, fun _ => h0⟩

/-- One byte of the driver on a match model that stands at a byte boundary: the eight
states in which `predict` is called keep the match length, and the model is at a byte
boundary again afterwards. -/
theorem driveByte_inv (m : MatchModel) (byte k : Nat) (hk : k + 1 < 1048576)
    (hpos : m.bufPos = k) (hbit : m.bitPos = 0) (hlen : m.matchLen ≤ 1)
    (hpre : k ≤ m.contextSize → m.matchLen = 0) :
    (∀ s ∈ (m.driveByte byte).2, s.matchLen = m.matchLen) ∧
    (m.driveByte byte).1.contextSize = m.contextSize ∧
    (m.driveByte byte).1.bufPos = k + 1 ∧
    (m.driveByte byte).1.bitPos = 0 ∧
    (m.driveByte byte).1.matchLen ≤ 1 ∧
    (k + 1 ≤ m.contextSize → (m.driveByte byte).1.matchLen = 0) := by
  obtain ⟨cs, buf, bp, lp, mp, ml, bi⟩ := m
  dsimp only at hpos hbit hlen hpre
  subst hpos hbit
  have hmod : (bp + 1) % WINDOW_SIZE = bp + 1 := Nat.mod_eq_of_lt hk
  simp only [MatchModel.driveByte, List.foldl_cons, List.foldl_nil, MatchModel.updateBit,
    List.nil_append, List.cons_append, List.singleton_append, List.append_assoc]
  norm_num
  have key : ∀ s8 : MatchModel, s8.contextSize = cs → s8.bufPos = bp → s8.bitPos = 0 →
      (bp < cs → s8.matchLen = 0) →
      (s8.updateByte byte).contextSize = cs ∧ (s8.updateByte byte).bufPos = bp + 1 ∧
      (s8.updateByte byte).bitPos = 0 ∧ (s8.updateByte byte).matchLen ≤ 1 ∧
      (bp + 1 ≤ cs → (s8.updateByte byte).matchLen = 0) := by
    intro s8 h1 h2 h3 h4
    have := updateByte_boundary s8 byte (by rw [h2]; exact hmod) h3 (by rw [h1, h2]; exact h4)
    rw [h1, h2] at this
    exact this
  apply key
  · split
    · split <;> rfl
    · rfl
  · split
    · split <;> rfl
    · rfl
  · split
    · split <;> rfl
    · rfl
  · intro hlt
    have h0 := hpre (by omega)
    subst h0
    rw [if_neg (by omega)]

theorem drive_inv (c : Nat) (bytes : List Nat) (m : MatchModel) (k : Nat)
    (hk : k + bytes.length < 1048576) (hcs : m.contextSize = c)
    (hpos : m.bufPos = k) (hbit : m.bitPos = 0) (hlen : m.matchLen ≤ 1)
    (hpre : k ≤ c → m.matchLen = 0) :
    ∀ s ∈ MatchModel.drive m bytes, s.matchLen ≤ 1 := by
  induction bytes generalizing m k with
  | nil =>
    intro s hs
    simp [MatchModel.drive] at hs
  | cons b rest ih =>
    rw [List.length_cons] at hk
    obtain ⟨h1, h2, h3, h4, h5, h6⟩ :=
      driveByte_inv m b k (by omega) hpos hbit hlen (by rw [hcs]; exact hpre)
    intro s hs
    rw [MatchModel.drive] at hs
    rcases List.mem_append.mp hs with h | h
    · rw [h1 s h]
      exact hlen
    · exact ih (m.driveByte b).1 (k + 1) (by omega) (by rw [h2, hcs]) h3 h4 h5
        (by rw [← hcs]; exact h6) s h

/-- C23. Starting from a fresh `MatchModel` (of any context size, in particular 4 and 8)
driven in the call order of the block driver (per byte eight times `predict` then
`updateBit`, then one `updateByte`), for any stream of fewer than `2^20` bytes the match
length is 0 or 1 at every `predict` call, and `predict` returns `32768`, `32768 + 256` or
`32768 - 256`: the confidence levels 1024, 4096 and 8192 are never used. -/
theorem drive_matchLen_le_one (c : Nat) (bytes : List Nat) (hlen : bytes.length < 1048576) :
    ∀ s ∈ MatchModel.drive (MatchModel.new c) bytes,
      (s.matchLen = 0 ∨ s.matchLen = 1) ∧
      (s.predict = 32768 ∨ s.predict = 32768 + 256 ∨ s.predict = 32768 - 256) := by
  intro s hs
  have h := drive_inv c bytes (MatchModel.new c) 0 (by omega) rfl rfl rfl (Nat.zero_le 1)
    (fun _ => rfl) s hs
  exact ⟨by omega, matchPredict_values s h⟩

/-- The stream `1 2 3 4 1 2 3 4 1 2` through a match model of context size 4. -/
theorem drive_matchLen_le_one_witness :
    ([1, 2, 3, 4, 1, 2, 3, 4, 1, 2] : List Nat).length < 1048576 ∧
    ∀ s ∈ MatchModel.drive (MatchModel.new 4) [1, 2, 3, 4, 1, 2, 3, 4, 1, 2],
      (s.matchLen = 0 ∨ s.matchLen = 1) ∧
      (s.predict = 32768 ∨ s.predict = 32768 + 256 ∨ s.predict = 32768 - 256) :=
  ⟨by decide, drive_matchLen_le_one 4 [1, 2, 3, 4, 1, 2, 3, 4, 1, 2] (by decide)⟩

/-! ## The renormalisation loops end -/

theorem trace_cons (x : Option (List Bool)) (b : Bool) (n m : Nat) (hnm : n + 1 ≤ m)
    (h : ∃ tr, x = some tr ∧ tr.length ≤ n) :
    ∃ tr, x.map (fun tr => b :: tr) = some tr ∧ tr.length ≤ m := by
  obtain ⟨tr, htr, hlen⟩ := h
  rw [htr]
  exact ⟨b :: tr, rfl, by rw [List.length_cons]; omega⟩

theorem encTrace_settled (fuel k : Nat) (c : RangeCoder)
    (h : Settled k c.low c.high) (hf : 32 - k < fuel) :
    ∃ tr, RangeCoder.renormTrace fuel c = some tr ∧ tr.length ≤ 32 - k := by
  induction fuel generalizing k c with
  | zero => omega
  | succ fuel ih =>
    by_cases hk : 32 ≤ k
    · obtain ⟨hl, hh⟩ := settled_full c.low c.high k hk h
      refine ⟨[], ?_, Nat.zero_le _⟩
      rw [RangeCoder.renormTrace, hl, hh]
      rfl
    · rw [RangeCoder.renormTrace]
      split
      · rw [shift8_low, shift8_high]
        rcases settled_shift8 c.low c.high k h with h8 | h8
        · exact trace_cons _ true (32 - (k + 8)) (32 - k) (by omega) (ih (k + 8) _ h8 (by omega))
        · exact trace_cons _ true (32 - (32)) (32 - k) (by omega) (ih (32) _ h8 (by omega))
      · split
        · rw [shift1_low, shift1_high]
          rcases settled_shift1 c.low c.high k h with h1 | h1
          · exact trace_cons _ false (32 - (k + 1)) (32 - k) (by omega) (ih (k + 1) _ h1 (by omega))
          · exact trace_cons _ false (32 - (32)) (32 - k) (by omega) (ih (32) _ h1 (by omega))
        · exact ⟨[], rfl, Nat.zero_le _⟩

theorem decTrace_settled (fuel k : Nat) (d : RangeDecoder)
    (h : Settled k d.low d.high) (hf : 32 - k < fuel) :
    ∃ tr, RangeDecoder.renormTrace fuel d = some tr ∧ tr.length ≤ 32 - k := by
  induction fuel generalizing k d with
  | zero => omega
  | succ fuel ih =>
    by_cases hk : 32 ≤ k
    · obtain ⟨hl, hh⟩ := settled_full d.low d.high k hk h
      refine ⟨[], ?_, Nat.zero_le _⟩
      rw [RangeDecoder.renormTrace, hl, hh]
      rfl
    · rw [RangeDecoder.renormTrace]
      split
      · rw [shift8_low, shift8_high]
        rcases settled_shift8 d.low d.high k h with h8 | h8
        · exact trace_cons _ true (32 - (k + 8)) (32 - k) (by omega) (ih (k + 8) _ h8 (by omega))
        · exact trace_cons _ true (32 - (32)) (32 - k) (by omega) (ih (32) _ h8 (by omega))
      · split
        · rw [shift1_low, shift1_high]
          rcases settled_shift1 d.low d.high k h with h1 | h1
          · exact trace_cons _ false (32 - (k + 1)) (32 - k) (by omega) (ih (k + 1) _ h1 (by omega))
          · exact trace_cons _ false (32 - (32)) (32 - k) (by omega) (ih (32) _ h1 (by omega))
        · exact ⟨[], rfl, Nat.zero_le _⟩

/-- When the recorded loop has reached its `break`, the state `renorm` returns is the
state at that `break`: neither loop condition holds in it. -/
theorem encTrace_exit (fuel : Nat) (c : RangeCoder) (tr : List Bool)
    (h : RangeCoder.renormTrace fuel c = some tr) :
    ¬ ((RangeCoder.renorm fuel c).high &&& 4278190080
        = (RangeCoder.renorm fuel c).low &&& 4278190080) ∧
    ¬ ((RangeCoder.renorm fuel c).low &&& 2147483648 ≠ 0 ∧
        (RangeCoder.renorm fuel c).high &&& 2147483648 = 0) := by
  induction fuel generalizing c tr with
  | zero =>
    rw [RangeCoder.renormTrace] at h
    cases h
  | succ fuel ih =>
    rw [RangeCoder.renormTrace] at h
    rw [RangeCoder.renorm]
    by_cases hb : c.high &&& 4278190080 = c.low &&& 4278190080
    · rw [if_pos hb] at h ⊢
      obtain ⟨tr', htr, _⟩ := Option.map_eq_some'.mp h
      exact ih _ tr' htr
    · rw [if_neg hb] at h ⊢
      by_cases hs : c.low &&& 2147483648 ≠ 0 ∧ c.high &&& 2147483648 = 0
      · rw [if_pos hs] at h ⊢
        obtain ⟨tr', htr, _⟩ := Option.map_eq_some'.mp h
        exact ih _ tr' htr
      · rw [if_neg hs]
        exact ⟨hb, hs⟩

theorem decTrace_exit (fuel : Nat) (d : RangeDecoder) (tr : List Bool)
    (h : RangeDecoder.renormTrace fuel d = some tr) :
    ¬ ((RangeDecoder.renorm fuel d).high &&& 4278190080
        = (RangeDecoder.renorm fuel d).low &&& 4278190080) ∧
    ¬ ((RangeDecoder.renorm fuel d).low &&& 2147483648 ≠ 0 ∧
        (RangeDecoder.renorm fuel d).high &&& 2147483648 = 0) := by
  induction fuel generalizing d tr with
  | zero =>
    rw [RangeDecoder.renormTrace] at h
    cases h
  | succ fuel ih =>
    rw [RangeDecoder.renormTrace] at h
    rw [RangeDecoder.renorm]
    by_cases hb : d.high &&& 4278190080 = d.low &&& 4278190080
    · rw [if_pos hb] at h ⊢
      obtain ⟨tr', htr, _⟩ := Option.map_eq_some'.mp h
      exact ih _ tr' htr
    · rw [if_neg hb] at h ⊢
      by_cases hs : d.low &&& 2147483648 ≠ 0 ∧ d.high &&& 2147483648 = 0
      · rw [if_pos hs] at h ⊢
        obtain ⟨tr', htr, _⟩ := Option.map_eq_some'.mp h
        exact ih _ tr' htr
      · rw [if_neg hs]
        exact ⟨hb, hs⟩

theorem encRenorm_emitted (fuel : Nat) (c : RangeCoder) :
    (RangeCoder.renorm fuel c).os.length + (RangeCoder.renorm fuel c).follow
      ≤ c.os.length + c.follow + fuel := by
  induction fuel generalizing c with
  | zero => exact Nat.le_refl _
  | succ fuel ih =>
    rw [RangeCoder.renorm]
    split
    · refine Nat.le_trans (ih _) ?_
      simp only [List.length_append, List.length_singleton, List.length_replicate]
      omega
    · split
      · refine Nat.le_trans (ih _) ?_
        have hu : u32 (c.follow + 1) ≤ c.follow + 1 := Nat.mod_le _ _
        dsimp only
        omega
      · omega

/-- C22. For every 32-bit `low`, `high` (any `follow`, `code`, output and input), states
with `low > high` included, the renormalisation loop of `RangeCoder.encode` and of
`RangeDecoder.decode` reaches its `break` after at most 32 iterations: the recorded run
has at most 32 steps, the state returned by the loop satisfies neither loop condition,
more iterations change nothing, and the encoder emits at most `follow + 32` bytes. -/
theorem renorm_terminates (c : RangeCoder) (d : RangeDecoder)
    (hcl : c.low < 4294967296) (hch : c.high < 4294967296)
    (hdl : d.low < 4294967296) (hdh : d.high < 4294967296) :
    (∃ tr, RangeCoder.renormTrace 33 c = some tr ∧ tr.length ≤ 32) ∧
    (¬ ((RangeCoder.renorm 32 c).high &&& 4278190080
          = (RangeCoder.renorm 32 c).low &&& 4278190080) ∧
     ¬ ((RangeCoder.renorm 32 c).low &&& 2147483648 ≠ 0 ∧
          (RangeCoder.renorm 32 c).high &&& 2147483648 = 0)) ∧
    (∀ extra, RangeCoder.renorm (32 + extra) c = RangeCoder.renorm 32 c) ∧
    (RangeCoder.renorm 32 c).os.length ≤ c.os.length + c.follow + 32 ∧
    (∃ tr, RangeDecoder.renormTrace 33 d = some tr ∧ tr.length ≤ 32) ∧
    (¬ ((RangeDecoder.renorm 32 d).high &&& 4278190080
          = (RangeDecoder.renorm 32 d).low &&& 4278190080) ∧
     ¬ ((RangeDecoder.renorm 32 d).low &&& 2147483648 ≠ 0 ∧
          (RangeDecoder.renorm 32 d).high &&& 2147483648 = 0)) ∧
    (∀ extra, RangeDecoder.renorm (32 + extra) d = RangeDecoder.renorm 32 d) := by
  obtain ⟨tr, htr, hlen⟩ := encTrace_settled 33 0 c (settled_zero _ _ hcl hch) (by omega)
  obtain ⟨tr2, htr2, hlen2⟩ := decTrace_settled 33 0 d (settled_zero _ _ hdl hdh) (by omega)
  have e1 := encTrace_exit 33 c tr htr
  have e2 := decTrace_exit 33 d tr2 htr2
  rw [show (33 : Nat) = 32 + 1 from rfl, encRenorm_fuel c hcl hch 1] at e1
  rw [show (33 : Nat) = 32 + 1 from rfl, decRenorm_fuel d hdl hdh 1] at e2
  have e3 := encRenorm_emitted 32 c
  exact ⟨⟨tr, htr, hlen⟩, e1, encRenorm_fuel c hcl hch, by omega, ⟨tr2, htr2, hlen2⟩, e2,
    decRenorm_fuel d hdl hdh⟩

/-- A coder with `low = 0xFFFFFFFF` above `high = 0` and a decoder in its fresh state. -/
theorem renorm_terminates_witness :
    (4294967295 : Nat) < 4294967296 ∧ (0 : Nat) < 4294967296 ∧
    (∃ tr, RangeCoder.renormTrace 33
        { low := 4294967295, high := 0, follow := 0, os := [] } = some tr ∧ tr.length ≤ 32) :=
  ⟨by decide, by decide,
   (renorm_terminates { low := 4294967295, high := 0, follow := 0, os := [] }
      (RangeDecoder.new []) (by decide) (by decide) (by decide) (by decide)).1⟩

/-! ## The loops on an ordered interval -/

theorem encTrace_ordered (fuel : Nat) (c : RangeCoder) (tr : List Bool)
    (hc : c.low ≤ c.high) (hh : c.high < 4294967296)
    (h : RangeCoder.renormTrace fuel c = some tr) :
    (∀ t ∈ tr, t = true) ∧
    (RangeCoder.renorm fuel c).low ≤ (RangeCoder.renorm fuel c).high ∧
    (RangeCoder.renorm fuel c).follow = (if tr = [] then c.follow else 0) ∧
    (RangeCoder.renorm fuel c).os.length
      = c.os.length + tr.length + (if tr = [] then 0 else c.follow) := by
  induction fuel generalizing c tr with
  | zero =>
    rw [RangeCoder.renormTrace] at h
    cases h
  | succ fuel ih =>
    rw [RangeCoder.renormTrace] at h
    rw [RangeCoder.renorm]
    by_cases hb : c.high &&& 4278190080 = c.low &&& 4278190080
    · rw [if_pos hb] at h ⊢
      obtain ⟨tr', htr, hcons⟩ := Option.map_eq_some'.mp h
      subst hcons
      rw [and_top_byte _ hh, and_top_byte _ (by omega)] at hb
      obtain ⟨g1, g2, g3, g4⟩ := ih _ tr' (by
          dsimp only
          rw [shift8_low, shift8_high]
          omega) (by
          dsimp only
          rw [shift8_high]
          omega) htr
      refine ⟨?_, g2, ?_, ?_⟩
      · intro t ht
        rcases List.mem_cons.mp ht with e | e
        · exact e
        · exact g1 t e
      · rw [g3, if_neg (List.cons_ne_nil _ _)]
        dsimp only
        split <;> rfl
      · rw [g4, if_neg (List.cons_ne_nil _ _)]
        dsimp only
        have e0 : (if tr' = [] then 0 else 0) = 0 := by split <;> rfl
        rw [e0]
        simp only [List.length_append, List.length_singleton, List.length_replicate,
          List.length_cons, List.length_nil]
        omega
    · rw [if_neg hb] at h ⊢
      by_cases hs : c.low &&& 2147483648 ≠ 0 ∧ c.high &&& 2147483648 = 0
      · exfalso
        rw [and_top_bit _ hh, and_top_bit _ (by omega)] at hs
        omega
      · rw [if_neg hs] at h ⊢
        rw [Option.some.injEq] at h
        subst h
        exact ⟨fun t ht => by simp at ht, hc, by simp, by simp⟩

theorem decTrace_ordered (fuel : Nat) (d : RangeDecoder) (tr : List Bool)
    (hd : d.low ≤ d.high) (hh : d.high < 4294967296)
    (h : RangeDecoder.renormTrace fuel d = some tr) :
    (∀ t ∈ tr, t = true) ∧
    (RangeDecoder.renorm fuel d).low ≤ (RangeDecoder.renorm fuel d).high := by
  induction fuel generalizing d tr with
  | zero =>
    rw [RangeDecoder.renormTrace] at h
    cases h
  | succ fuel ih =>
    rw [RangeDecoder.renormTrace] at h
    rw [RangeDecoder.renorm]
    by_cases hb : d.high &&& 4278190080 = d.low &&& 4278190080
    · rw [if_pos hb] at h ⊢
      obtain ⟨tr', htr, hcons⟩ := Option.map_eq_some'.mp h
      subst hcons
      rw [and_top_byte _ hh, and_top_byte _ (by omega)] at hb
      obtain ⟨g1, g2⟩ := ih _ tr' (by
          dsimp only
          rw [shift8_low, shift8_high]
          omega) (by
          dsimp only
          rw [shift8_high]
          omega) htr
      refine ⟨?_, g2⟩
      intro t ht
      rcases List.mem_cons.mp ht with e | e
      · exact e
      · exact g1 t e
    · rw [if_neg hb] at h ⊢
      by_cases hs : d.low &&& 2147483648 ≠ 0 ∧ d.high &&& 2147483648 = 0
      · exfalso
        rw [and_top_bit _ hh, and_top_bit _ (by omega)] at hs
        omega
      · rw [if_neg hs] at h ⊢
        rw [Option.some.injEq] at h
        subst h
        exact ⟨fun t ht => by simp at ht, hd⟩

/-- C21 (amended). In `RangeCoder.encode` and `RangeDecoder.decode`, if `low ≤ high`
holds (for 32-bit values) when the renormalisation loop is entered, the loop ends having
taken only byte branches: the straddle branch is never executed, `follow` is not
incremented (it is left as it was, or 0 once a byte has been emitted), and `low ≤ high`
still holds at the exit.  The encoder emits one byte per byte branch, and after the first
of them the complement bytes that were pending in `follow` at the entry: none when
`follow = 0` there. -/
theorem renorm_ordered (c : RangeCoder) (d : RangeDecoder)
    (hc : c.low ≤ c.high) (hch : c.high < 4294967296)
    (hd : d.low ≤ d.high) (hdh : d.high < 4294967296) :
    (∃ tr, RangeCoder.renormTrace 33 c = some tr ∧ (∀ t ∈ tr, t = true) ∧
      (RangeCoder.renorm 32 c).follow = (if tr = [] then c.follow else 0) ∧
      (RangeCoder.renorm 32 c).os.length
        = c.os.length + tr.length + (if tr = [] then 0 else c.follow) ∧
      (RangeCoder.renorm 32 c).low ≤ (RangeCoder.renorm 32 c).high) ∧
    (∃ tr, RangeDecoder.renormTrace 33 d = some tr ∧ (∀ t ∈ tr, t = true) ∧
      (RangeDecoder.renorm 32 d).low ≤ (RangeDecoder.renorm 32 d).high) := by
  have hcl : c.low < 4294967296 := by omega
  have hdl : d.low < 4294967296 := by omega
  obtain ⟨tr, htr, _⟩ := encTrace_settled 33 0 c (settled_zero _ _ hcl hch) (by omega)
  obtain ⟨tr2, htr2, _⟩ := decTrace_settled 33 0 d (settled_zero _ _ hdl hdh) (by omega)
  obtain ⟨g1, g2, g3, g4⟩ := encTrace_ordered 33 c tr hc hch htr
  obtain ⟨k1, k2⟩ := decTrace_ordered 33 d tr2 hd hdh htr2
  rw [show (33 : Nat) = 32 + 1 from rfl, encRenorm_fuel c hcl hch 1] at g2 g3 g4
  rw [show (33 : Nat) = 32 + 1 from rfl, decRenorm_fuel d hdl hdh 1] at k2
  exact ⟨⟨tr, htr, g1, g3, g4, g2⟩, ⟨tr2, htr2, k1, k2⟩⟩

/-- A coder whose bounds share the top byte `0x12`, with nothing pending, and a fresh
decoder. -/
theorem renorm_ordered_witness :
    (305419896 : Nat) ≤ 305419897 ∧ (305419897 : Nat) < 4294967296 ∧
    (∃ tr, RangeCoder.renormTrace 33
        { low := 305419896, high := 305419897, follow := 0, os := [] } = some tr ∧
      (∀ t ∈ tr, t = true) ∧
      (RangeCoder.renorm 32
        { low := 305419896, high := 305419897, follow := 0, os := [] }).follow
        = (if tr = [] then 0 else 0) ∧
      (RangeCoder.renorm 32
        { low := 305419896, high := 305419897, follow := 0, os := [] }).os.length
        = 0 + tr.length + (if tr = [] then 0 else 0) ∧
      (RangeCoder.renorm 32
        { low := 305419896, high := 305419897, follow := 0, os := [] }).low
        ≤ (RangeCoder.renorm 32
        { low := 305419896, high := 305419897, follow := 0, os := [] }).high) :=
  ⟨by decide, by decide,
   (renorm_ordered { low := 305419896, high := 305419897, follow := 0, os := [] }
      (RangeDecoder.new []) (by decide) (by decide) (by decide) (by decide)).1⟩

/-- C21 (as stated, refuted). Complement bytes are emitted in a loop that is entered with
`low ≤ high` when `follow` is not 0 there.  After the calls `encode(1, 0)`,
`encode(0, 32767)`, `encode(1, 0)`, `encode(1, 0)`, `encode(1, 0)`, `encode(1, 32767)` on
a fresh coder `follow = 1`; the call `encode(0, 65534)` enters its loop with
`low = 0x02000002 ≤ high = 0x02010001`, takes the byte branch once and emits `0x02`
followed by the complement byte `0xFD`. -/
theorem renorm_emits_pending_complement :
    (RangeCoder.renorm 32 { low := 0, high := 16777215, follow := 1, os := [] }).os
      = [0, 255] ∧
    ([(1, 0), (0, 32767), (1, 0), (1, 0), (1, 0), (1, 32767)].foldl
      (fun (c : RangeCoder) (bp : Nat × Nat) => c.encode bp.1 bp.2) RangeCoder.new).follow = 1 ∧
    ([(1, 0), (0, 32767), (1, 0), (1, 0), (1, 0), (1, 32767)].foldl
      (fun (c : RangeCoder) (bp : Nat × Nat) => c.encode bp.1 bp.2) RangeCoder.new).low
      = 33554434 ∧
    coderBound 33554434
      ([(1, 0), (0, 32767), (1, 0), (1, 0), (1, 0), (1, 32767)].foldl
        (fun (c : RangeCoder) (bp : Nat × Nat) => c.encode bp.1 bp.2) RangeCoder.new).high
      65534 = 33619969 ∧
    RangeCoder.renormTrace 33
      { low := 33554434, high := 33619969, follow := 1, os := [128, 0, 0] } = some [true] ∧
    ([(1, 0), (0, 32767), (1, 0), (1, 0), (1, 0), (1, 32767), (0, 65534)].foldl
      (fun (c : RangeCoder) (bp : Nat × Nat) => c.encode bp.1 bp.2) RangeCoder.new).os
      = [128, 0, 0, 2, 253] := by
  decide

end ZeroBit
